import Mathlib

/-!
Verification of the size-optimized serialization codec
(`src/Platform_Engineer/Rust/solution/src/`): bit streams (`bit_packer.rs`),
the unary-prefixed VarInt, the ultrapack base-N bundler (`ultra_packer.rs`),
the length-limited Huffman table builder (`huffman.rs`) and the columnar
serializer / deserializer (`serializer.rs`).

Machine integers are modelled as `Nat` (with explicit `% 2 ^ w` where the Rust
code can truncate) and `Int` for `i64` values; Rust panics (`unreachable!`,
`expect`, failed `assert`) are modelled as `Option` failure.  Reader methods
take `&mut self` and mutate even on a failing path, so they are modelled as
`Unpacker → Option α × Unpacker`, returning the mutated state in both cases.
-/

namespace Spec2Proof

/-! ### Bit-string helpers -/

/-- MSB-first list of the low `w` bits of `v`. -/
def natToBits (w v : Nat) : List Bool :=
  (List.range w).map (fun i => v.testBit (w - 1 - i))

/-- Value of an MSB-first bit list. -/
def natOfBits : List Bool → Nat
  | [] => 0
  | b :: rest => (if b then 1 else 0) * 2 ^ rest.length + natOfBits rest

/-- Little-endian value of a byte list (`u64::from_le_bytes`). -/
def leVal : List Nat → Nat
  | [] => 0
  | b :: rest => b + 256 * leVal rest

/-- Little-endian byte list of length `n` of `v` (`u64::to_le_bytes`). -/
def leBytes (n v : Nat) : List Nat :=
  (List.range n).map (fun i => v / 256 ^ i % 256)

/-- The MSB-first bits of one byte. -/
def byteBits (b : Nat) : List Bool := natToBits 8 b

/-- The full bit string of a byte buffer. -/
def bufBits : List Nat → List Bool
  | [] => []
  | b :: rest => byteBits b ++ bufBits rest

/-! ### BitPacker (`bit_packer.rs`, `struct BitPacker`)

The buffer is a byte list; `bitOffset` counts the bits already used in the
last byte. -/

structure Packer where
  buffer : List Nat
  bitOffset : Nat
  deriving Repr, DecidableEq

/-- Last byte of the buffer (the Rust code indexes `buffer[buffer.len() - 1]`;
the buffer is never empty after `BitPacker::new`). -/
def lastGet (l : List Nat) : Nat := l.getLastD 0

/-- Replace the last byte. -/
def setLast (l : List Nat) (v : Nat) : List Nat := l.set (l.length - 1) v

/-- `BitPacker::new`: clear the caller's buffer and push a zero byte. -/
def packerNew : Packer := { buffer := [0], bitOffset := 0 }

/-- `BitPacker::ensure_space`. -/
def ensureSpace (p : Packer) : Packer :=
  if p.bitOffset = 8 then { buffer := p.buffer ++ [0], bitOffset := 0 } else p

/-- `BitPacker::write_bit`. -/
def writeBit (p : Packer) (bit : Bool) : Packer :=
  let p := ensureSpace p
  { buffer := setLast p.buffer
      (lastGet p.buffer ||| ((if bit then 1 else 0) <<< (7 - p.bitOffset))),
    bitOffset := p.bitOffset + 1 }

/-- `BitPacker::write_bits`.  `bits & ((1u16 << width) - 1) as u8` is
`bits % 2 ^ width` for `width ≤ 8`; the `u8` shift `bits << (8 - overflow)`
truncates, hence the `% 256`. -/
def writeBits (p : Packer) (bits w : Nat) : Packer :=
  let p := ensureSpace p
  let bits := bits % 2 ^ w
  let space := 8 - p.bitOffset
  if w ≤ space then
    { buffer := setLast p.buffer (lastGet p.buffer ||| (bits <<< (space - w))),
      bitOffset := p.bitOffset + w }
  else
    let overflow := w - space
    { buffer := setLast p.buffer (lastGet p.buffer ||| (bits >>> overflow))
        ++ [(bits <<< (8 - overflow)) % 256],
      bitOffset := overflow }

/-- `BitPacker::write_byte` (the `u8` shift `byte << (8 - bit_offset)`
truncates, hence the `% 256`). -/
def writeByte (p : Packer) (byte : Nat) : Packer :=
  let p := ensureSpace p
  if p.bitOffset = 0 then
    { buffer := setLast p.buffer byte, bitOffset := 8 }
  else
    { buffer := setLast p.buffer (lastGet p.buffer ||| (byte >>> p.bitOffset))
        ++ [(byte <<< (8 - p.bitOffset)) % 256],
      bitOffset := p.bitOffset }

/-- `BitPacker::write_bytes`. -/
def writeBytes (p : Packer) (bytes : List Nat) : Packer :=
  bytes.foldl writeByte p

/-- `BitPacker::write_bits_u16` (the `u16 as u8` casts truncate to `% 256`). -/
def writeBitsU16 (p : Packer) (bits w : Nat) : Packer :=
  if w ≤ 8 then writeBits p (bits % 256) w
  else writeByte (writeBits p ((bits >>> 8) % 256) (w - 8)) (bits % 256)

/-- `BitPacker::write_bytes_width`: high fragment (`width % 8` bits of
`bytes[width / 8]`) first, then the full bytes from most to least significant.
Rust panics on an out-of-range index; every caller passes an 8-byte
little-endian buffer with `width ≤ 64`, so the `getD` default is never
reached there. -/
def writeBytesWidth (p : Packer) (bytes : List Nat) (w : Nat) : Packer :=
  let highBits := w % 8
  let fullBytes := w / 8
  let p := if 0 < highBits then writeBits p (bytes.getD fullBytes 0) highBits else p
  ((List.range fullBytes).reverse).foldl (fun q i => writeByte q (bytes.getD i 0)) p

/-! ### VarInt (`bit_packer.rs`, `INT_WIDTHS`, `int_slot_width`,
`int_encoded_bits`, `write_int`) -/

/-- `INT_WIDTHS`. -/
def INT_WIDTHS : List Nat := [3, 7, 9, 15, 24, 45, 64]

/-- `int_slot_width` slot: first slot whose width fits (`w >= 64` or
`int < 1 << w`); `unwrap_or` the last slot. -/
def intSlot (int : Int) : Nat :=
  (INT_WIDTHS.findIdx? (fun w => 64 ≤ w || decide (int < (2 : Int) ^ w))).getD 6

/-- Payload width of the selected slot. -/
def intWidth (int : Int) : Nat := INT_WIDTHS.getD (intSlot int) 0

/-- `int_encoded_bits`: unary prefix (slot ones plus a terminating zero,
omitted in the last slot) plus the payload width. -/
def intEncodedBits (int : Int) : Nat :=
  let slot := intSlot int
  (if slot = INT_WIDTHS.length - 1 then slot else slot + 1) + intWidth int

/-- Two's-complement `u64` image of an `i64` (`int.to_le_bytes`). -/
def i64Bytes (int : Int) : Nat := (int % (2 : Int) ^ 64).toNat

/-- `BitPacker::write_int`. -/
def writeInt (p : Packer) (int : Int) : Packer :=
  let slot := intSlot int
  let width := intWidth int
  let p := (List.range slot).foldl (fun q _ => writeBit q true) p
  let p := if slot < INT_WIDTHS.length - 1 then writeBit p false else p
  writeBytesWidth p (leBytes 8 (i64Bytes int)) width

/-! ### BitUnpacker (`bit_packer.rs`, `struct BitUnpacker`)

Reads return the possibly-mutated reader next to the result, mirroring
`&mut self` methods whose `?` early-returns keep prior mutations. -/

structure Unpacker where
  buffer : List Nat
  byteIndex : Nat
  bitOffset : Nat
  deriving Repr, DecidableEq

/-- `BitUnpacker::new`. -/
def unpackerNew (buffer : List Nat) : Unpacker :=
  { buffer := buffer, byteIndex := 0, bitOffset := 0 }

/-- Absolute bit position of the reader. -/
def upos (u : Unpacker) : Nat := 8 * u.byteIndex + u.bitOffset

/-- `BitUnpacker::advance`. -/
def uAdvance (u : Unpacker) : Unpacker :=
  if u.bitOffset + 1 = 8 then
    { u with byteIndex := u.byteIndex + 1, bitOffset := 0 }
  else { u with bitOffset := u.bitOffset + 1 }

/-- `BitUnpacker::read_bit`. -/
def readBit (u : Unpacker) : Option Bool × Unpacker :=
  match u.buffer.get? u.byteIndex with
  | none => (none, u)
  | some byte => (some (decide ((byte >>> (7 - u.bitOffset)) % 2 ≠ 0)), uAdvance u)

/-- `BitUnpacker::read_bits` (`& mask` with `mask = 2 ^ width - 1` written as
`% 2 ^ width`; likewise `byte & ((1 << space) - 1)` as `% 2 ^ space`). -/
def readBits (u : Unpacker) (w : Nat) : Option Nat × Unpacker :=
  let space := 8 - u.bitOffset
  match u.buffer.get? u.byteIndex with
  | none => (none, u)
  | some byte =>
    if w ≤ space then
      let result := (byte >>> (space - w)) % 2 ^ w
      if u.bitOffset + w = 8 then
        (some result, { u with byteIndex := u.byteIndex + 1, bitOffset := 0 })
      else (some result, { u with bitOffset := u.bitOffset + w })
    else
      let overflow := w - space
      let first := byte % 2 ^ space
      let u1 : Unpacker := { u with byteIndex := u.byteIndex + 1 }
      match u1.buffer.get? u1.byteIndex with
      | none => (none, u1)
      | some second =>
        (some ((first <<< overflow) ||| (second >>> (8 - overflow))),
         { u1 with bitOffset := overflow })

/-- `BitUnpacker::read_byte` (the `u8` shift `byte << bit_offset` truncates,
hence the `% 256`). -/
def readByte (u : Unpacker) : Option Nat × Unpacker :=
  match u.buffer.get? u.byteIndex with
  | none => (none, u)
  | some byte =>
    if u.bitOffset = 0 then (some byte, { u with byteIndex := u.byteIndex + 1 })
    else
      let space := 8 - u.bitOffset
      let u1 : Unpacker := { u with byteIndex := u.byteIndex + 1 }
      match u1.buffer.get? u1.byteIndex with
      | none => (none, u1)
      | some next =>
        (some (((byte <<< u.bitOffset) % 256) ||| (next >>> space)), u1)

/-- Full-byte loop of `read_bytes_width`; the `u64` shift is `% 2 ^ 64`. -/
def readBytesLoop : Nat → Nat → Unpacker → Option Nat × Unpacker
  | 0, v, u => (some v, u)
  | n + 1, v, u =>
    match readByte u with
    | (none, u1) => (none, u1)
    | (some b, u1) => readBytesLoop n (((v <<< 8) % 2 ^ 64) ||| b) u1

/-- `BitUnpacker::read_bytes_width`. -/
def readBytesWidth (u : Unpacker) (w : Nat) : Option Nat × Unpacker :=
  let highBits := w % 8
  let fullBytes := w / 8
  match (if 0 < highBits then readBits u highBits else (some 0, u)) with
  | (none, u1) => (none, u1)
  | (some v, u1) => readBytesLoop fullBytes v u1

/-- Unary-prefix loop of `read_int`: `while slot < 6 && self.read_bit()?`,
written with the remaining iteration count as fuel (`6 - slot`). -/
def readSlotAux : Nat → Unpacker → Option Nat × Unpacker
  | 0, u => (some 0, u)
  | n + 1, u =>
    match readBit u with
    | (none, u1) => (none, u1)
    | (some false, u1) => (some 0, u1)
    | (some true, u1) =>
      match readSlotAux n u1 with
      | (none, u2) => (none, u2)
      | (some s, u2) => (some (s + 1), u2)

/-- `u64 as i64` (two's complement). -/
def toI64 (v : Nat) : Int := if v < 2 ^ 63 then (v : Int) else (v : Int) - 2 ^ 64

/-- `BitUnpacker::read_int`. -/
def readInt (u : Unpacker) : Option Int × Unpacker :=
  match readSlotAux 6 u with
  | (none, u1) => (none, u1)
  | (some slot, u1) =>
    match readBytesWidth u1 (INT_WIDTHS.getD slot 0) with
    | (none, u2) => (none, u2)
    | (some v, u2) => (some (toI64 v), u2)

/-- `BitUnpacker::rewind_bits` (`saturating_sub` is `Nat` subtraction). -/
def rewindBits (u : Unpacker) (bits : Nat) : Unpacker :=
  let newTotal := (8 * u.byteIndex + u.bitOffset) - bits
  { u with byteIndex := newTotal / 8, bitOffset := newTotal % 8 }

/-! ### Character sets (`bit_packer.rs`) -/

/-- `CHARSETS` (header width in bits). -/
def CHARSETS : Nat := 4

def CHARSET_UPPER : Nat := 1
def CHARSET_LOWER : Nat := 2
def CHARSET_NUMERAL : Nat := 4
def CHARSET_RARE_PUNCT : Nat := 8

/-- `COMMON_PUNCT = b" ,-./:_"`. -/
def COMMON_PUNCT : List Nat := [32, 44, 45, 46, 47, 58, 95]

/-- `LOWER_CASE = b"abc..z"`. -/
def LOWER_CASE : List Nat := (List.range 26).map (· + 97)

/-- `UPPER_CASE = b"ABC..Z"`. -/
def UPPER_CASE : List Nat := (List.range 26).map (· + 65)

/-- `DIGITS = b"0123456789"`. -/
def DIGITS : List Nat := (List.range 10).map (· + 48)

/-- `RARE_PUNCT`: printable ASCII punctuation outside the common set. -/
def RARE_PUNCT : List Nat :=
  [33, 34, 35, 36, 37, 38, 39, 40, 41, 42, 43, 59, 60, 61, 62, 63, 64,
   91, 92, 93, 94, 96, 123, 124, 125, 126]

/-- `is_common_punct`. -/
def isCommonPunct (c : Nat) : Bool :=
  c = 32 || c = 44 || c = 45 || c = 46 || c = 47 || c = 58 || c = 95

/-- `detect_charset_flags`; the `unreachable!` arm for non-ASCII or control
bytes is modelled as `none`. -/
def detectCharsetFlags (s : List Nat) : Option Nat :=
  s.foldl
    (fun acc c =>
      acc.bind (fun flags =>
        if 65 ≤ c ∧ c ≤ 90 then some (flags ||| CHARSET_UPPER)
        else if 97 ≤ c ∧ c ≤ 122 then some (flags ||| CHARSET_LOWER)
        else if 48 ≤ c ∧ c ≤ 57 then some (flags ||| CHARSET_NUMERAL)
        else if isCommonPunct c then some flags
        else if (33 ≤ c ∧ c ≤ 47) ∨ (58 ≤ c ∧ c ≤ 64) ∨ (91 ≤ c ∧ c ≤ 96) ∨
            (123 ≤ c ∧ c ≤ 126) then some (flags ||| CHARSET_RARE_PUNCT)
        else none))
    (some 0)

/-- `build_charset`. -/
def buildCharset (flags : Nat) : List Nat :=
  COMMON_PUNCT
    ++ (if flags &&& CHARSET_LOWER ≠ 0 then LOWER_CASE else [])
    ++ (if flags &&& CHARSET_NUMERAL ≠ 0 then DIGITS else [])
    ++ (if flags &&& CHARSET_UPPER ≠ 0 then UPPER_CASE else [])
    ++ (if flags &&& CHARSET_RARE_PUNCT ≠ 0 then RARE_PUNCT else [])

/-- `compact_charset`; the `.expect("char not in charset")` panic is `none`. -/
def compactCharset (c : Nat) (charset : List Nat) : Option Nat :=
  List.indexOf? c charset

/-- `uncompact_charset`; `charset[idx]` is always in range at the call sites
(`decode` yields digits `< max_value = charset.len()`). -/
def uncompactCharset (idx : Nat) (charset : List Nat) : Nat :=
  charset.getD idx 0

/-! ### Ultrapack (`ultra_packer.rs`) -/

/-- Bit length by repeated halving: `sizeAux fuel n` is the bit length of
`n` whenever `n ≤ fuel` (each step halves `n`, so `n` bounds the depth). -/
def sizeAux : Nat → Nat → Nat
  | 0, _ => 0
  | fuel + 1, n => if n = 0 then 0 else sizeAux fuel (n / 2) + 1

/-- `64 - x.leading_zeros()` for a `u64` value `x`: the bit length of `x`. -/
def bitSize (n : Nat) : Nat := sizeAux n n

/-- Loop of `find_optimal_bundle`, iterating `k = 1..=40`.  The state carries
the best `k` and its ratio `bitsNeeded / k` as an exact fraction
`(num, den)`.  The Rust code compares `bits_needed as f64 / k as f64` with
`<`; both operands are quotients of integers `≤ 64` by integers `≤ 40`, two
distinct such rationals differ by more than `1 / 1600` while `f64` rounding
of these quotients errs by less than `2 ^ (-46)`, so the `f64` comparison
agrees with the exact rational comparison modelled here.  `checked_pow`
succeeds exactly when `M ^ k ≤ 2 ^ 64 - 1`, and
`64 - leading_zeros x = bitSize x` for a `u64` value `x`. -/
def fobLoop (M : Nat) : Nat → Nat → Nat × Nat × Nat → Nat × Nat × Nat
  | 0, _, best => best
  | fuel + 1, k, (bestK, bn, bd) =>
    if k ≤ 40 then
      if M ^ k ≤ 2 ^ 64 - 1 then
        if M ^ k = 0 then (bestK, bn, bd)
        else
          let bitsNeeded := bitSize (M ^ k - 1)
          let best :=
            if bitsNeeded * bd < bn * k then (k, bitsNeeded, k) else (bestK, bn, bd)
          fobLoop M fuel (k + 1) best
      else (bestK, bn, bd)
    else (bestK, bn, bd)

/-- `find_optimal_bundle`: returns `(bundle_size, bits_per_bundle)`.
`max_value.ilog2() + 1` is the bit length `bitSize M` when `M > 0`. -/
def findOptimalBundle (M : Nat) : Nat × Nat :=
  let naiveBits := if M = 0 then 0 else bitSize M
  let best := fobLoop M 40 1 (1, naiveBits, 1)
  (best.1, bitSize (M ^ best.1 - 1))

/-- Modelled from the spec: `ultra_packer::bits_per_bundle(max_value, r)` is
called from `bit_packer.rs` but its body is not under `src/`; §4.3 of the
spec defines the partial-bundle width as
`bits_needed = 64 - leading_zeros(M^r - 1)`, i.e. `bitSize (M ^ r - 1)`. -/
def bitsPerBundle (M r : Nat) : Nat := bitSize (M ^ r - 1)

/-- `ultra_packer::encode`.  The Rust asserts `values.len() == bundle_size`
and `val < max_value`; theorems about `encode` carry those as hypotheses. -/
def encode (bundleSize M : Nat) (values : List Nat) : Nat :=
  let _ := bundleSize
  values.foldl (fun bundle val => bundle * M + val) 0

/-- `ultra_packer::decode`: repeated `% M` / `/ M` filling the buffer from
the back. -/
def decode : Nat → Nat → Nat → List Nat
  | 0, _, _ => []
  | bundleSize + 1, M, bundle => decode bundleSize M (bundle / M) ++ [bundle % M]

/-- `ultra_packer::write_bundle`. -/
def writeBundle (p : Packer) (bitsPB bundle : Nat) : Packer :=
  writeBytesWidth p (leBytes 8 bundle) bitsPB

/-- Bit loop of `ultra_packer::read_bundle` (`u64` shift is `% 2 ^ 64`). -/
def readBundleLoop : Nat → Nat → Unpacker → Option Nat × Unpacker
  | 0, v, u => (some v, u)
  | n + 1, v, u =>
    match readBit u with
    | (none, u1) => (none, u1)
    | (some b, u1) =>
      readBundleLoop n (((v <<< 1) % 2 ^ 64) ||| (if b then 1 else 0)) u1

/-- `ultra_packer::read_bundle`. -/
def readBundle (u : Unpacker) (bitsPB : Nat) : Option Nat × Unpacker :=
  readBundleLoop bitsPB 0 u

/-! ### Ultrapacked strings (`bit_packer.rs`) -/

/-- `BitPacker::write_ascii_ultrapacked_string`.  The Rust iterates bytes
and panics (`expect`) on a byte outside the charset; looking the whole
string up first (`mapM`) yields `none` in exactly the same cases, and the
partially-written buffer of a panicking run is unobservable. -/
def writeAsciiUltrapackedString (p : Packer) (s : List Nat) (flags : Nat) :
    Option Packer :=
  let charset := buildCharset flags
  let M : Nat := charset.length
  let p := writeBits p flags CHARSETS
  let kb := findOptimalBundle M
  let bundles := s.length / kb.1
  let rem := s.length % kb.1
  let p := writeInt p ((bundles * kb.1 + rem : Nat) : Int)
  match s.mapM (fun c => compactCharset c charset) with
  | none => none
  | some ds =>
    let p := (List.range bundles).foldl
      (fun q i => writeBundle q kb.2 (encode kb.1 M ((ds.drop (i * kb.1)).take kb.1))) p
    if 0 < rem then
      some (writeBundle p (bitsPerBundle M rem) (encode rem M (ds.drop (bundles * kb.1))))
    else some p

/-- `i64 as usize` cast (two's-complement reinterpretation). -/
def i64AsUsize (i : Int) : Nat := (i % (2 : Int) ^ 64).toNat

/-- Full-bundle loop of `read_ascii_ultrapacked_string`. -/
def readBundlesLoop (charset : List Nat) (k M bitsPB : Nat) :
    Nat → List Nat → Unpacker → Option (List Nat) × Unpacker
  | 0, acc, u => (some acc, u)
  | n + 1, acc, u =>
    match readBundle u bitsPB with
    | (none, u1) => (none, u1)
    | (some bundle, u1) =>
      readBundlesLoop charset k M bitsPB n
        (acc ++ (decode k M bundle).map (fun idx => uncompactCharset idx charset)) u1

/-- `BitUnpacker::read_ascii_ultrapacked_string`.  The final
`String::from_utf8_lossy` is the identity here: every produced byte is an
ASCII charset element. -/
def readAsciiUltrapackedString (u : Unpacker) : Option (List Nat) × Unpacker :=
  match readBits u CHARSETS with
  | (none, u1) => (none, u1)
  | (some flags, u1) =>
    let charset := buildCharset flags
    let M : Nat := charset.length
    let kb := findOptimalBundle M
    match readInt u1 with
    | (none, u2) => (none, u2)
    | (some len, u2) =>
      let length := i64AsUsize len
      let bundles := length / kb.1
      let rem := length % kb.1
      match readBundlesLoop charset kb.1 M kb.2 bundles [] u2 with
      | (none, u3) => (none, u3)
      | (some bytes, u3) =>
        if 0 < rem then
          match readBundle u3 (bitsPerBundle M rem) with
          | (none, u4) => (none, u4)
          | (some bundle, u4) =>
            (some (bytes ++ (decode rem M bundle).map
              (fun idx => uncompactCharset idx charset)), u4)
        else (some bytes, u3)

/-! ### Huffman table builder (`huffman.rs`) -/

/-- `MAX_CODE_LEN` (huffman.rs line 6). -/
def MAX_CODE_LEN : Nat := 15

/-- Huffman tree (`HuffNode`); a leaf carries `symbol: Some(sym)`, an inner
node has both children. -/
inductive HTree where
  | leaf (freq : Nat) (sym : Nat)
  | node (freq : Nat) (l r : HTree)
  deriving Repr, DecidableEq

def hfreq : HTree → Nat
  | .leaf f _ => f
  | .node f _ _ => f

/-- Pop a minimal-frequency node.  `BinaryHeap`'s order among equal
frequencies is unspecified (`HuffNode`'s `Ord` compares only `freq`); this
deterministic refinement removes the earliest-pushed minimal node.  Every
theorem below either holds for all tie orders or evaluates a tie-free
input. -/
def popMin : List HTree → Option (HTree × List HTree)
  | [] => none
  | t :: rest =>
    match popMin rest with
    | none => some (t, [])
    | some (m, rest2) =>
      if hfreq t ≤ hfreq m then some (t, rest) else some (m, t :: rest2)

/-- `while heap.len() > 1 { merge two minimal nodes }`; the list length
drops by one per iteration, so the initial length is enough fuel. -/
def mergeLoop : Nat → List HTree → List HTree
  | 0, heap => heap
  | fuel + 1, heap =>
    if 1 < heap.length then
      match popMin heap with
      | none => heap
      | some (l, h1) =>
        match popMin h1 with
        | none => heap
        | some (r, h2) =>
          mergeLoop fuel (h2 ++ [HTree.node (hfreq l + hfreq r) l r])
    else heap

/-- `traverse`: record `depth.min(MAX_CODE_LEN)` at each leaf, left child
first. -/
def traverseT : HTree → Nat → List Nat → List Nat
  | .leaf _ sym, depth, lengths => lengths.set sym (min depth MAX_CODE_LEN)
  | .node _ l r, depth, lengths => traverseT r (depth + 1) (traverseT l (depth + 1) lengths)

/-- Kraft sum scaled by `2 ^ MAX_CODE_LEN`:
`Σ (1u64 << (MAX_CODE_LEN - len))` over nonzero lengths. -/
def kraftScaled (lens : List Nat) : Nat :=
  (lens.map (fun l => if 0 < l then 2 ^ (MAX_CODE_LEN - l) else 0)).sum

/-- Scan of `limit_lengths` for the least positive length
(`min_len` starts at `MAX_CODE_LEN + 1`, `min_idx` at 0; a strictly smaller
positive length updates both, so the first index attaining the minimum is
kept). -/
def minPosScan (lens : List Nat) : Nat × Nat :=
  lens.enum.foldl
    (fun mlmi il =>
      if 0 < il.2 ∧ il.2 < mlmi.1 then (il.2, il.1) else mlmi)
    (MAX_CODE_LEN + 1, 0)

/-- Kraft-enforcement loop of `limit_lengths`: while the scaled Kraft sum
exceeds `2 ^ MAX_CODE_LEN`, increment the least positive length.  Each
iteration strictly decreases the sum, so `kraftScaled + 1` is enough
fuel. -/
def limitLoop : Nat → List Nat → List Nat
  | 0, lens => lens
  | fuel + 1, lens =>
    if kraftScaled lens ≤ 2 ^ MAX_CODE_LEN then lens
    else
      let mlmi := minPosScan lens
      if mlmi.1 ≤ MAX_CODE_LEN then limitLoop fuel (lens.set mlmi.2 (mlmi.1 + 1))
      else lens

/-- `HuffmanTable::limit_lengths`: clamp to `MAX_CODE_LEN`, then enforce the
Kraft inequality. -/
def limitLengths (lens : List Nat) : List Nat :=
  let clamped := lens.map (fun l => min l MAX_CODE_LEN)
  limitLoop (kraftScaled clamped + 1) clamped

/-- The code-length assignment of `HuffmanTable::from_counts`
(`build_table` copies `lengths` unchanged, so only the length array is
modelled). -/
def fromCountsLengths (counts : List Nat) : List Nat :=
  let init := List.replicate 256 0
  let heap := counts.enum.filterMap
    (fun sf => if 0 < sf.2 then some (HTree.leaf sf.2 sf.1) else none)
  match heap with
  | [] => init
  | [t] =>
    match t with
    | .leaf _ sym => init.set sym 1
    | .node _ _ _ => init
  | _ :: _ :: _ =>
    let merged := mergeLoop heap.length heap
    let root := merged.headD (HTree.leaf 0 0)
    limitLengths (traverseT root 0 init)

/-! ### Static Huffman table for strings

`bit_packer.rs` references `huffman::{HUFFMAN_TABLE, HUFFMAN_DECODE,
HUFFMAN_MAX_LEN}`, none of which are defined under `src/`.  They are
modelled from the spec (§4.4): a canonical, length-limited (`L_max = 12`)
code built from the hand-tuned frequency table (`common_table` in
huffman.rs), with ideal lengths `⌈-log₂ p_i⌉` clamped to 12, a Kraft
enforcement pass, a slack-reclaim pass, canonical code assignment, and a
`2 ^ 12`-entry decode table. -/

/-- The hand-tuned byte frequencies of `HuffmanTable::common_table`. -/
def commonCounts (i : Nat) : Nat :=
  if i = 32 then 18000
  else if i = 101 then 10000
  else if i = 116 then 7000
  else if i = 97 then 6500
  else if i = 111 then 6000
  else if i = 105 then 5500
  else if i = 110 then 5500
  else if i = 115 then 5000
  else if i = 104 then 4800
  else if i = 114 then 4700
  else if i = 100 then 3500
  else if i = 108 then 3500
  else if i = 99 then 2500
  else if i = 117 then 2500
  else if i = 109 then 2000
  else if i = 119 then 2000
  else if i = 102 then 1800
  else if i = 103 then 1600
  else if i = 121 then 1600
  else if i = 112 then 1500
  else if i = 98 then 1200
  else if i = 118 then 800
  else if i = 107 then 600
  else if i = 47 ∨ i = 45 ∨ i = 95 ∨ i = 46 then 400
  else if i = 91 ∨ i = 93 ∨ i = 123 ∨ i = 125 ∨ i = 40 ∨ i = 41 ∨ i = 92 then 300
  else if i = 106 ∨ i = 120 then 100
  else if i = 113 then 80
  else if i = 122 then 60
  else if 32 ≤ i ∧ i < 127 then 200
  else 0

/-- Modelled from the spec: `HUFFMAN_MAX_LEN` (§4.4, `L_max = 12`). -/
def HUFFMAN_MAX_LEN : Nat := 12

def specCountsList : List Nat := (List.range 256).map commonCounts

def specTotalCount : Nat := specCountsList.sum

/-- Modelled from the spec: ideal length `⌈-log₂ p_i⌉ = ⌈log₂ (total / c)⌉`
clamped to `L_max`. -/
def idealLen (c : Nat) : Nat :=
  min HUFFMAN_MAX_LEN (Nat.clog 2 ((specTotalCount + c - 1) / c))

/-- Kraft sum scaled by `2 ^ 12` for the spec-modelled table. -/
def kraft12 (lens : List Nat) : Nat :=
  (lens.map (fun l => if 0 < l then 2 ^ (HUFFMAN_MAX_LEN - l) else 0)).sum

/-- Modelled from the spec: index of the least-probable symbol with
`0 < len < L_max` (first such index on ties). -/
def leastProbIdx (lens : List Nat) : Option Nat :=
  (lens.enum.foldl
    (fun best il =>
      if 0 < il.2 ∧ il.2 < HUFFMAN_MAX_LEN then
        match best with
        | none => some (il.1, specCountsList.getD il.1 0)
        | some bc =>
          if specCountsList.getD il.1 0 < bc.2 then some (il.1, specCountsList.getD il.1 0)
          else some bc
      else best)
    none).map Prod.fst

/-- Modelled from the spec: Kraft-enforcement pass (§4.4 step 2). -/
def specEnforce : Nat → List Nat → List Nat
  | 0, lens => lens
  | fuel + 1, lens =>
    if kraft12 lens ≤ 2 ^ HUFFMAN_MAX_LEN then lens
    else
      match leastProbIdx lens with
      | none => lens
      | some i => specEnforce fuel (lens.set i (lens.getD i 0 + 1))

/-- Modelled from the spec: index of the most-probable symbol whose
decrement cost `2 ^ (L_max - len)` fits in the slack (§4.4 step 3); lengths
of 1 cannot be decremented further. -/
def mostProbIdx (lens : List Nat) (slack : Nat) : Option Nat :=
  (lens.enum.foldl
    (fun best il =>
      if 1 < il.2 ∧ 2 ^ (HUFFMAN_MAX_LEN - il.2) ≤ slack then
        match best with
        | none => some (il.1, specCountsList.getD il.1 0)
        | some bc =>
          if bc.2 < specCountsList.getD il.1 0 then some (il.1, specCountsList.getD il.1 0)
          else some bc
      else best)
    none).map Prod.fst

/-- Modelled from the spec: slack-reclaim pass (§4.4 step 3). -/
def specReclaim : Nat → List Nat → List Nat
  | 0, lens => lens
  | fuel + 1, lens =>
    if kraft12 lens < 2 ^ HUFFMAN_MAX_LEN then
      match mostProbIdx lens (2 ^ HUFFMAN_MAX_LEN - kraft12 lens) with
      | none => lens
      | some i => specReclaim fuel (lens.set i (lens.getD i 0 - 1))
    else lens

/-- Modelled from the spec: the static code-length table. -/
def specLens : List Nat :=
  specReclaim (2 ^ 13)
    (specEnforce (2 ^ 13)
      (specCountsList.map (fun c => if 0 < c then idealLen c else 0)))

/-- Canonical code assignment (§4.4 step 4; the same algorithm as
`build_codes` in huffman.rs, with `L_max = 12`): count symbols per length,
compute each length's first code, then assign consecutive codes in symbol
order. -/
def specCodes : List Nat :=
  let blCount := fun bits => (specLens.filter (fun l => l = bits)).length
  let firstCode := fun bits =>
    (List.range bits).foldl (fun code b => (code + (if b = 0 then 0 else blCount b)) * 2) 0
  (List.range 256).map (fun sym =>
    let l := specLens.getD sym 0
    firstCode l +
      ((specLens.take sym).filter (fun x => x = l)).length)

/-- Modelled from the spec: `HUFFMAN_TABLE` — `(code, len)` for bytes with
an assigned length. -/
def HUFFMAN_TABLE (sym : Nat) : Option (Nat × Nat) :=
  let l := specLens.getD sym 0
  if 0 < l then some (specCodes.getD sym 0, l) else none

/-- Modelled from the spec: `HUFFMAN_DECODE` — each 12-bit window maps to
`(byte, actual_length)`, `(0, 0)` for unused windows. -/
def HUFFMAN_DECODE (idx : Nat) : Nat × Nat :=
  match (List.range 256).find? (fun sym =>
      let l := specLens.getD sym 0
      decide (0 < l) &&
        decide ((specCodes.getD sym 0) <<< (HUFFMAN_MAX_LEN - l) ≤ idx) &&
        decide (idx < ((specCodes.getD sym 0) + 1) <<< (HUFFMAN_MAX_LEN - l))) with
  | some sym => (sym, specLens.getD sym 0)
  | none => (0, 0)

/-! ### Huffman-coded strings (`bit_packer.rs`) -/

/-- Loop of `read_bits_u16_padded`: on underflow the value is padded with
zeros by shifting left by the unread width. -/
def rbpLoop : Nat → Nat → Nat → Unpacker → (Nat × Nat) × Unpacker
  | 0, v, br, u => ((v, br), u)
  | n + 1, v, br, u =>
    match readBit u with
    | (none, u1) => ((v <<< (n + 1), br), u1)
    | (some b, u1) =>
      rbpLoop n ((((v <<< 1) ||| (if b then 1 else 0)) % 2 ^ 16)) (br + 1) u1

/-- `BitUnpacker::read_bits_u16_padded`: returns `(value, bits_read)`. -/
def readBitsU16Padded (u : Unpacker) (w : Nat) : (Nat × Nat) × Unpacker :=
  rbpLoop w 0 0 u

/-- `BitUnpacker::read_huffman_byte`. -/
def readHuffmanByte (u : Unpacker) : Option Nat × Unpacker :=
  match readBitsU16Padded u HUFFMAN_MAX_LEN with
  | ((code, bitsRead), u1) =>
    if bitsRead = 0 then (none, u1)
    else
      let chLen := HUFFMAN_DECODE code
      if chLen.2 = 0 ∨ bitsRead < chLen.2 then (none, u1)
      else (some chLen.1, rewindBits u1 (bitsRead - chLen.2))

/-- `BitPacker::write_unicode_huffman_string`: per byte, a 1-bit tag then
either the Huffman code or the raw byte. -/
def writeUnicodeHuffmanString (p : Packer) (s : List Nat) : Packer :=
  let p := writeInt p (s.length : Int)
  s.foldl
    (fun q c =>
      match HUFFMAN_TABLE c with
      | some cl => writeBitsU16 (writeBit q false) cl.1 cl.2
      | none => writeByte (writeBit q true) c)
    p

/-- Byte loop of `read_unicode_huffman_string`. -/
def readUnicodeLoop : Nat → List Nat → Unpacker → Option (List Nat) × Unpacker
  | 0, acc, u => (some acc, u)
  | n + 1, acc, u =>
    match readBit u with
    | (none, u1) => (none, u1)
    | (some true, u1) =>
      match readByte u1 with
      | (none, u2) => (none, u2)
      | (some b, u2) => readUnicodeLoop n (acc ++ [b]) u2
    | (some false, u1) =>
      match readHuffmanByte u1 with
      | (none, u2) => (none, u2)
      | (some b, u2) => readUnicodeLoop n (acc ++ [b]) u2

/-- `BitUnpacker::read_unicode_huffman_string` (`from_utf8_lossy` is kept as
the raw byte list; string equality in this development is byte-list
equality). -/
def readUnicodeHuffmanString (u : Unpacker) : Option (List Nat) × Unpacker :=
  match readInt u with
  | (none, u1) => (none, u1)
  | (some len, u1) => readUnicodeLoop (i64AsUsize len) [] u1

/-- Modelled from the spec: `BitPacker::write_string` (called by
`Serializer::finish` for the non-ASCII path, body not under `src/`); §4.5
defines the Unicode string payload as `[varint len][len (tag, code or raw
byte) pairs]`, which is exactly `write_unicode_huffman_string`. -/
def writeStringPacker (p : Packer) (s : List Nat) : Packer :=
  writeUnicodeHuffmanString p s

/-- Modelled from the spec: `BitUnpacker::read_string` (called by
`Deserializer::read_bytes`, body not under `src/`); §4.5's Unicode string
reader is `read_unicode_huffman_string`. -/
def readStringPacker (u : Unpacker) : Option (List Nat) × Unpacker :=
  readUnicodeHuffmanString u

/-- Modelled from the spec: `BitPacker::write_ascii_string_charset` (called
by `Serializer::finish`, body not under `src/`); per §4.5 the ascii-path
string payload is `[4-bit flag][varint len][bundles][partial bundle]`, i.e.
charset detection followed by `write_ascii_ultrapacked_string` — the exact
inverse of `read_ascii_ultrapacked_string`, which `read_bytes` uses on this
path. -/
def writeAsciiStringCharset (p : Packer) (s : List Nat) : Option Packer :=
  match detectCharsetFlags s with
  | none => none
  | some flags => writeAsciiUltrapackedString p s flags

/-! ### Columnar serializer (`serializer.rs`)

Strings are modelled as their UTF-8 byte lists. -/

/-- `enum PropertyType`. -/
inductive PropertyType where
  | string
  | bool
  | integer
  | array
  deriving Repr, DecidableEq

/-- `PropertyType::to_bits`. -/
def PropertyType.toBits : PropertyType → Nat × Nat
  | .string => (0, 2)
  | .bool => (1, 2)
  | .integer => (2, 2)
  | .array => (3, 2)

/-- `PropertyType::from_bits`. -/
def PropertyType.fromBits : Nat → Option PropertyType
  | 0 => some .string
  | 1 => some .bool
  | 2 => some .integer
  | 3 => some .array
  | _ => none

/-- `BitPacker::write_property_type`. -/
def writePropertyType (p : Packer) (tag : PropertyType) : Packer :=
  writeBits p tag.toBits.1 tag.toBits.2

/-- `BitUnpacker::read_property_type`. -/
def readPropertyType (u : Unpacker) : Option PropertyType × Unpacker :=
  match readBits u 2 with
  | (none, u1) => (none, u1)
  | (some bits, u1) =>
    match PropertyType.fromBits bits with
    | none => (none, u1)
    | some tag => (some tag, u1)

/-- `enum PropertyValue`. -/
inductive PropertyValue where
  | str (s : List Nat)
  | bool (b : Bool)
  | integer (i : Int)
  | array (vs : List PropertyValue)
  deriving Repr

/-- `struct Serializer`: the four append-only columns. -/
structure Ser where
  integers : List Int
  strings : List (List Nat)
  booleans : List Bool
  propertyTypes : List PropertyType
  deriving Repr, DecidableEq

/-- `Serializer::new`. -/
def serNew : Ser := { integers := [], strings := [], booleans := [], propertyTypes := [] }

/-- `Serializer::write_int`. -/
def serWriteInt (s : Ser) (value : Int) : Ser :=
  { s with integers := s.integers ++ [value] }

/-- `Serializer::write_string`. -/
def serWriteString (s : Ser) (value : List Nat) : Ser :=
  { s with strings := s.strings ++ [value] }

/-- `Serializer::write_bool`. -/
def serWriteBool (s : Ser) (value : Bool) : Ser :=
  { s with booleans := s.booleans ++ [value] }

/-- `Serializer::write_property_type` (column push). -/
def serWritePropertyType (s : Ser) (tag : PropertyType) : Ser :=
  { s with propertyTypes := s.propertyTypes ++ [tag] }

mutual

/-- `Serializer::write_value`. -/
def serWriteValue (s : Ser) : PropertyValue → Ser
  | .bool b => serWriteBool (serWritePropertyType s .bool) b
  | .str st => serWriteString (serWritePropertyType s .string) st
  | .integer i => serWriteInt (serWritePropertyType s .integer) i
  | .array vs => serWriteElems (serWriteInt (serWritePropertyType s .array) (vs.length : Int)) vs

/-- Element loop of `Serializer::write_array`. -/
def serWriteElems (s : Ser) : List PropertyValue → Ser
  | [] => s
  | v :: rest => serWriteElems (serWriteValue s v) rest

end

/-- `Serializer::write_array`: length first, then each element. -/
def serWriteArray (s : Ser) (vs : List PropertyValue) : Ser :=
  serWriteElems (serWriteInt s (vs.length : Int)) vs

/-- `Serializer::all_32_127`.  The Rust iterates `chars()`; a Unicode scalar
lies in `[32, 127]` exactly when its UTF-8 encoding is one byte in
`[32, 127]` (continuation and lead bytes are `≥ 128`), so over the byte
model the same `any`-of-`any` test is used. -/
def all32127 (s : Ser) : Bool :=
  s.strings.any (fun str => str.any (fun c => 32 ≤ c && c ≤ 127))

/-- `Serializer::finish`.  `Option`-valued because the ascii string path can
panic (`unreachable!` in `detect_charset_flags`). -/
def serFinish (s : Ser) (version : Nat) : Option (List Nat) :=
  let p := packerNew
  let p := writeByte p version
  let p := writeInt p (s.integers.length : Int)
  let p := writeInt p (s.booleans.length : Int)
  let allAscii := all32127 s
  let p := writeBit p allAscii
  let p := writeInt p (s.strings.length : Int)
  let p := writeInt p (s.propertyTypes.length : Int)
  let p := s.integers.foldl (fun q i => writeInt q i) p
  let p := s.booleans.foldl (fun q b => writeBit q b) p
  match s.strings.foldlM
      (fun q st =>
        if allAscii then writeAsciiStringCharset q st
        else some (writeStringPacker q st)) p with
  | none => none
  | some p =>
    some ((s.propertyTypes.foldl (fun q tag => writePropertyType q tag) p).buffer)

/-- `struct Deserializer`: the four FIFO queues (front = list head). -/
structure Deser where
  integers : List Int
  strings : List (List Nat)
  booleans : List Bool
  propertyTypes : List PropertyType
  deriving Repr, DecidableEq

/-- `Deserializer::new`. -/
def deserNew : Deser :=
  { integers := [], strings := [], booleans := [], propertyTypes := [] }

/-- `for _ in 0..int_len { self.integers.push_back(unpacker.read_int()?) }`. -/
def readNInts : Nat → Unpacker → List Int → Option Unit × Unpacker × List Int
  | 0, u, acc => (some (), u, acc)
  | n + 1, u, acc =>
    match readInt u with
    | (none, u1) => (none, u1, acc)
    | (some i, u1) => readNInts n u1 (acc ++ [i])

/-- Boolean column loop of `read_bytes`. -/
def readNBools : Nat → Unpacker → List Bool → Option Unit × Unpacker × List Bool
  | 0, u, acc => (some (), u, acc)
  | n + 1, u, acc =>
    match readBit u with
    | (none, u1) => (none, u1, acc)
    | (some b, u1) => readNBools n u1 (acc ++ [b])

/-- Ascii-path string column loop of `read_bytes`
(`read_ascii_string_ultrapacked` in serializer.rs is
`read_ascii_ultrapacked_string` in bit_packer.rs). -/
def readNStringsAscii : Nat → Unpacker → List (List Nat) →
    Option Unit × Unpacker × List (List Nat)
  | 0, u, acc => (some (), u, acc)
  | n + 1, u, acc =>
    match readAsciiUltrapackedString u with
    | (none, u1) => (none, u1, acc)
    | (some st, u1) => readNStringsAscii n u1 (acc ++ [st])

/-- Unicode-path string column loop of `read_bytes`. -/
def readNStringsUnicode : Nat → Unpacker → List (List Nat) →
    Option Unit × Unpacker × List (List Nat)
  | 0, u, acc => (some (), u, acc)
  | n + 1, u, acc =>
    match readStringPacker u with
    | (none, u1) => (none, u1, acc)
    | (some st, u1) => readNStringsUnicode n u1 (acc ++ [st])

/-- Tag column loop of `read_bytes`. -/
def readNTags : Nat → Unpacker → List PropertyType →
    Option Unit × Unpacker × List PropertyType
  | 0, u, acc => (some (), u, acc)
  | n + 1, u, acc =>
    match readPropertyType u with
    | (none, u1) => (none, u1, acc)
    | (some t, u1) => readNTags n u1 (acc ++ [t])

/-- `Deserializer::read_bytes`.  The `assert_eq!(read_version, version)`
panic is modelled as failure; `for _ in 0..n` with a negative `i64` bound
iterates zero times (`Int.toNat`).  The queues are pushed onto, never
cleared. -/
def readBytes (bytes : List Nat) (version : Nat) (d : Deser) : Option Unit × Deser :=
  let u := unpackerNew bytes
  match readByte u with
  | (none, _) => (none, d)
  | (some readVersion, u) =>
    if readVersion ≠ version then (none, d)
    else
      match readInt u with
      | (none, _) => (none, d)
      | (some intLen, u) =>
        match readInt u with
        | (none, _) => (none, d)
        | (some boolLen, u) =>
          match readBit u with
          | (none, _) => (none, d)
          | (some allAscii, u) =>
            match readInt u with
            | (none, _) => (none, d)
            | (some stringLen, u) =>
              match readInt u with
              | (none, _) => (none, d)
              | (some tagsLen, u) =>
                match readNInts intLen.toNat u d.integers with
                | (none, _, ints) => (none, { d with integers := ints })
                | (some _, u, ints) =>
                  let d := { d with integers := ints }
                  match readNBools boolLen.toNat u d.booleans with
                  | (none, _, bools) => (none, { d with booleans := bools })
                  | (some _, u, bools) =>
                    let d := { d with booleans := bools }
                    match (if allAscii then
                        readNStringsAscii stringLen.toNat u d.strings
                      else readNStringsUnicode stringLen.toNat u d.strings) with
                    | (none, _, strs) => (none, { d with strings := strs })
                    | (some _, u, strs) =>
                      let d := { d with strings := strs }
                      match readNTags tagsLen.toNat u d.propertyTypes with
                      | (none, _, tags) => (none, { d with propertyTypes := tags })
                      | (some _, _, tags) =>
                        (some (), { d with propertyTypes := tags })

/-- `Deserializer::take_int`. -/
def takeInt (d : Deser) : Option Int × Deser :=
  match d.integers with
  | [] => (none, d)
  | i :: rest => (some i, { d with integers := rest })

/-- `Deserializer::take_bool`. -/
def takeBool (d : Deser) : Option Bool × Deser :=
  match d.booleans with
  | [] => (none, d)
  | b :: rest => (some b, { d with booleans := rest })

/-- `Deserializer::take_string`. -/
def takeString (d : Deser) : Option (List Nat) × Deser :=
  match d.strings with
  | [] => (none, d)
  | s :: rest => (some s, { d with strings := rest })

/-- `Deserializer::take_property_type`. -/
def takePropertyType (d : Deser) : Option PropertyType × Deser :=
  match d.propertyTypes with
  | [] => (none, d)
  | t :: rest => (some t, { d with propertyTypes := rest })

/-- Element loop of `Deserializer::take_array`, with the nested
`take_array` call inlined.  The Rust recursion terminates because every
loop iteration drains the tag queue; the `fuel` argument (structurally
decreasing, so the definition stays kernel-computable) only bounds the
recursion, and any fuel at least the number of loop steps gives the Rust
behavior. -/
def takeElems : Nat → Nat → Deser → Option (List PropertyValue) × Deser
  | 0, _, d => (none, d)
  | _ + 1, 0, d => (some [], d)
  | fuel + 1, n + 1, d =>
    match takePropertyType d with
    | (none, d1) => (none, d1)
    | (some tag, d1) =>
      match
        (match tag with
         | PropertyType.string =>
           match takeString d1 with
           | (none, d2) => (none, d2)
           | (some st, d2) => (some (PropertyValue.str st), d2)
         | PropertyType.bool =>
           match takeBool d1 with
           | (none, d2) => (none, d2)
           | (some b, d2) => (some (PropertyValue.bool b), d2)
         | PropertyType.integer =>
           match takeInt d1 with
           | (none, d2) => (none, d2)
           | (some i, d2) => (some (PropertyValue.integer i), d2)
         | PropertyType.array =>
           match takeInt d1 with
           | (none, d2) => (none, d2)
           | (some len, d2) =>
             match takeElems fuel (i64AsUsize len) d2 with
             | (none, d3) => (none, d3)
             | (some vs, d3) => (some (PropertyValue.array vs), d3)) with
      | (none, d2) => (none, d2)
      | (some v, d2) =>
        match takeElems fuel n d2 with
        | (none, d3) => (none, d3)
        | (some vs, d3) => (some (v :: vs), d3)

/-- `Deserializer::take_array`: pop the length, then the elements. -/
def takeArray (fuel : Nat) (d : Deser) : Option (List PropertyValue) × Deser :=
  match takeInt d with
  | (none, d1) => (none, d1)
  | (some len, d1) => takeElems fuel (i64AsUsize len) d1

/-! ### Specification artefacts: streams, invariants and claim inputs -/

/-- Reader at absolute bit position `n` (every reachable reader state with
`bit_offset ≤ 7` has this form, with `n = 8 * byte_index + bit_offset`). -/
def mkUp (buffer : List Nat) (n : Nat) : Unpacker :=
  { buffer := buffer, byteIndex := n / 8, bitOffset := n % 8 }

/-- Number of bits written so far. -/
def writtenBits (p : Packer) : Nat := 8 * (p.buffer.length - 1) + p.bitOffset

/-- The bit string written so far. -/
def packerBits (p : Packer) : List Bool := (bufBits p.buffer).take (writtenBits p)

/-- Writer invariant: nonempty buffer, `bit_offset ∈ 0..=8`, byte-sized
entries, and the unused low bits of the last byte are zero. -/
def PWF (p : Packer) : Prop :=
  p.buffer ≠ [] ∧ p.bitOffset ≤ 8 ∧ (∀ b ∈ p.buffer, b < 256) ∧
    lastGet p.buffer % 2 ^ (8 - p.bitOffset) = 0

instance (p : Packer) : Decidable (PWF p) := by unfold PWF; infer_instance

/-- The exact bit string `write_int` emits: `slot` ones, a terminating zero
unless in the last slot, then the payload. -/
def intBitsEnc (int : Int) : List Bool :=
  List.replicate (intSlot int) true
    ++ (if intSlot int < INT_WIDTHS.length - 1 then [false] else [])
    ++ natToBits (intWidth int) (i64Bytes int)

/-- A bit-stream write operation together with its argument (claim C2). -/
inductive WOp where
  | bit (b : Bool)
  | bits (v w : Nat)
  | byte (b : Nat)
  | bytesW (v w : Nat)
  deriving Repr, DecidableEq

/-- Apply a write operation (`write_bytes_width` is always fed an 8-byte
little-endian buffer, as at every call site in the source). -/
def wopApply (p : Packer) : WOp → Packer
  | .bit b => writeBit p b
  | .bits v w => writeBits p v w
  | .byte b => writeByte p b
  | .bytesW v w => writeBytesWidth p (leBytes 8 v) w

/-- Well-formedness of an operation's arguments: the value fits the Rust
parameter type and the width is in the documented range. -/
def wopWF : WOp → Prop
  | .bit _ => True
  | .bits v w => v < 256 ∧ 1 ≤ w ∧ w ≤ 8
  | .byte b => b < 256
  | .bytesW v w => v < 2 ^ 64 ∧ w ≤ 64

instance (op : WOp) : Decidable (wopWF op) := by
  unfold wopWF; cases op <;> infer_instance

/-- The value the matching read operation must return (`write_bits` and
`write_bytes_width` store their argument modulo `2 ^ width`). -/
def wopVal : WOp → Nat
  | .bit b => if b then 1 else 0
  | .bits v w => v % 2 ^ w
  | .byte b => b
  | .bytesW v w => v % 2 ^ w

/-- The bit string the operation appends. -/
def wopBits : WOp → List Bool
  | .bit b => [b]
  | .bits v w => natToBits w v
  | .byte b => natToBits 8 b
  | .bytesW v w => natToBits w v

/-- The matching read operation. -/
def wopRead (op : WOp) (u : Unpacker) : Option Nat × Unpacker :=
  match op with
  | .bit _ =>
    match readBit u with
    | (none, u1) => (none, u1)
    | (some b, u1) => (some (if b then 1 else 0), u1)
  | .bits _ w => readBits u w
  | .byte _ => readByte u
  | .bytesW _ w => readBytesWidth u w

/-- Run a write sequence on a fresh `BitPacker`. -/
def runWrites (ops : List WOp) : Packer := ops.foldl wopApply packerNew

/-- Perform the matching reads in order. -/
def readAll : List WOp → Unpacker → Option (List Nat) × Unpacker
  | [], u => (some [], u)
  | op :: rest, u =>
    match wopRead op u with
    | (none, u1) => (none, u1)
    | (some v, u1) =>
      match readAll rest u1 with
      | (none, u2) => (none, u2)
      | (some vs, u2) => (some (v :: vs), u2)

/-- A read operation (claim C10). -/
inductive ROp where
  | rbit
  | rbits (w : Nat)
  | rbyte
  | rbytesW (w : Nat)
  | rint
  deriving Repr, DecidableEq

/-- Apply a read operation (results coerced to one type). -/
def ropApply : ROp → Unpacker → Option Int × Unpacker
  | .rbit, u =>
    match readBit u with
    | (none, u1) => (none, u1)
    | (some b, u1) => (some (if b then 1 else 0), u1)
  | .rbits w, u =>
    match readBits u w with
    | (none, u1) => (none, u1)
    | (some v, u1) => (some (v : Int), u1)
  | .rbyte, u =>
    match readByte u with
    | (none, u1) => (none, u1)
    | (some v, u1) => (some (v : Int), u1)
  | .rbytesW w, u =>
    match readBytesWidth u w with
    | (none, u1) => (none, u1)
    | (some v, u1) => (some (v : Int), u1)
  | .rint, u => readInt u

/-- Reads that actually consume bits (`read_bytes_width 0` reads nothing
and succeeds unconditionally). -/
def ropWF : ROp → Prop
  | .rbytesW w => 1 ≤ w
  | _ => True

instance (op : ROp) : Decidable (ropWF op) := by
  unfold ropWF; cases op <;> infer_instance

/-- Run a sequence of reads, collecting every result. -/
def runReads : List ROp → Unpacker → List (Option Int) × Unpacker
  | [], u => ([], u)
  | op :: rest, u =>
    let ru := ropApply op u
    let rest2 := runReads rest ru.2
    (ru.1 :: rest2.1, rest2.2)

/-- Kraft sum `Σ 2 ^ (-len)` over symbols with a nonzero assigned length. -/
def kraftQ (lens : List Nat) : ℚ :=
  (lens.map (fun l => if 0 < l then (1 : ℚ) / 2 ^ l else 0)).sum

/-- Repeatedly `take_int`, collecting the returned values (drains the
integer queue front-to-back). -/
def drainInts : Nat → Deser → List Int
  | 0, _ => []
  | n + 1, d =>
    match takeInt d with
    | (none, _) => []
    | (some i, d1) => i :: drainInts n d1

/-- Repeatedly `take_bool`. -/
def drainBools : Nat → Deser → List Bool
  | 0, _ => []
  | n + 1, d =>
    match takeBool d with
    | (none, _) => []
    | (some b, d1) => b :: drainBools n d1

/-- Repeatedly `take_string`. -/
def drainStrings : Nat → Deser → List (List Nat)
  | 0, _ => []
  | n + 1, d =>
    match takeString d with
    | (none, _) => []
    | (some s, d1) => s :: drainStrings n d1

/-- Repeatedly `take_property_type`. -/
def drainTags : Nat → Deser → List PropertyType
  | 0, _ => []
  | n + 1, d =>
    match takePropertyType d with
    | (none, _) => []
    | (some t, d1) => t :: drainTags n d1

/-- Concatenation of deserializer queue states, column by column. -/
def appendDeser (d d0 : Deser) : Deser :=
  { integers := d.integers ++ d0.integers,
    strings := d.strings ++ d0.strings,
    booleans := d.booleans ++ d0.booleans,
    propertyTypes := d.propertyTypes ++ d0.propertyTypes }

/-- UTF-8 bytes of `"/usr/local/bin/entry.sh"` (claim C4). -/
def entryShBytes : List Nat :=
  [47, 117, 115, 114, 47, 108, 111, 99, 97, 108, 47, 98, 105, 110, 47,
   101, 110, 116, 114, 121, 46, 115, 104]

/-- Frequency counts `2 ^ i` for symbols `0..13` (claim C6): the optimal
code is a depth-13 chain and every merge during construction is tie-free. -/
def huffCexCounts : List Nat :=
  (List.range 256).map (fun i => if i < 14 then 2 ^ i else 0)

/-- The array of claim C8:
`Array[String("x"), Integer(1), Array[Bool(true), Bool(false)]]`. -/
def c8arr : List PropertyValue :=
  [PropertyValue.str [120], PropertyValue.integer 1,
   PropertyValue.array [PropertyValue.bool true, PropertyValue.bool false]]

/-- The expected columns of claim C8. -/
def c8cols : Ser :=
  { integers := [3, 1, 2], strings := [[120]], booleans := [true, false],
    propertyTypes := [PropertyType.string, PropertyType.integer,
      PropertyType.array, PropertyType.bool, PropertyType.bool] }

/-- Reader queues holding exactly the C8 columns. -/
def c8queues : Deser :=
  { integers := [3, 1, 2], strings := [[120]], booleans := [true, false],
    propertyTypes := [PropertyType.string, PropertyType.integer,
      PropertyType.array, PropertyType.bool, PropertyType.bool] }

/-- The property tree `String("aé")` (UTF-8 bytes `[97, 195, 169]`): its
single string mixes an ASCII byte with non-ASCII bytes (claim C1). -/
def c1tree : PropertyValue := PropertyValue.str [97, 195, 169]

/-- Serializer state after the schema write for `c1tree`. -/
def c1ser : Ser := serWriteValue serNew c1tree

/-- Serializer state whose buffered strings are `"hi"` and `"café"`
(UTF-8 `[99, 97, 102, 195, 169]`): the second string holds bytes above 127
(claim C7). -/
def c7ser : Ser :=
  serWriteString (serWriteString serNew [104, 105]) [99, 97, 102, 195, 169]

/-- Serializer state holding the single integer 42 (claim C9). -/
def c9ser : Ser := serWriteInt serNew 42

/-- Payload produced by `finish` from `c9ser` with version 7. -/
def c9payload : List Nat := (serFinish c9ser 7).getD []

/-- A deserializer whose integer queue already holds 7 (claim C9). -/
def c9prior : Deser := { deserNew with integers := [7] }

/-! ## Proof toolkit: bit strings -/

theorem length_natToBits (w v : Nat) : (natToBits w v).length = w := by
  simp [natToBits]

theorem getD_natToBits {w i : Nat} (v : Nat) (h : i < w) :
    (natToBits w v).getD i false = v.testBit (w - 1 - i) := by
  rw [List.getD_eq_getElem?_getD]
  rw [List.getElem?_eq_getElem (by simpa [length_natToBits] using h)]
  simp [natToBits]

theorem natToBits_mod (w v : Nat) : natToBits w (v % 2 ^ w) = natToBits w v := by
  apply List.ext_getElem (by simp [length_natToBits])
  intro i h1 h2
  simp only [length_natToBits] at h1
  simp [natToBits, Nat.testBit_mod_two_pow]
  omega

theorem natToBits_split (a b v : Nat) :
    natToBits (a + b) v = natToBits a (v >>> b) ++ natToBits b v := by
  apply List.ext_getElem (by simp [length_natToBits])
  intro i h1 h2
  simp only [length_natToBits] at h1
  rw [List.getElem_append]
  by_cases hi : i < a
  · simp only [length_natToBits, hi, dif_pos]
    simp [natToBits, Nat.testBit_shiftRight]
    congr 1
    omega
  · simp only [length_natToBits, hi, dif_neg]
    simp [natToBits]
    congr 1
    omega

theorem testBit_of_mod_eq_zero {n k j : Nat} (h : n % 2 ^ k = 0) (hj : j < k) :
    n.testBit j = false := by
  have h1 := Nat.testBit_mod_two_pow n k j
  rw [h] at h1
  simp [hj] at h1
  exact h1

theorem mod_two_pow_eq_zero_of_testBit {n k : Nat}
    (h : ∀ j < k, n.testBit j = false) : n % 2 ^ k = 0 := by
  have : n % 2 ^ k = 0 % 2 ^ k := by
    apply Nat.eq_of_testBit_eq
    intro j
    rw [Nat.testBit_mod_two_pow, Nat.testBit_mod_two_pow]
    by_cases hj : j < k
    · simp [hj, h j hj]
    · simp [hj]
  simpa using this

theorem natToBits_concat {a b x y : Nat} (hy : y < 2 ^ b) :
    natToBits a x ++ natToBits b y = natToBits (a + b) (x * 2 ^ b + y) := by
  rw [natToBits_split a b (x * 2 ^ b + y)]
  congr 1
  · congr 1
    rw [Nat.shiftRight_eq_div_pow]
    rw [Nat.mul_comm x (2 ^ b), Nat.mul_add_div (Nat.pos_pow_of_pos b (by norm_num))]
    simp [Nat.div_eq_of_lt hy]
  · apply List.ext_getElem (by simp [length_natToBits])
    intro i h1 h2
    simp only [length_natToBits] at h1
    simp only [natToBits, List.getElem_map, List.getElem_range]
    rw [show x * 2 ^ b + y = 2 ^ b * x + y by ring]
    rw [Nat.testBit_mul_pow_two_add x hy]
    simp only [show b - 1 - i < b by omega, if_pos]

theorem natOfBits_append (l1 l2 : List Bool) :
    natOfBits (l1 ++ l2) = natOfBits l1 * 2 ^ l2.length + natOfBits l2 := by
  induction l1 with
  | nil => simp [natOfBits]
  | cons b rest ih =>
    simp only [List.cons_append, natOfBits, ih, List.append_eq, List.length_append,
      Nat.pow_add]
    ring

theorem natOfBits_natToBits (w v : Nat) : natOfBits (natToBits w v) = v % 2 ^ w := by
  induction w generalizing v with
  | zero => simp [natToBits, natOfBits, Nat.mod_one]
  | succ w ih =>
    have hsplit : natToBits (w + 1) v = natToBits 1 (v >>> w) ++ natToBits w v := by
      have := natToBits_split 1 w v
      simpa [Nat.add_comm] using this
    rw [hsplit, natOfBits_append, length_natToBits, ih]
    have h1 : natToBits 1 (v >>> w) = [v.testBit w] := by
      simp [natToBits, List.range_succ, Nat.testBit_shiftRight]
    rw [h1]
    simp only [natOfBits]
    have hmod : v % 2 ^ (w + 1) = 2 ^ w * (v / 2 ^ w % 2) + v % 2 ^ w := by
      conv_lhs => rw [Nat.pow_succ]
      rw [Nat.mod_mul]
      ring_nf
    rw [hmod, Nat.testBit_to_div_mod]
    rcases Nat.mod_two_eq_zero_or_one (v / 2 ^ w) with h | h <;> simp [h, natOfBits]

theorem bufBits_append (l1 l2 : List Nat) :
    bufBits (l1 ++ l2) = bufBits l1 ++ bufBits l2 := by
  induction l1 with
  | nil => simp [bufBits]
  | cons b rest ih => simp [bufBits, ih]

theorem length_bufBits (l : List Nat) : (bufBits l).length = 8 * l.length := by
  induction l with
  | nil => simp [bufBits]
  | cons b rest ih =>
    simp [bufBits, byteBits, length_natToBits, ih, List.length_cons]
    ring

theorem testBit_eq_false_of_lt {x w j : Nat} (hx : x < 2 ^ w) (hj : w ≤ j) :
    x.testBit j = false :=
  Nat.testBit_lt_two_pow (lt_of_lt_of_le hx (Nat.pow_le_pow_right (by norm_num) hj))

theorem lor_mod_two_pow_eq_zero {a b k : Nat} (ha : a % 2 ^ k = 0)
    (hb : b % 2 ^ k = 0) : (a ||| b) % 2 ^ k = 0 := by
  apply mod_two_pow_eq_zero_of_testBit
  intro j hj
  rw [Nat.testBit_lor, testBit_of_mod_eq_zero ha hj, testBit_of_mod_eq_zero hb hj]
  rfl

theorem shiftLeft_mod_two_pow_eq_zero {x s k : Nat} (h : k ≤ s) :
    (x <<< s) % 2 ^ k = 0 := by
  rw [Nat.shiftLeft_eq]
  have : 2 ^ s = 2 ^ k * 2 ^ (s - k) := by
    rw [← Nat.pow_add]
    congr 1
    omega
  rw [this]
  rw [show x * (2 ^ k * 2 ^ (s - k)) = x * 2 ^ (s - k) * 2 ^ k by ring]
  exact Nat.mul_mod_left _ _

theorem shiftLeft_lt {x w s k : Nat} (hx : x < 2 ^ w) (h : w + s ≤ k) :
    x <<< s < 2 ^ k := by
  rw [Nat.shiftLeft_eq]
  calc x * 2 ^ s < 2 ^ w * 2 ^ s := by
        exact (Nat.mul_lt_mul_right (Nat.pos_pow_of_pos s (by norm_num))).mpr hx
    _ = 2 ^ (w + s) := by rw [Nat.pow_add]
    _ ≤ 2 ^ k := Nat.pow_le_pow_right (by norm_num) h

theorem shiftRight_lt {x w s : Nat} (hx : x < 2 ^ w) : x >>> s < 2 ^ (w - s) := by
  rw [Nat.shiftRight_eq_div_pow]
  by_cases hs : s ≤ w
  · apply Nat.div_lt_of_lt_mul
    rw [← Nat.pow_add]
    have h1 : s + (w - s) = w := by omega
    rw [h1]
    exact hx
  · have : x / 2 ^ s = 0 := Nat.div_eq_of_lt (lt_of_lt_of_le hx
      (Nat.pow_le_pow_right (by norm_num) (by omega)))
    rw [this]
    exact Nat.pos_pow_of_pos _ (by norm_num)

theorem lor_eq_add {a b k : Nat} (ha : a % 2 ^ k = 0) (hb : b < 2 ^ k) :
    a ||| b = a + b := by
  obtain ⟨c, hc⟩ : 2 ^ k ∣ a := Nat.dvd_iff_mod_eq_zero.mpr ha
  subst hc
  apply Nat.eq_of_testBit_eq
  intro j
  rw [Nat.testBit_lor, Nat.testBit_mul_pow_two_add c hb j]
  by_cases hj : j < k
  · rw [testBit_of_mod_eq_zero ha hj]
    simp [hj]
  · rw [testBit_eq_false_of_lt hb (by omega)]
    have h0 : (2 ^ k * c).testBit j = c.testBit (j - k) := by
      have h2 := Nat.testBit_mul_pow_two_add c
        (show (0 : Nat) < 2 ^ k from Nat.pos_pow_of_pos k (by norm_num)) j
      rw [Nat.add_zero] at h2
      rw [h2]
      simp [hj]
    rw [h0]
    simp [hj]

theorem getD_bufBits {l : List Nat} {n : Nat} (hn : n < 8 * l.length) :
    (bufBits l).getD n false = (l.getD (n / 8) 0).testBit (7 - n % 8) := by
  induction l generalizing n with
  | nil => simp at hn
  | cons b rest ih =>
    simp only [bufBits]
    by_cases h8 : n < 8
    · rw [List.getD_append _ _ _ _ (by simp [byteBits, length_natToBits]; omega)]
      have : n / 8 = 0 := by omega
      rw [this]
      have : n % 8 = n := by omega
      rw [this]
      exact getD_natToBits b h8
    · rw [List.getD_append_right _ _ _ _ (by simp [byteBits, length_natToBits]; omega)]
      simp only [byteBits, length_natToBits]
      have h1 : n - 8 < 8 * rest.length := by
        simp only [List.length_cons] at hn; omega
      rw [ih h1]
      have e1 : (n - 8) / 8 = n / 8 - 1 := by omega
      have e2 : (n - 8) % 8 = n % 8 := by omega
      rw [e1, e2]
      congr 1
      have : n / 8 = (n / 8 - 1) + 1 := by omega
      rw [this]
      simp

/-! ## Proof toolkit: writer -/

theorem set_concat_last (B : List Nat) (t v : Nat) :
    (B ++ [t]).set B.length v = B ++ [v] := by
  induction B with
  | nil => rfl
  | cons a rest ih => simp [List.set, ih]

theorem setLast_concat (B : List Nat) (t v : Nat) : setLast (B ++ [t]) v = B ++ [v] := by
  unfold setLast
  have : (B ++ [t]).length - 1 = B.length := by simp
  rw [this, set_concat_last]

theorem lastGet_concat (B : List Nat) (t : Nat) : lastGet (B ++ [t]) = t := by
  simp [lastGet]

theorem exists_concat {l : List Nat} (h : l ≠ []) : ∃ B t, l = B ++ [t] := by
  refine ⟨l.dropLast, l.getLast h, ?_⟩
  exact (List.dropLast_append_getLast h).symm

theorem packerBits_concat (B : List Nat) (t o : Nat) :
    packerBits { buffer := B ++ [t], bitOffset := o } =
      bufBits B ++ (byteBits t).take o := by
  simp only [packerBits, writtenBits, bufBits_append]
  have h1 : (B ++ [t]).length - 1 = B.length := by simp
  rw [h1]
  have h2 : bufBits [t] = byteBits t := by simp [bufBits]
  rw [h2]
  rw [show 8 * B.length + o = (bufBits B).length + o by rw [length_bufBits]]
  rw [List.take_append]

theorem take_byteBits_or {t x o w : Nat} (hlow : t % 2 ^ (8 - o) = 0)
    (hx : x < 2 ^ w) (how : o + w ≤ 8) :
    (byteBits (t ||| (x <<< (8 - o - w)))).take (o + w) =
      (byteBits t).take o ++ natToBits w x := by
  have hTlen : ((byteBits t).take o).length = o := by
    simp [byteBits, length_natToBits, List.length_take]
    omega
  apply List.ext_getElem
  · simp [byteBits, length_natToBits, List.length_take]
    omega
  intro i h1 h2
  have hlen1 : i < o + w := by
    simp only [List.length_take, byteBits, length_natToBits] at h1
    omega
  rw [List.getElem_take, List.getElem_append]
  by_cases hio : i < o
  · rw [dif_pos (by rw [hTlen]; exact hio)]
    rw [List.getElem_take]
    simp only [byteBits, natToBits, List.getElem_map, List.getElem_range,
      Nat.testBit_lor, Nat.testBit_shiftLeft]
    have hfalse : x.testBit (8 - 1 - i - (8 - o - w)) = false := by
      apply testBit_eq_false_of_lt hx
      omega
    rw [hfalse]
    simp
  · rw [dif_neg (by rw [hTlen]; exact hio)]
    simp only [hTlen]
    simp only [byteBits, natToBits, List.getElem_map, List.getElem_range,
      Nat.testBit_lor, Nat.testBit_shiftLeft]
    have htf : t.testBit (8 - 1 - i) = false := by
      apply testBit_of_mod_eq_zero hlow
      omega
    rw [htf]
    have hge : 8 - o - w ≤ 8 - 1 - i := by omega
    rw [show 8 - 1 - i - (8 - o - w) = w - 1 - (i - o) by omega]
    simp [hge]

theorem cross_bytes {t m o ov : Nat} (hlow : t % 2 ^ (8 - o) = 0)
    (ho : o ≤ 7) (hov1 : 1 ≤ ov) (hov7 : ov ≤ 7) (hm : m < 2 ^ (8 - o + ov)) :
    byteBits (t ||| (m >>> ov)) ++ (byteBits ((m <<< (8 - ov)) % 256)).take ov =
      (byteBits t).take o ++ natToBits (8 - o + ov) m := by
  have hsplit := natToBits_split (8 - o) ov m
  rw [hsplit, ← List.append_assoc]
  congr 1
  · have hshr : m >>> ov < 2 ^ (8 - o) := by
      have h0 := shiftRight_lt (s := ov) hm
      rwa [show 8 - o + ov - ov = 8 - o by omega] at h0
    have hcore := take_byteBits_or (t := t) (x := m >>> ov) (o := o) (w := 8 - o)
      hlow hshr (by omega)
    rw [show (8 : Nat) - o - (8 - o) = 0 by omega, Nat.shiftLeft_zero] at hcore
    rw [show o + (8 - o) = 8 by omega] at hcore
    rw [← hcore]
    have hblen : (byteBits (t ||| m >>> ov)).length = 8 := by
      simp [byteBits, length_natToBits]
    conv_lhs => rw [← List.take_length (byteBits (t ||| m >>> ov)), hblen]
  · have hy : (m <<< (8 - ov)) % 256 = (m % 2 ^ ov) <<< (8 - ov) := by
      rw [Nat.shiftLeft_eq, Nat.shiftLeft_eq]
      have h256 : (256 : Nat) = 2 ^ ov * 2 ^ (8 - ov) := by
        rw [← Nat.pow_add, show ov + (8 - ov) = 8 by omega]
      rw [h256, Nat.mul_mod_mul_right]
    rw [hy]
    have hcore := take_byteBits_or (t := 0) (x := m % 2 ^ ov) (o := 0) (w := ov)
      (by simp) (Nat.mod_lt _ (Nat.pos_pow_of_pos _ (by norm_num)))
      (by omega)
    simp only [Nat.zero_add, Nat.sub_zero] at hcore
    have hz : (0 : Nat) ||| (m % 2 ^ ov) <<< (8 - ov) = (m % 2 ^ ov) <<< (8 - ov) := by
      simp
    rw [hz] at hcore
    rw [hcore]
    simp [natToBits_mod]

theorem mod_two_pow_zero_mono {a k j : Nat} (h : a % 2 ^ k = 0) (hj : j ≤ k) :
    a % 2 ^ j = 0 := by
  apply mod_two_pow_eq_zero_of_testBit
  intro i hi
  exact testBit_of_mod_eq_zero h (by omega)

theorem natToBits_one_bit (b : Bool) : natToBits 1 (if b then 1 else 0) = [b] := by
  cases b <;> rfl

theorem PWF_mk {buf : List Nat} {o : Nat} (h1 : buf ≠ []) (h2 : o ≤ 8)
    (h3 : ∀ b ∈ buf, b < 256) (h4 : lastGet buf % 2 ^ (8 - o) = 0) :
    PWF { buffer := buf, bitOffset := o } :=
  ⟨h1, h2, h3, h4⟩

theorem ensureSpace_spec {p : Packer} (h : PWF p) :
    PWF (ensureSpace p) ∧ (ensureSpace p).bitOffset ≤ 7 ∧
      packerBits (ensureSpace p) = packerBits p := by
  obtain ⟨hne, hoff, hbytes, hlow⟩ := h
  obtain ⟨B, t, hBt⟩ := exists_concat hne
  have ht256 : t < 256 := hbytes t (by rw [hBt]; simp)
  by_cases h8 : p.bitOffset = 8
  · have hes : ensureSpace p = { buffer := (B ++ [t]) ++ [0], bitOffset := 0 } := by
      simp [ensureSpace, h8, hBt]
    rw [hes]
    refine ⟨PWF_mk (by simp) (by norm_num) ?_ ?_, by norm_num, ?_⟩
    · intro x hx
      simp only [List.mem_append, List.mem_singleton] at hx
      rcases hx with (hx | hx) | hx
      · exact hbytes x (by rw [hBt]; simp [hx])
      · subst hx; exact ht256
      · subst hx; norm_num
    · rw [lastGet_concat]
      simp
    · rw [packerBits_concat]
      have hpeq : p = { buffer := B ++ [t], bitOffset := 8 } := by
        rw [← hBt, ← h8]
      rw [hpeq, packerBits_concat]
      have h1 : (byteBits t).take 8 = byteBits t := by
        apply List.take_of_length_le
        simp [byteBits, length_natToBits]
      rw [h1, bufBits_append]
      simp [bufBits]
  · have hes : ensureSpace p = p := by
      simp [ensureSpace, h8]
    rw [hes]
    exact ⟨⟨hne, hoff, hbytes, hlow⟩, by omega, rfl⟩

theorem writeBit_spec {p : Packer} (h : PWF p) (b : Bool) :
    PWF (writeBit p b) ∧ packerBits (writeBit p b) = packerBits p ++ [b] := by
  obtain ⟨hq, hq7, hqbits⟩ := ensureSpace_spec h
  set q := ensureSpace p with hqdef
  obtain ⟨hne, hoff, hbytes, hlow⟩ := hq
  obtain ⟨B, t, hBt⟩ := exists_concat hne
  set o := q.bitOffset with hodef
  rw [hBt] at hbytes hlow
  rw [lastGet_concat] at hlow
  have ht256 : t < 256 := hbytes t (by simp)
  have hc : (if b then 1 else 0) < 2 ^ 1 := by cases b <;> norm_num
  have hqeq : q = { buffer := B ++ [t], bitOffset := o } := by rw [← hBt]
  have hstep : writeBit p b =
      { buffer := B ++ [t ||| ((if b then 1 else 0) <<< (7 - o))],
        bitOffset := o + 1 } := by
    show writeBit p b = _
    rw [writeBit, ← hqdef, ← hodef, hBt, setLast_concat, lastGet_concat]
  rw [hstep]
  have hqbform : packerBits q = bufBits B ++ (byteBits t).take o := by
    rw [hqeq, packerBits_concat]
  refine ⟨PWF_mk (by simp) (by omega) ?_ ?_, ?_⟩
  · intro x hx
    simp only [List.mem_append, List.mem_singleton] at hx
    rcases hx with hx | hx
    · exact hbytes x (by simp [hx])
    · subst hx
      exact Nat.or_lt_two_pow (n := 8) (by norm_num [ht256]) (shiftLeft_lt hc (by omega))
  · rw [lastGet_concat]
    apply lor_mod_two_pow_eq_zero
    · exact mod_two_pow_zero_mono hlow (by omega)
    · exact shiftLeft_mod_two_pow_eq_zero (by omega)
  · rw [packerBits_concat, ← hqbits, hqbform]
    rw [show (7 : Nat) - o = 8 - o - 1 by omega]
    rw [take_byteBits_or hlow hc (by omega)]
    rw [natToBits_one_bit]
    simp

theorem writeBits_spec {p : Packer} (h : PWF p) (v : Nat) {w : Nat} (hw : w ≤ 8) :
    PWF (writeBits p v w) ∧
      packerBits (writeBits p v w) = packerBits p ++ natToBits w v := by
  obtain ⟨hq, hq7, hqbits⟩ := ensureSpace_spec h
  set q := ensureSpace p with hqdef
  obtain ⟨hne, hoff, hbytes, hlow⟩ := hq
  obtain ⟨B, t, hBt⟩ := exists_concat hne
  set o := q.bitOffset with hodef
  rw [hBt] at hbytes hlow
  rw [lastGet_concat] at hlow
  have ht256 : t < 256 := hbytes t (by simp)
  set m := v % 2 ^ w with hmdef
  have hm : m < 2 ^ w := Nat.mod_lt _ (Nat.pos_pow_of_pos _ (by norm_num))
  have hnat : natToBits w m = natToBits w v := natToBits_mod w v
  have hqeq : q = { buffer := B ++ [t], bitOffset := o } := by rw [← hBt]
  have hqbform : packerBits q = bufBits B ++ (byteBits t).take o := by
    rw [hqeq, packerBits_concat]
  by_cases hfit : w ≤ 8 - o
  · have hstep : writeBits p v w =
        { buffer := B ++ [t ||| (m <<< (8 - o - w))], bitOffset := o + w } := by
      show writeBits p v w = _
      rw [writeBits, ← hqdef, ← hodef, ← hmdef]
      rw [if_pos hfit, hBt, setLast_concat, lastGet_concat]
    rw [hstep]
    refine ⟨PWF_mk (by simp) (by omega) ?_ ?_, ?_⟩
    · intro x hx
      simp only [List.mem_append, List.mem_singleton] at hx
      rcases hx with hx | hx
      · exact hbytes x (by simp [hx])
      · subst hx
        exact Nat.or_lt_two_pow (n := 8) (by norm_num [ht256])
          (shiftLeft_lt hm (by omega))
    · rw [lastGet_concat]
      apply lor_mod_two_pow_eq_zero
      · exact mod_two_pow_zero_mono hlow (by omega)
      · exact shiftLeft_mod_two_pow_eq_zero (by omega)
    · rw [packerBits_concat, ← hqbits, hqbform]
      rw [take_byteBits_or hlow hm (by omega), hnat]
      simp
  · have hov1 : 1 ≤ w - (8 - o) := by omega
    have hov7 : w - (8 - o) ≤ 7 := by omega
    set ov := w - (8 - o) with hovdef
    have hstep : writeBits p v w =
        { buffer := (B ++ [t ||| (m >>> ov)]) ++ [(m <<< (8 - ov)) % 256],
          bitOffset := ov } := by
      simp only [writeBits, ← hqdef, ← hodef, ← hmdef, ← hovdef, if_neg hfit, hBt,
        setLast_concat, lastGet_concat]
    rw [hstep]
    have hw8 : w = 8 - o + ov := by omega
    have hm8 : m < 2 ^ (8 - o + ov) := by rw [← hw8]; exact hm
    refine ⟨PWF_mk (by simp) (by omega) ?_ ?_, ?_⟩
    · intro x hx
      simp only [List.mem_append, List.mem_singleton] at hx
      rcases hx with (hx | hx) | hx
      · exact hbytes x (by simp [hx])
      · subst hx
        refine Nat.or_lt_two_pow (n := 8) (by norm_num [ht256]) ?_
        have h0 := shiftRight_lt (s := ov) hm
        exact lt_of_lt_of_le h0 (Nat.pow_le_pow_right (by norm_num) (by omega))
      · subst hx
        exact Nat.mod_lt _ (by norm_num)
    · rw [lastGet_concat]
      have hy : (m <<< (8 - ov)) % 256 = (m % 2 ^ ov) <<< (8 - ov) := by
        rw [Nat.shiftLeft_eq, Nat.shiftLeft_eq]
        rw [show (256 : Nat) = 2 ^ ov * 2 ^ (8 - ov) by
          rw [← Nat.pow_add, show ov + (8 - ov) = 8 by omega]]
        rw [Nat.mul_mod_mul_right]
      rw [hy]
      exact shiftLeft_mod_two_pow_eq_zero (by omega)
    · rw [packerBits_concat, ← hqbits, hqbform]
      rw [bufBits_append]
      have hcross := @cross_bytes t m o ov
        hlow (by omega) hov1 hov7 hm8
      rw [show bufBits [t ||| m >>> ov] = byteBits (t ||| m >>> ov) by simp [bufBits]]
      rw [List.append_assoc, hcross, ← hw8, hnat]
      simp

theorem writeByte_spec {p : Packer} (h : PWF p) {b : Nat} (hb : b < 256) :
    PWF (writeByte p b) ∧
      packerBits (writeByte p b) = packerBits p ++ natToBits 8 b := by
  obtain ⟨hq, hq7, hqbits⟩ := ensureSpace_spec h
  set q := ensureSpace p with hqdef
  obtain ⟨hne, hoff, hbytes, hlow⟩ := hq
  obtain ⟨B, t, hBt⟩ := exists_concat hne
  set o := q.bitOffset with hodef
  rw [hBt] at hbytes hlow
  rw [lastGet_concat] at hlow
  have ht256 : t < 256 := hbytes t (by simp)
  have hqeq : q = { buffer := B ++ [t], bitOffset := o } := by rw [← hBt]
  have hqbform : packerBits q = bufBits B ++ (byteBits t).take o := by
    rw [hqeq, packerBits_concat]
  by_cases h0 : o = 0
  · have ht0 : t = 0 := by
      rw [h0] at hlow
      simpa [Nat.mod_eq_of_lt ht256] using hlow
    have hstep : writeByte p b = { buffer := B ++ [b], bitOffset := 8 } := by
      show writeByte p b = _
      rw [writeByte, ← hqdef, ← hodef]
      rw [if_pos h0, hBt, setLast_concat]
    rw [hstep]
    refine ⟨PWF_mk (by simp) (by omega) ?_ ?_, ?_⟩
    · intro x hx
      simp only [List.mem_append, List.mem_singleton] at hx
      rcases hx with hx | hx
      · exact hbytes x (by simp [hx])
      · subst hx; exact hb
    · rw [lastGet_concat]
      simp [Nat.mod_one]
    · rw [packerBits_concat, ← hqbits, hqbform, h0]
      have h1 : (byteBits b).take 8 = byteBits b := by
        apply List.take_of_length_le
        simp [byteBits, length_natToBits]
      rw [h1]
      simp [byteBits]
  · have hstep : writeByte p b =
        { buffer := (B ++ [t ||| (b >>> o)]) ++ [(b <<< (8 - o)) % 256],
          bitOffset := o } := by
      show writeByte p b = _
      rw [writeByte, ← hqdef, ← hodef]
      rw [if_neg h0, hBt, setLast_concat, lastGet_concat]
    rw [hstep]
    have hb8 : b < 2 ^ (8 - o + o) := by
      rw [show 8 - o + o = 8 by omega]
      exact hb
    refine ⟨PWF_mk (by simp) (by omega) ?_ ?_, ?_⟩
    · intro x hx
      simp only [List.mem_append, List.mem_singleton] at hx
      rcases hx with (hx | hx) | hx
      · exact hbytes x (by simp [hx])
      · subst hx
        refine Nat.or_lt_two_pow (n := 8) (by norm_num [ht256]) ?_
        have h1 := shiftRight_lt (w := 8) (s := o) hb
        exact lt_of_lt_of_le h1 (Nat.pow_le_pow_right (by norm_num) (by omega))
      · subst hx
        exact Nat.mod_lt _ (by norm_num)
    · rw [lastGet_concat]
      have hy : (b <<< (8 - o)) % 256 = (b % 2 ^ o) <<< (8 - o) := by
        rw [Nat.shiftLeft_eq, Nat.shiftLeft_eq]
        rw [show (256 : Nat) = 2 ^ o * 2 ^ (8 - o) by
          rw [← Nat.pow_add, show o + (8 - o) = 8 by omega]]
        rw [Nat.mul_mod_mul_right]
      rw [hy]
      exact shiftLeft_mod_two_pow_eq_zero (by omega)
    · rw [packerBits_concat, ← hqbits, hqbform]
      rw [bufBits_append]
      have hcross := @cross_bytes t b o o
        hlow (by omega) (by omega) (by omega) hb8
      rw [show bufBits [t ||| b >>> o] = byteBits (t ||| b >>> o) by simp [bufBits]]
      rw [List.append_assoc, hcross]
      rw [show 8 - o + o = 8 by omega]
      simp

theorem natToBits_congr {w x y : Nat} (h : x % 2 ^ w = y % 2 ^ w) :
    natToBits w x = natToBits w y := by
  rw [← natToBits_mod w x, ← natToBits_mod w y, h]

theorem leVal_lt {l : List Nat} (h : ∀ b ∈ l, b < 256) :
    leVal l < 2 ^ (8 * l.length) := by
  induction l with
  | nil => simp [leVal]
  | cons b rest ih =>
    have hb : b < 256 := h b (by simp)
    have hr : leVal rest < 2 ^ (8 * rest.length) := ih (fun x hx => h x (by simp [hx]))
    simp only [leVal, List.length_cons]
    calc b + 256 * leVal rest ≤ 255 + 256 * (2 ^ (8 * rest.length) - 1) := by
          have := Nat.le_sub_one_of_lt hr
          omega
      _ < 2 ^ (8 * (rest.length + 1)) := by
          rw [show 8 * (rest.length + 1) = 8 + 8 * rest.length by ring, Nat.pow_add]
          have h1 : 1 ≤ 2 ^ (8 * rest.length) := Nat.one_le_two_pow
          norm_num
          omega

theorem leVal_append_singleton (A : List Nat) (x : Nat) :
    leVal (A ++ [x]) = leVal A + x * 2 ^ (8 * A.length) := by
  induction A with
  | nil => simp [leVal]
  | cons b rest ih =>
    simp only [List.cons_append, List.append_eq, leVal, List.length_cons]
    rw [ih]
    rw [show 8 * (rest.length + 1) = 8 * rest.length + 8 by ring, Nat.pow_add]
    ring

theorem leVal_take_drop (l : List Nat) (n : Nat) :
    leVal l = leVal (l.take n) + 2 ^ (8 * (l.take n).length) * leVal (l.drop n) := by
  induction l generalizing n with
  | nil => simp [leVal]
  | cons b rest ih =>
    cases n with
    | zero => simp [leVal]
    | succ n =>
      simp only [List.take_succ_cons, List.drop_succ_cons, leVal, List.length_cons]
      rw [ih n]
      rw [show 8 * ((rest.take n).length + 1) = 8 * (rest.take n).length + 8 by ring,
        Nat.pow_add]
      ring

theorem writeRev_spec {p : Packer} (h : PWF p) {bytes : List Nat}
    (hbytes : ∀ b ∈ bytes, b < 256) {n : Nat} (hn : n ≤ bytes.length) :
    PWF (((List.range n).reverse).foldl (fun q i => writeByte q (bytes.getD i 0)) p) ∧
      packerBits (((List.range n).reverse).foldl
          (fun q i => writeByte q (bytes.getD i 0)) p) =
        packerBits p ++ natToBits (8 * n) (leVal (bytes.take n)) := by
  induction n generalizing p with
  | zero => simpa [natToBits, leVal] using h
  | succ n ih =>
    have hrange : (List.range (n + 1)).reverse = n :: (List.range n).reverse := by
      rw [List.range_succ, List.reverse_append]
      simp
    rw [hrange]
    simp only [List.foldl_cons]
    have hbn : bytes.getD n 0 < 256 := by
      have hlt : n < bytes.length := by omega
      rw [List.getD_eq_getElem?_getD, List.getElem?_eq_getElem hlt]
      exact hbytes _ (List.getElem_mem hlt)
    obtain ⟨hwf1, hbits1⟩ := writeByte_spec h hbn
    obtain ⟨hwf2, hbits2⟩ := ih hwf1 (by omega)
    refine ⟨hwf2, ?_⟩
    rw [hbits2, hbits1, List.append_assoc]
    congr 1
    have hlt : n < bytes.length := by omega
    have htake : bytes.take (n + 1) = bytes.take n ++ [bytes.getD n 0] := by
      rw [List.take_succ, List.getElem?_eq_getElem hlt]
      simp [List.getD_eq_getElem?_getD, List.getElem?_eq_getElem hlt]
    rw [htake, leVal_append_singleton]
    have hlen_take : (bytes.take n).length = n := by
      rw [List.length_take]
      omega
    rw [hlen_take]
    have hLlt : leVal (bytes.take n) < 2 ^ (8 * n) := by
      have h2 := leVal_lt (l := bytes.take n)
        (fun x hx => hbytes x (List.mem_of_mem_take hx))
      rwa [hlen_take] at h2
    rw [natToBits_concat hLlt]
    rw [show 8 + 8 * n = 8 * (n + 1) by ring]
    congr 1
    ring

theorem writeBytesWidth_spec {p : Packer} (h : PWF p) {bytes : List Nat} {w : Nat}
    (hbytes : ∀ b ∈ bytes, b < 256) (hlen : (w + 7) / 8 ≤ bytes.length) :
    PWF (writeBytesWidth p bytes w) ∧
      packerBits (writeBytesWidth p bytes w) =
        packerBits p ++ natToBits w (leVal bytes) := by
  have hfb : w / 8 ≤ bytes.length := le_trans (by omega) hlen
  by_cases hhb : 0 < w % 8
  · have hstep : writeBytesWidth p bytes w =
        ((List.range (w / 8)).reverse).foldl (fun q i => writeByte q (bytes.getD i 0))
          (writeBits p (bytes.getD (w / 8) 0) (w % 8)) := by
      simp [writeBytesWidth, hhb]
    rw [hstep]
    have hfblt : w / 8 < bytes.length := by omega
    obtain ⟨hwf1, hbits1⟩ := writeBits_spec h (bytes.getD (w / 8) 0)
      (w := w % 8) (by omega)
    obtain ⟨hwf2, hbits2⟩ := writeRev_spec hwf1 hbytes hfb
    refine ⟨hwf2, ?_⟩
    rw [hbits2, hbits1, List.append_assoc]
    congr 1
    have hLlt : leVal (bytes.take (w / 8)) < 2 ^ (8 * (w / 8)) := by
      have h2 := leVal_lt (l := bytes.take (w / 8))
        (fun x hx => hbytes x (List.mem_of_mem_take hx))
      rwa [List.length_take, Nat.min_eq_left hfb] at h2
    rw [show natToBits (w % 8) (bytes.getD (w / 8) 0) =
        natToBits (w % 8) (bytes.getD (w / 8) 0 % 2 ^ (w % 8)) from
      (natToBits_mod _ _).symm]
    rw [natToBits_concat hLlt]
    have hw : w % 8 + 8 * (w / 8) = w := by omega
    rw [hw]
    apply natToBits_congr
    conv_rhs => rw [leVal_take_drop bytes (w / 8)]
    rw [List.drop_eq_getElem_cons hfblt]
    simp only [leVal]
    rw [List.length_take, Nat.min_eq_left hfb]
    rw [List.getD_eq_getElem?_getD, List.getElem?_eq_getElem hfblt]
    simp only [Option.getD_some]
    set L := leVal (bytes.take (w / 8))
    set bn := bytes[w / 8]
    set R := leVal (bytes.drop (w / 8 + 1))
    have hsplit : L + 2 ^ (8 * (w / 8)) * (bn + 256 * R) =
        (bn % 2 ^ (w % 8)) * 2 ^ (8 * (w / 8)) + L +
          2 ^ w * ((bn / 2 ^ (w % 8)) + 2 ^ (8 - w % 8) * R) := by
      have hbn : bn = 2 ^ (w % 8) * (bn / 2 ^ (w % 8)) + bn % 2 ^ (w % 8) :=
        (Nat.div_add_mod bn (2 ^ (w % 8))).symm
      have hp1 : 2 ^ w = 2 ^ (8 * (w / 8)) * 2 ^ (w % 8) := by
        rw [← Nat.pow_add]
        congr 1
        omega
      have hp2 : 2 ^ (8 * (w / 8)) * 256 = 2 ^ w * 2 ^ (8 - w % 8) := by
        rw [show (256 : Nat) = 2 ^ 8 by norm_num, ← Nat.pow_add, ← Nat.pow_add]
        congr 1
        omega
      calc L + 2 ^ (8 * (w / 8)) * (bn + 256 * R)
          = L + 2 ^ (8 * (w / 8)) * bn + 2 ^ (8 * (w / 8)) * 256 * R := by ring
        _ = L + 2 ^ (8 * (w / 8)) * (2 ^ (w % 8) * (bn / 2 ^ (w % 8)) + bn % 2 ^ (w % 8))
              + 2 ^ w * 2 ^ (8 - w % 8) * R := by rw [← hbn, hp2]
        _ = (bn % 2 ^ (w % 8)) * 2 ^ (8 * (w / 8)) + L +
              2 ^ w * ((bn / 2 ^ (w % 8)) + 2 ^ (8 - w % 8) * R) := by
            rw [hp1]
            ring
    rw [hsplit, Nat.add_mul_mod_self_left]
  · have h8 : w % 8 = 0 := by omega
    have hstep : writeBytesWidth p bytes w =
        ((List.range (w / 8)).reverse).foldl (fun q i => writeByte q (bytes.getD i 0)) p := by
      simp [writeBytesWidth, h8]
    rw [hstep]
    obtain ⟨hwf2, hbits2⟩ := writeRev_spec h hbytes hfb
    refine ⟨hwf2, ?_⟩
    rw [hbits2]
    congr 1
    have hw : 8 * (w / 8) = w := by omega
    rw [hw]
    apply natToBits_congr
    conv_rhs => rw [leVal_take_drop bytes (w / 8)]
    rw [List.length_take, Nat.min_eq_left hfb, hw]
    rw [Nat.mul_comm (2 ^ w)]
    rw [Nat.add_mul_mod_self_right]

/-! ## Proof toolkit: reader -/

theorem get?_of_lt {buf : List Nat} {i : Nat} (h : i < buf.length) :
    buf.get? i = some (buf.getD i 0) := by
  rw [List.get?_eq_getElem?, List.getElem?_eq_getElem h,
    List.getD_eq_getElem?_getD, List.getElem?_eq_getElem h]
  rfl

theorem readBit_spec {buf : List Nat} {n : Nat} {b : Bool}
    (hlen : n < 8 * buf.length)
    (hbit : (bufBits buf).getD n false = b) :
    readBit (mkUp buf n) = (some b, mkUp buf (n + 1)) := by
  have hbi : n / 8 < buf.length := by omega
  rw [getD_bufBits hlen] at hbit
  unfold readBit mkUp
  rw [get?_of_lt hbi]
  simp only [Prod.mk.injEq, Option.some.injEq]
  constructor
  · rw [← hbit]
    rw [Nat.testBit_to_div_mod, Nat.shiftRight_eq_div_pow]
    apply decide_eq_decide.mpr
    have := Nat.mod_two_eq_zero_or_one (buf.getD (n / 8) 0 / 2 ^ (7 - n % 8))
    omega
  · unfold uAdvance
    by_cases h7 : n % 8 + 1 = 8
    · rw [if_pos h7]
      rw [show (n + 1) / 8 = n / 8 + 1 by omega, show (n + 1) % 8 = 0 by omega]
    · rw [if_neg h7]
      rw [show (n + 1) / 8 = n / 8 by omega, show (n + 1) % 8 = n % 8 + 1 by omega]

theorem readBits_spec {buf : List Nat} {n w v : Nat}
    (hbytes : ∀ x ∈ buf, x < 256)
    (hw1 : 1 ≤ w) (hw8 : w ≤ 8) (hv : v < 2 ^ w)
    (hlen : n + w ≤ 8 * buf.length)
    (hseg : ∀ i < w, (bufBits buf).getD (n + i) false = (natToBits w v).getD i false) :
    readBits (mkUp buf n) w = (some v, mkUp buf (n + w)) := by
  have hbi : n / 8 < buf.length := by omega
  have hsegT : ∀ i < w, (buf.getD ((n + i) / 8) 0).testBit (7 - (n + i) % 8) =
      v.testBit (w - 1 - i) := by
    intro i hi
    have h1 := hseg i hi
    rw [getD_bufBits (by omega), getD_natToBits v hi] at h1
    exact h1
  unfold readBits mkUp
  rw [get?_of_lt hbi]
  simp only
  by_cases hfit : w ≤ 8 - n % 8
  · rw [if_pos hfit]
    have hval : (buf.getD (n / 8) 0 >>> (8 - n % 8 - w)) % 2 ^ w = v := by
      apply Nat.eq_of_testBit_eq
      intro j
      rw [Nat.testBit_mod_two_pow, Nat.testBit_shiftRight]
      by_cases hj : j < w
      · have h2 := hsegT (w - 1 - j) (by omega)
        rw [show (n + (w - 1 - j)) / 8 = n / 8 by omega] at h2
        rw [show 7 - (n + (w - 1 - j)) % 8 = 8 - n % 8 - w + j by omega] at h2
        rw [show w - 1 - (w - 1 - j) = j by omega] at h2
        rw [h2]
        simp [hj]
      · rw [testBit_eq_false_of_lt hv (by omega)]
        simp [hj]
    rw [hval]
    by_cases h8 : n % 8 + w = 8
    · rw [if_pos h8]
      rw [show (n + w) / 8 = n / 8 + 1 by omega, show (n + w) % 8 = 0 by omega]
    · rw [if_neg h8]
      rw [show (n + w) / 8 = n / 8 by omega, show (n + w) % 8 = n % 8 + w by omega]
  · rw [if_neg hfit]
    have hbi2 : n / 8 + 1 < buf.length := by omega
    have hbyte2 : buf.getD (n / 8 + 1) 0 < 2 ^ 8 := by
      rw [List.getD_eq_getElem?_getD, List.getElem?_eq_getElem hbi2, Option.getD_some]
      have h256 := hbytes _ (List.getElem_mem hbi2)
      omega
    rw [get?_of_lt hbi2]
    simp only
    have hval : ((buf.getD (n / 8) 0 % 2 ^ (8 - n % 8)) <<< (w - (8 - n % 8))) |||
        (buf.getD (n / 8 + 1) 0 >>> (8 - (w - (8 - n % 8)))) = v := by
      apply Nat.eq_of_testBit_eq
      intro j
      rw [Nat.testBit_lor, Nat.testBit_shiftLeft, Nat.testBit_shiftRight,
        Nat.testBit_mod_two_pow]
      by_cases hj : j < w
      · by_cases hjov : j < w - (8 - n % 8)
        · have h2 := hsegT (w - 1 - j) (by omega)
          rw [show (n + (w - 1 - j)) / 8 = n / 8 + 1 by omega] at h2
          rw [show 7 - (n + (w - 1 - j)) % 8 = 8 - (w - (8 - n % 8)) + j by omega] at h2
          rw [show w - 1 - (w - 1 - j) = j by omega] at h2
          rw [h2]
          have hd : ¬ w - (8 - n % 8) ≤ j := by omega
          simp [hd]
        · have hd : w - (8 - n % 8) ≤ j := by omega
          have hd2 : j - (w - (8 - n % 8)) < 8 - n % 8 := by omega
          have h2 := hsegT (w - 1 - j) (by omega)
          rw [show (n + (w - 1 - j)) / 8 = n / 8 by omega] at h2
          rw [show 7 - (n + (w - 1 - j)) % 8 = j - (w - (8 - n % 8)) by omega] at h2
          rw [show w - 1 - (w - 1 - j) = j by omega] at h2
          rw [h2, testBit_eq_false_of_lt hbyte2 (by omega)]
          simp [hd, hd2]
      · have hd2 : ¬ j - (w - (8 - n % 8)) < 8 - n % 8 := by omega
        rw [testBit_eq_false_of_lt hv (by omega)]
        rw [testBit_eq_false_of_lt hbyte2 (by omega)]
        simp [hd2]
    rw [hval]
    rw [show (n + w) / 8 = n / 8 + 1 by omega,
      show (n + w) % 8 = w - (8 - n % 8) by omega]

theorem readByte_eq_readBits {u : Unpacker} (hbytes : ∀ x ∈ u.buffer, x < 256)
    (hoff : u.bitOffset ≤ 8) : readByte u = readBits u 8 := by
  unfold readByte readBits
  cases hget : u.buffer.get? u.byteIndex with
  | none => rfl
  | some byte =>
    have hbyte : byte < 256 := by
      have hmem : byte ∈ u.buffer := by
        have := List.get?_mem hget
        exact this
      exact hbytes _ hmem
    simp only
    by_cases h0 : u.bitOffset = 0
    · rw [if_pos h0]
      rw [if_pos (by omega : (8 : Nat) ≤ 8 - u.bitOffset)]
      rw [if_pos (by omega : u.bitOffset + 8 = 8)]
      rw [show 8 - u.bitOffset - 8 = 0 by omega]
      simp only [Nat.shiftRight_zero]
      rw [Nat.mod_eq_of_lt (by omega : byte < 2 ^ 8)]
      rw [h0]
    · rw [if_neg h0]
      rw [if_neg (by omega : ¬ (8 : Nat) ≤ 8 - u.bitOffset)]
      cases hget2 : u.buffer.get? (u.byteIndex + 1) with
      | none => rfl
      | some next =>
        simp only
        have hov : 8 - (8 - u.bitOffset) = u.bitOffset := by omega
        rw [hov]
        have hfirst : (byte <<< u.bitOffset) % 256 =
            (byte % 2 ^ (8 - u.bitOffset)) <<< u.bitOffset := by
          rw [Nat.shiftLeft_eq, Nat.shiftLeft_eq]
          rw [show (256 : Nat) = 2 ^ (8 - u.bitOffset) * 2 ^ u.bitOffset by
            rw [← Nat.pow_add, show 8 - u.bitOffset + u.bitOffset = 8 by omega]]
          rw [Nat.mul_mod_mul_right]
        rw [hfirst]

theorem readByte_spec {buf : List Nat} {n v : Nat}
    (hbytes : ∀ x ∈ buf, x < 256) (hv : v < 2 ^ 8)
    (hlen : n + 8 ≤ 8 * buf.length)
    (hseg : ∀ i < 8, (bufBits buf).getD (n + i) false = (natToBits 8 v).getD i false) :
    readByte (mkUp buf n) = (some v, mkUp buf (n + 8)) := by
  rw [readByte_eq_readBits hbytes (by simp [mkUp]; omega)]
  exact readBits_spec hbytes (by norm_num) (by norm_num) hv hlen hseg

theorem readBytesLoop_spec {buf : List Nat} (hbytes : ∀ x ∈ buf, x < 256) :
    ∀ (k n acc m : Nat), m < 2 ^ (8 * k) →
      acc * 2 ^ (8 * k) + m < 2 ^ 64 →
      n + 8 * k ≤ 8 * buf.length →
      (∀ i < 8 * k,
        (bufBits buf).getD (n + i) false = (natToBits (8 * k) m).getD i false) →
      readBytesLoop k acc (mkUp buf n) =
        (some (acc * 2 ^ (8 * k) + m), mkUp buf (n + 8 * k)) := by
  intro k
  induction k with
  | zero =>
    intro n acc m hm hacc hlen hseg
    have hm0 : m = 0 := by simpa using hm
    subst hm0
    simp [readBytesLoop]
  | succ k ih =>
    intro n acc m hm hacc hlen hseg
    have hsplit : natToBits (8 * (k + 1)) m =
        natToBits 8 (m >>> (8 * k)) ++ natToBits (8 * k) m := by
      rw [show 8 * (k + 1) = 8 + 8 * k by ring]
      exact natToBits_split 8 (8 * k) m
    have hb1 : m >>> (8 * k) < 2 ^ 8 := by
      have h1 := shiftRight_lt (s := 8 * k) hm
      rwa [show 8 * (k + 1) - 8 * k = 8 by omega] at h1
    have hstep1 : readByte (mkUp buf n) = (some (m >>> (8 * k)), mkUp buf (n + 8)) := by
      apply readByte_spec hbytes hb1 (by omega)
      intro i hi
      have h2 := hseg i (by omega)
      rw [hsplit] at h2
      rwa [List.getD_append _ _ _ _ (by simp [length_natToBits]; omega)] at h2
    have hval : (((acc <<< 8) % 2 ^ 64) ||| (m >>> (8 * k))) = acc * 256 + m >>> (8 * k) := by
      have hacc256 : acc * 256 < 2 ^ 64 := by
        have h1 : acc * 256 * 2 ^ (8 * k) ≤ acc * 2 ^ (8 * (k + 1)) := by
          rw [show 8 * (k + 1) = 8 * k + 8 by ring, Nat.pow_add]
          have : (2 : Nat) ^ 8 = 256 := by norm_num
          rw [this]
          nlinarith [Nat.zero_le (acc * 256 * 2 ^ (8 * k))]
        have h2 : acc * 256 ≤ acc * 256 * 2 ^ (8 * k) :=
          Nat.le_mul_of_pos_right _ (Nat.pos_pow_of_pos _ (by norm_num))
        omega
      rw [Nat.shiftLeft_eq, show (2 : Nat) ^ 8 = 256 from by norm_num,
        Nat.mod_eq_of_lt hacc256]
      apply lor_eq_add (k := 8)
      · rw [show (2 : Nat) ^ 8 = 256 from by norm_num]
        exact Nat.mul_mod_left _ _
      · exact hb1
    have hrest : readBytesLoop k (acc * 256 + m >>> (8 * k)) (mkUp buf (n + 8)) =
        (some ((acc * 256 + m >>> (8 * k)) * 2 ^ (8 * k) + m % 2 ^ (8 * k)),
          mkUp buf (n + 8 + 8 * k)) := by
      apply ih (n + 8) _ _ (Nat.mod_lt _ (Nat.pos_pow_of_pos _ (by norm_num)))
      · have hdm : (acc * 256 + m >>> (8 * k)) * 2 ^ (8 * k) + m % 2 ^ (8 * k) =
            acc * 2 ^ (8 * (k + 1)) + m := by
          rw [Nat.shiftRight_eq_div_pow]
          rw [show 8 * (k + 1) = 8 * k + 8 by ring, Nat.pow_add]
          have := Nat.div_add_mod m (2 ^ (8 * k))
          nlinarith [Nat.div_add_mod m (2 ^ (8 * k))]
        rw [hdm]
        exact hacc
      · omega
      · intro i hi
        have h2 := hseg (8 + i) (by omega)
        rw [hsplit] at h2
        rw [List.getD_append_right _ _ _ _ (by simp [length_natToBits])] at h2
        rw [show n + (8 + i) = n + 8 + i by ring] at h2
        rw [length_natToBits, show 8 + i - 8 = i by omega] at h2
        rw [h2]
        congr 1
        exact (natToBits_mod _ _).symm
    have hfinal : (acc * 256 + m >>> (8 * k)) * 2 ^ (8 * k) + m % 2 ^ (8 * k) =
        acc * 2 ^ (8 * (k + 1)) + m := by
      rw [Nat.shiftRight_eq_div_pow]
      rw [show 8 * (k + 1) = 8 * k + 8 by ring, Nat.pow_add]
      nlinarith [Nat.div_add_mod m (2 ^ (8 * k))]
    unfold readBytesLoop
    rw [hstep1]
    simp only
    rw [hval, hrest, hfinal]
    rw [show n + 8 + 8 * k = n + 8 * (k + 1) by ring]

theorem readBytesWidth_spec {buf : List Nat} {n w v : Nat}
    (hbytes : ∀ x ∈ buf, x < 256) (hw64 : w ≤ 64) (hv : v < 2 ^ w)
    (hlen : n + w ≤ 8 * buf.length)
    (hseg : ∀ i < w, (bufBits buf).getD (n + i) false = (natToBits w v).getD i false) :
    readBytesWidth (mkUp buf n) w = (some v, mkUp buf (n + w)) := by
  have hsplit : natToBits w v =
      natToBits (w % 8) (v >>> (8 * (w / 8))) ++ natToBits (8 * (w / 8)) v := by
    conv_lhs => rw [show w = w % 8 + 8 * (w / 8) by omega]
    exact natToBits_split (w % 8) (8 * (w / 8)) v
  have hvm : v % 2 ^ (8 * (w / 8)) < 2 ^ (8 * (w / 8)) :=
    Nat.mod_lt _ (Nat.pos_pow_of_pos _ (by norm_num))
  by_cases hhb : 0 < w % 8
  · have hb1 : v >>> (8 * (w / 8)) < 2 ^ (w % 8) := by
      have h1 := shiftRight_lt (s := 8 * (w / 8)) hv
      rwa [show w - 8 * (w / 8) = w % 8 by omega] at h1
    have hstep1 : readBits (mkUp buf n) (w % 8) =
        (some (v >>> (8 * (w / 8))), mkUp buf (n + w % 8)) := by
      apply readBits_spec hbytes (by omega) (by omega) hb1 (by omega)
      intro i hi
      have h2 := hseg i (by omega)
      rw [hsplit] at h2
      rwa [List.getD_append _ _ _ _ (by simp [length_natToBits]; omega)] at h2
    have hloop : readBytesLoop (w / 8) (v >>> (8 * (w / 8))) (mkUp buf (n + w % 8)) =
        (some ((v >>> (8 * (w / 8))) * 2 ^ (8 * (w / 8)) + v % 2 ^ (8 * (w / 8))),
          mkUp buf (n + w % 8 + 8 * (w / 8))) := by
      apply readBytesLoop_spec hbytes _ _ _ _ hvm
      · have h5 : (v >>> (8 * (w / 8))) * 2 ^ (8 * (w / 8)) + v % 2 ^ (8 * (w / 8)) = v := by
          rw [Nat.shiftRight_eq_div_pow,
            Nat.mul_comm (v / 2 ^ (8 * (w / 8))) (2 ^ (8 * (w / 8)))]
          exact Nat.div_add_mod v (2 ^ (8 * (w / 8)))
        rw [h5]
        exact lt_of_lt_of_le hv (Nat.pow_le_pow_right (by norm_num) hw64)
      · omega
      · intro i hi
        have h2 := hseg (w % 8 + i) (by omega)
        rw [hsplit] at h2
        rw [List.getD_append_right _ _ _ _ (by simp [length_natToBits])] at h2
        rw [show n + (w % 8 + i) = n + w % 8 + i by ring] at h2
        rw [length_natToBits, show w % 8 + i - w % 8 = i by omega] at h2
        rw [h2]
        congr 1
        exact (natToBits_mod _ _).symm
    have hv2 : (v >>> (8 * (w / 8))) * 2 ^ (8 * (w / 8)) + v % 2 ^ (8 * (w / 8)) = v := by
      rw [Nat.shiftRight_eq_div_pow,
        Nat.mul_comm (v / 2 ^ (8 * (w / 8))) (2 ^ (8 * (w / 8)))]
      exact Nat.div_add_mod v (2 ^ (8 * (w / 8)))
    simp only [readBytesWidth]
    rw [if_pos hhb, hstep1]
    simp only
    rw [hloop, hv2]
    rw [show n + w % 8 + 8 * (w / 8) = n + w by omega]
  · have h8 : w % 8 = 0 := by omega
    have hw8 : 8 * (w / 8) = w := by omega
    have hloop : readBytesLoop (w / 8) 0 (mkUp buf n) =
        (some (0 * 2 ^ (8 * (w / 8)) + v % 2 ^ (8 * (w / 8))),
          mkUp buf (n + 8 * (w / 8))) := by
      apply readBytesLoop_spec hbytes _ _ _ _ hvm
      · have h4 : v < 2 ^ 64 :=
          lt_of_lt_of_le hv (Nat.pow_le_pow_right (by norm_num) hw64)
        rw [Nat.zero_mul, Nat.zero_add]
        exact lt_of_le_of_lt (Nat.mod_le _ _) h4
      · omega
      · intro i hi
        have h2 := hseg i (by omega)
        rw [hw8]
        rw [h2]
        congr 1
        exact (natToBits_mod _ _).symm
    simp only [readBytesWidth]
    rw [if_neg (by omega : ¬ 0 < w % 8)]
    simp only
    rw [hloop]
    rw [Nat.zero_mul, Nat.zero_add, hw8, Nat.mod_eq_of_lt hv]

/-! ## Proof toolkit: VarInt -/

theorem leBytes_lt {n v : Nat} : ∀ b ∈ leBytes n v, b < 256 := by
  intro b hb
  simp only [leBytes, List.mem_map] at hb
  obtain ⟨i, _, hi⟩ := hb
  rw [← hi]
  exact Nat.mod_lt _ (by norm_num)

theorem length_leBytes (n v : Nat) : (leBytes n v).length = n := by
  simp [leBytes]

theorem pow256 (n : Nat) : (256 : Nat) ^ n = 2 ^ (8 * n) := by
  rw [show (256 : Nat) = 2 ^ 8 from by norm_num, ← Nat.pow_mul]

theorem leVal_leBytes (n v : Nat) : leVal (leBytes n v) = v % 2 ^ (8 * n) := by
  induction n with
  | zero => simp [leBytes, leVal, Nat.mod_one]
  | succ n ih =>
    have hsucc : leBytes (n + 1) v = leBytes n v ++ [v / 256 ^ n % 256] := by
      simp [leBytes, List.range_succ]
    rw [hsucc, leVal_append_singleton, ih, length_leBytes]
    rw [show 8 * (n + 1) = 8 * n + 8 by ring, Nat.pow_add]
    rw [show (2 : Nat) ^ 8 = 256 from by norm_num]
    rw [Nat.mod_mul]
    rw [pow256]
    ring

theorem writeTrues_spec {p : Packer} (h : PWF p) (k : Nat) :
    PWF ((List.range k).foldl (fun q _ => writeBit q true) p) ∧
      packerBits ((List.range k).foldl (fun q _ => writeBit q true) p) =
        packerBits p ++ List.replicate k true := by
  induction k generalizing p with
  | zero => simpa using h
  | succ k ih =>
    rw [List.range_succ, List.foldl_append]
    simp only [List.foldl_cons, List.foldl_nil]
    obtain ⟨hwf1, hbits1⟩ := ih h
    obtain ⟨hwf2, hbits2⟩ := writeBit_spec hwf1 true
    refine ⟨hwf2, ?_⟩
    rw [hbits2, hbits1, List.append_assoc]
    congr 1
    rw [List.replicate_succ']

theorem intSlot_le (int : Int) : intSlot int ≤ 6 := by
  unfold intSlot INT_WIDTHS
  simp only [List.findIdx?_cons, List.findIdx?_nil]
  split_ifs <;> simp

theorem INT_WIDTHS_getD_le (s : Nat) : INT_WIDTHS.getD s 0 ≤ 64 := by
  by_cases h : s ≤ 6
  · interval_cases s <;> decide
  · have hlen : INT_WIDTHS.length ≤ s := by
      simp only [INT_WIDTHS, List.length_cons, List.length_nil]
      omega
    rw [List.getD_eq_getElem?_getD, List.getElem?_eq_none hlen]
    norm_num

theorem INT_WIDTHS_getD_pos {s : Nat} (h : s ≤ 6) : 1 ≤ INT_WIDTHS.getD s 0 := by
  interval_cases s <;> decide

theorem intWidth_le (int : Int) : intWidth int ≤ 64 := INT_WIDTHS_getD_le _

theorem intWidth_pos (int : Int) : 1 ≤ intWidth int :=
  INT_WIDTHS_getD_pos (intSlot_le int)

theorem length_intBitsEnc (int : Int) : (intBitsEnc int).length = intEncodedBits int := by
  have h := intSlot_le int
  have hlen7 : INT_WIDTHS.length - 1 = 6 := by
    simp [INT_WIDTHS]
  simp only [intBitsEnc, intEncodedBits, hlen7]
  by_cases h6 : intSlot int < 6
  · rw [if_pos h6, if_neg (by omega)]
    simp [length_natToBits]
    omega
  · have he : intSlot int = 6 := by omega
    rw [if_neg h6, if_pos he]
    simp [length_natToBits, he]
    omega

theorem writeInt_spec {p : Packer} (h : PWF p) (int : Int) :
    PWF (writeInt p int) ∧
      packerBits (writeInt p int) = packerBits p ++ intBitsEnc int := by
  obtain ⟨hwf1, hbits1⟩ := writeTrues_spec h (intSlot int)
  set p1 := (List.range (intSlot int)).foldl (fun q _ => writeBit q true) p with hp1
  have hmod : natToBits (intWidth int) (i64Bytes int % 2 ^ (8 * 8)) =
      natToBits (intWidth int) (i64Bytes int) := by
    apply natToBits_congr
    rw [Nat.mod_mod_of_dvd _ (Nat.pow_dvd_pow 2 (by have := intWidth_le int; omega))]
  have hunfold : writeInt p int =
      writeBytesWidth
        (if intSlot int < INT_WIDTHS.length - 1 then writeBit p1 false else p1)
        (leBytes 8 (i64Bytes int)) (intWidth int) := rfl
  by_cases h6 : intSlot int < INT_WIDTHS.length - 1
  · rw [hunfold, if_pos h6]
    obtain ⟨hwf2, hbits2⟩ := writeBit_spec hwf1 false
    obtain ⟨hwf3, hbits3⟩ := @writeBytesWidth_spec _ hwf2
      (leBytes 8 (i64Bytes int)) (intWidth int) leBytes_lt
      (by rw [length_leBytes]; have := intWidth_le int; omega)
    refine ⟨hwf3, ?_⟩
    rw [hbits3, hbits2, hbits1]
    rw [leVal_leBytes, hmod]
    simp only [intBitsEnc, if_pos h6]
    simp [List.append_assoc]
  · rw [hunfold, if_neg h6]
    obtain ⟨hwf3, hbits3⟩ := @writeBytesWidth_spec _ hwf1
      (leBytes 8 (i64Bytes int)) (intWidth int) leBytes_lt
      (by rw [length_leBytes]; have := intWidth_le int; omega)
    refine ⟨hwf3, ?_⟩
    rw [hbits3, hbits1]
    rw [leVal_leBytes, hmod]
    simp only [intBitsEnc, if_neg h6]
    simp [List.append_assoc]

theorem getD_replicate {s i : Nat} (b : Bool) (h : i < s) :
    (List.replicate s b).getD i false = b := by
  rw [List.getD_eq_getElem?_getD, List.getElem?_eq_getElem (by simpa using h)]
  simp

theorem readSlotAux_stop {buf : List Nat} :
    ∀ (s n f : Nat), s < f → n + s + 1 ≤ 8 * buf.length →
    (∀ i < s, (bufBits buf).getD (n + i) false = true) →
    (bufBits buf).getD (n + s) false = false →
    readSlotAux f (mkUp buf n) = (some s, mkUp buf (n + s + 1)) := by
  intro s
  induction s with
  | zero =>
    intro n f hf hlen hones hzero
    obtain ⟨f1, rfl⟩ : ∃ f1, f = f1 + 1 := ⟨f - 1, by omega⟩
    have hrb : readBit (mkUp buf n) = (some false, mkUp buf (n + 1)) :=
      readBit_spec (by omega) (by simpa using hzero)
    simp [readSlotAux, hrb]
  | succ s ih =>
    intro n f hf hlen hones hzero
    obtain ⟨f1, rfl⟩ : ∃ f1, f = f1 + 1 := ⟨f - 1, by omega⟩
    have hrb : readBit (mkUp buf n) = (some true, mkUp buf (n + 1)) :=
      readBit_spec (by omega) (by simpa using hones 0 (by omega))
    have hrec := ih (n + 1) f1 (by omega) (by omega)
      (fun i hi => by
        have h2 := hones (i + 1) (by omega)
        rwa [show n + (i + 1) = n + 1 + i by omega] at h2)
      (by rwa [show n + (s + 1) = n + 1 + s by omega] at hzero)
    simp only [readSlotAux, hrb, hrec]
    rw [show n + 1 + s + 1 = n + (s + 1) + 1 by omega]

theorem readSlotAux_all {buf : List Nat} :
    ∀ (f n : Nat), n + f ≤ 8 * buf.length →
    (∀ i < f, (bufBits buf).getD (n + i) false = true) →
    readSlotAux f (mkUp buf n) = (some f, mkUp buf (n + f)) := by
  intro f
  induction f with
  | zero => intro n _ _; simp [readSlotAux]
  | succ f ih =>
    intro n hlen hones
    have hrb : readBit (mkUp buf n) = (some true, mkUp buf (n + 1)) :=
      readBit_spec (by omega) (by simpa using hones 0 (by omega))
    have hrec := ih (n + 1) (by omega)
      (fun i hi => by
        have h2 := hones (i + 1) (by omega)
        rwa [show n + (i + 1) = n + 1 + i by omega] at h2)
    simp only [readSlotAux, hrb, hrec]
    rw [show n + 1 + f = n + (f + 1) by omega]

theorem intSlot_eq (int : Int) : intSlot int =
    if int < 2 ^ 3 then 0 else if int < 2 ^ 7 then 1 else if int < 2 ^ 9 then 2
    else if int < 2 ^ 15 then 3 else if int < 2 ^ 24 then 4
    else if int < 2 ^ 45 then 5 else 6 := by
  simp only [intSlot, INT_WIDTHS, List.findIdx?_cons, List.findIdx?_nil]
  norm_num
  split_ifs <;> simp_all

theorem int_lt_two_pow_width {int : Int} (h0 : 0 ≤ int) (h63 : int < 2 ^ 63) :
    int < (2 : Int) ^ intWidth int := by
  rw [intWidth, intSlot_eq]
  split_ifs with h1 h2 h3 h4 h5 h6 <;> simp only [INT_WIDTHS, List.getD] <;>
    norm_num <;> omega

theorem i64Bytes_eq_toNat {int : Int} (h0 : 0 ≤ int) (h : int < (2 : Int) ^ 64) :
    i64Bytes int = int.toNat := by
  unfold i64Bytes
  rw [Int.emod_eq_of_lt h0 h]

theorem readInt_spec {buf : List Nat} {n : Nat} {int : Int}
    (hbytes : ∀ x ∈ buf, x < 256)
    (h0 : 0 ≤ int) (h63 : int < 2 ^ 63)
    (hlen : n + intEncodedBits int ≤ 8 * buf.length)
    (hseg : ∀ i < intEncodedBits int,
      (bufBits buf).getD (n + i) false = (intBitsEnc int).getD i false) :
    readInt (mkUp buf n) = (some int, mkUp buf (n + intEncodedBits int)) := by
  have h6len : INT_WIDTHS.length - 1 = 6 := by rfl
  set s := intSlot int with hs
  have hs6 : s ≤ 6 := intSlot_le int
  have hwle : intWidth int ≤ 64 := intWidth_le int
  have hwpos : 1 ≤ intWidth int := intWidth_pos int
  have hint_lt : int < (2 : Int) ^ intWidth int := int_lt_two_pow_width h0 h63
  have hbe : i64Bytes int = int.toNat :=
    i64Bytes_eq_toNat h0 (lt_trans h63 (by norm_num))
  have htn : int.toNat < 2 ^ intWidth int := by
    have h2 : ((int.toNat : Int)) < (2 : Int) ^ intWidth int := by
      rwa [Int.toNat_of_nonneg h0]
    exact_mod_cast h2
  have htn63 : int.toNat < 2 ^ 63 := by
    have h2 : ((int.toNat : Int)) < (2 : Int) ^ 63 := by
      rwa [Int.toNat_of_nonneg h0]
    exact_mod_cast h2
  have hto : toI64 (i64Bytes int) = int := by
    rw [hbe, toI64, if_pos htn63, Int.toNat_of_nonneg h0]
  have hwidthD : INT_WIDTHS.getD s 0 = intWidth int := rfl
  by_cases hlt : s < 6
  · have henc : intEncodedBits int = s + 1 + intWidth int := by
      rw [intEncodedBits, ← hs, h6len, if_neg (by omega)]
    have hbits : intBitsEnc int =
        List.replicate s true ++ ([false] ++ natToBits (intWidth int) (i64Bytes int)) := by
      rw [intBitsEnc, ← hs, h6len, if_pos hlt, List.append_assoc]
    have hones : ∀ i < s, (bufBits buf).getD (n + i) false = true := by
      intro i hi
      rw [hseg i (by omega), hbits,
        List.getD_append _ _ _ _ (by simpa using hi)]
      exact getD_replicate _ hi
    have hzero : (bufBits buf).getD (n + s) false = false := by
      rw [hseg s (by omega), hbits,
        List.getD_append_right _ _ _ _ (by simp)]
      simp
    have hslot := readSlotAux_stop s n 6 hlt (by omega) hones hzero
    have hps : ∀ i < intWidth int,
        (bufBits buf).getD (n + s + 1 + i) false =
          (natToBits (intWidth int) (i64Bytes int)).getD i false := by
      intro i hi
      have h2 := hseg (s + 1 + i) (by omega)
      rw [show n + (s + 1 + i) = n + s + 1 + i by omega] at h2
      rw [h2, hbits, ← List.append_assoc,
        List.getD_append_right _ _ _ _ (by simp)]
      congr 1
      simp
      try omega
    have hread2 : readBytesWidth (mkUp buf (n + s + 1)) (intWidth int) =
        (some (i64Bytes int), mkUp buf (n + s + 1 + intWidth int)) := by
      apply readBytesWidth_spec hbytes hwle (by rw [hbe]; exact htn) (by omega) hps
    rw [readInt, hslot]
    simp only [hwidthD, hread2, hto]
    rw [show n + s + 1 + intWidth int = n + intEncodedBits int by omega]
  · have hseq : s = 6 := by omega
    have henc : intEncodedBits int = 6 + intWidth int := by
      rw [intEncodedBits, ← hs, h6len, if_pos hseq, hseq]
    have hbits : intBitsEnc int =
        List.replicate 6 true ++ natToBits (intWidth int) (i64Bytes int) := by
      rw [intBitsEnc, ← hs, h6len, if_neg (by omega), hseq]
      simp
    have hones : ∀ i < 6, (bufBits buf).getD (n + i) false = true := by
      intro i hi
      rw [hseg i (by omega), hbits,
        List.getD_append _ _ _ _ (by simpa using hi)]
      exact getD_replicate _ hi
    have hslot := readSlotAux_all 6 n (by omega) hones
    have hps : ∀ i < intWidth int,
        (bufBits buf).getD (n + 6 + i) false =
          (natToBits (intWidth int) (i64Bytes int)).getD i false := by
      intro i hi
      have h2 := hseg (6 + i) (by omega)
      rw [show n + (6 + i) = n + 6 + i by omega] at h2
      rw [h2, hbits, List.getD_append_right _ _ _ _ (by simp)]
      congr 1
      simp
    have hread2 : readBytesWidth (mkUp buf (n + 6)) (intWidth int) =
        (some (i64Bytes int), mkUp buf (n + 6 + intWidth int)) := by
      apply readBytesWidth_spec hbytes hwle (by rw [hbe]; exact htn) (by omega) hps
    have hw64 : INT_WIDTHS.getD 6 0 = intWidth int := by
      rw [intWidth, ← hs, hseq]
    rw [readInt, hslot]
    simp only [hw64, hread2, hto]
    rw [show n + 6 + intWidth int = n + intEncodedBits int by omega]

theorem intEncodedBits_eq (int : Int) : intEncodedBits int =
    (if intSlot int = 6 then 6 else intSlot int + 1)
      + INT_WIDTHS.getD (intSlot int) 0 := by
  simp only [intEncodedBits, intWidth]
  rw [show INT_WIDTHS.length - 1 = 6 by rfl]
  by_cases h : intSlot int = 6
  · rw [if_pos h, if_pos h, h]
  · rw [if_neg h, if_neg h]

/-- **C3** (corrected). For `0 ≤ n < 8` the VarInt encoding
(`write_int` / `int_encoded_bits`) is exactly 4 bits; for `0 ≤ n < 128` it is
at most 10 bits; for `0 ≤ n < 2^15` it is at most **19** bits (not 18 as
claimed: slot 3 spends 4 prefix bits plus a 15-bit payload); `write_int`
appends exactly the `int_encoded_bits` many bits `intBitsEnc`, and `read_int`
consumes exactly those bits, returning the written value. -/
theorem c3_varint_lengths (int : Int) (h0 : 0 ≤ int)
    {buf : List Nat} {n : Nat}
    (hbytes : ∀ x ∈ buf, x < 256) (h63 : int < 2 ^ 63)
    (hlen : n + intEncodedBits int ≤ 8 * buf.length)
    (hseg : ∀ i < intEncodedBits int,
      (bufBits buf).getD (n + i) false = (intBitsEnc int).getD i false) :
    (int < 8 → intEncodedBits int = 4) ∧
    (int < 128 → intEncodedBits int ≤ 10) ∧
    (int < 2 ^ 15 → intEncodedBits int ≤ 19) ∧
    (intBitsEnc int).length = intEncodedBits int ∧
    (∀ p : Packer, PWF p →
      packerBits (writeInt p int) = packerBits p ++ intBitsEnc int) ∧
    readInt (mkUp buf n) = (some int, mkUp buf (n + intEncodedBits int)) := by
  have e3 : (2 : Int) ^ 3 = 8 := by norm_num
  have e7 : (2 : Int) ^ 7 = 128 := by norm_num
  have e9 : (2 : Int) ^ 9 = 512 := by norm_num
  have e15 : (2 : Int) ^ 15 = 32768 := by norm_num
  refine ⟨?_, ?_, ?_, length_intBitsEnc int,
    fun p hp => (writeInt_spec hp int).2,
    readInt_spec hbytes h0 h63 hlen hseg⟩
  · intro h8
    have hs0 : intSlot int = 0 := by rw [intSlot_eq, if_pos (by omega)]
    rw [intEncodedBits_eq, hs0]
    decide
  · intro h128
    by_cases h8 : int < 8
    · have hs0 : intSlot int = 0 := by rw [intSlot_eq, if_pos (by omega)]
      rw [intEncodedBits_eq, hs0]
      decide
    · have hs1 : intSlot int = 1 := by
        rw [intSlot_eq, if_neg (by omega), if_pos (by omega)]
      rw [intEncodedBits_eq, hs1]
      decide
  · intro h15
    by_cases h8 : int < 8
    · have hs0 : intSlot int = 0 := by rw [intSlot_eq, if_pos (by omega)]
      rw [intEncodedBits_eq, hs0]
      decide
    · by_cases h128 : int < 128
      · have hs1 : intSlot int = 1 := by
          rw [intSlot_eq, if_neg (by omega), if_pos (by omega)]
        rw [intEncodedBits_eq, hs1]
        decide
      · by_cases h512 : int < 512
        · have hs2 : intSlot int = 2 := by
            rw [intSlot_eq, if_neg (by omega), if_neg (by omega),
              if_pos (by omega)]
          rw [intEncodedBits_eq, hs2]
          decide
        · have hs3 : intSlot int = 3 := by
            rw [intSlot_eq, if_neg (by omega), if_neg (by omega),
              if_neg (by omega), if_pos (by omega)]
          rw [intEncodedBits_eq, hs3]
          decide

/-- **C3 counterexample**: `512` lies in `[0, 2^15)` but its VarInt encoding
is 19 bits, exceeding the claimed bound of 18. -/
theorem c3_cex :
    (0 : Int) ≤ 512 ∧ (512 : Int) < 2 ^ 15 ∧ intEncodedBits 512 = 19 ∧
      ¬ intEncodedBits 512 ≤ 18 := by
  refine ⟨by norm_num, by norm_num, ?_, ?_⟩ <;> decide

/-- Witness for `c3_varint_lengths` at `int = 5` over the one-byte buffer
`[0x50]` holding exactly its encoding `0101` padded with zeros. -/
theorem c3_varint_lengths_witness :
    ((5 : Int) < 8 → intEncodedBits 5 = 4) ∧
    ((5 : Int) < 128 → intEncodedBits 5 ≤ 10) ∧
    ((5 : Int) < 2 ^ 15 → intEncodedBits 5 ≤ 19) ∧
    (intBitsEnc 5).length = intEncodedBits 5 ∧
    (∀ p : Packer, PWF p →
      packerBits (writeInt p 5) = packerBits p ++ intBitsEnc 5) ∧
    readInt (mkUp [80] 0) = (some 5, mkUp [80] (0 + intEncodedBits 5)) :=
  @c3_varint_lengths 5 (by decide) [80] 0 (by decide)
    (by decide) (by decide) (by decide)

set_option maxRecDepth 20000 in
/-- **C4** (corrected). For `"/usr/local/bin/entry.sh"` charset detection
sets exactly the LOWER flag and the alphabet has size `M = 33`, but
`find_optimal_bundle 33` returns `(12, 61)`, not `(3, 16)` as claimed: the
encoder packs each full group of **12** bytes into **61** bits and the
trailing 11 bytes into `bitsPerBundle 33 11 = 56` bits after the 4-bit flag
header and the 9-bit VarInt length, 130 bits in all, and decoding the
produced buffer recovers the string. -/
theorem c4_entry_sh_ultrapack :
    detectCharsetFlags entryShBytes = some CHARSET_LOWER ∧
    (buildCharset CHARSET_LOWER).length = 33 ∧
    findOptimalBundle 33 = (12, 61) ∧
    ∃ p : Packer,
      writeAsciiUltrapackedString packerNew entryShBytes CHARSET_LOWER = some p ∧
      writtenBits p = CHARSETS + intEncodedBits 23 + 61 + bitsPerBundle 33 11 ∧
      (readAsciiUltrapackedString (unpackerNew p.buffer)).1 = some entryShBytes := by
  refine ⟨by decide, by decide, by decide,
    ⟨{ buffer := [40, 184, 217, 89, 208, 220, 98, 145, 146, 85, 60, 14,
        214, 255, 134, 152, 64], bitOffset := 2 }, by decide, by decide, by decide⟩⟩

/-- **C4 counterexample**: detection and the alphabet size are as claimed,
but `find_optimal_bundle 33` is not `(3, 16)`. -/
theorem c4_cex :
    detectCharsetFlags entryShBytes = some CHARSET_LOWER ∧
    (buildCharset CHARSET_LOWER).length = 33 ∧
    findOptimalBundle 33 ≠ (3, 16) := by
  refine ⟨by decide, by decide, by decide⟩

/-- **C1** (code bug): the round-trip fails already at serialization for the
tree `String("aé")`.  `all_32_127` wrongly reports all-ASCII (its
`any`-of-`any` test is satisfied by the byte `a`), so `finish` takes the
ASCII charset path, where the non-ASCII byte `0xC3` hits the `unreachable!`
in `detect_charset_flags` (modelled as `none`): no byte stream is produced
at all. -/
theorem c1_roundtrip_bug :
    c1ser.strings = [[97, 195, 169]] ∧ all32127 c1ser = true ∧
      detectCharsetFlags [97, 195, 169] = none ∧ serFinish c1ser 1 = none := by
  refine ⟨by decide, by decide, by decide, by decide⟩

/-- **C7** (code bug): `all_32_127` tests `any` string has `any` character
in `[32, 127]` instead of `all`/`all`, so a serializer state whose second
string holds bytes above 127 still reports `true`; `finish` then takes the
ASCII path (header bit 1, not 0) and panics in `detect_charset_flags`
instead of using the Unicode path. -/
theorem c7_all32127_bug :
    (∃ st ∈ c7ser.strings, ∃ c ∈ st, 127 < c) ∧ all32127 c7ser = true ∧
      serFinish c7ser 1 = none := by
  exact ⟨⟨[99, 97, 102, 195, 169], by decide, 195, by decide, by decide⟩,
    by decide, by decide⟩

/-- **C8**: writing `Array[String("x"), Integer(1), Array[Bool(true),
Bool(false)]]` leaves exactly the columns `I=[3, 1, 2]`, `B=[true, false]`,
`S=["x"]`, `T=[String, Integer, Array, Bool, Bool]`, and `take_array` on
queues holding exactly those columns reconstructs the array, draining the
queues. -/
theorem c8_nested_array_columns :
    serWriteArray serNew c8arr = c8cols ∧
      takeArray 10 c8queues = (some c8arr, deserNew) := by
  exact ⟨rfl, rfl⟩

theorem readNInts_acc (n : Nat) : ∀ (u : Unpacker) (acc : List Int),
    readNInts n u acc =
      ((readNInts n u []).1, (readNInts n u []).2.1,
        acc ++ (readNInts n u []).2.2) := by
  induction n with
  | zero => intro u acc; simp [readNInts]
  | succ n ih =>
    intro u acc
    rcases h1 : readInt u with ⟨o, u1⟩
    cases o with
    | none => simp [readNInts, h1]
    | some i =>
      simp only [readNInts, h1, List.nil_append]
      rw [ih u1 (acc ++ [i]), ih u1 [i]]
      simp

theorem readNBools_acc (n : Nat) : ∀ (u : Unpacker) (acc : List Bool),
    readNBools n u acc =
      ((readNBools n u []).1, (readNBools n u []).2.1,
        acc ++ (readNBools n u []).2.2) := by
  induction n with
  | zero => intro u acc; simp [readNBools]
  | succ n ih =>
    intro u acc
    rcases h1 : readBit u with ⟨o, u1⟩
    cases o with
    | none => simp [readNBools, h1]
    | some b =>
      simp only [readNBools, h1, List.nil_append]
      rw [ih u1 (acc ++ [b]), ih u1 [b]]
      simp

theorem readNStringsAscii_acc (n : Nat) : ∀ (u : Unpacker) (acc : List (List Nat)),
    readNStringsAscii n u acc =
      ((readNStringsAscii n u []).1, (readNStringsAscii n u []).2.1,
        acc ++ (readNStringsAscii n u []).2.2) := by
  induction n with
  | zero => intro u acc; simp [readNStringsAscii]
  | succ n ih =>
    intro u acc
    rcases h1 : readAsciiUltrapackedString u with ⟨o, u1⟩
    cases o with
    | none => simp [readNStringsAscii, h1]
    | some st =>
      simp only [readNStringsAscii, h1, List.nil_append]
      rw [ih u1 (acc ++ [st]), ih u1 [st]]
      simp

theorem readNStringsUnicode_acc (n : Nat) : ∀ (u : Unpacker) (acc : List (List Nat)),
    readNStringsUnicode n u acc =
      ((readNStringsUnicode n u []).1, (readNStringsUnicode n u []).2.1,
        acc ++ (readNStringsUnicode n u []).2.2) := by
  induction n with
  | zero => intro u acc; simp [readNStringsUnicode]
  | succ n ih =>
    intro u acc
    rcases h1 : readStringPacker u with ⟨o, u1⟩
    cases o with
    | none => simp [readNStringsUnicode, h1]
    | some st =>
      simp only [readNStringsUnicode, h1, List.nil_append]
      rw [ih u1 (acc ++ [st]), ih u1 [st]]
      simp

theorem readNTags_acc (n : Nat) : ∀ (u : Unpacker) (acc : List PropertyType),
    readNTags n u acc =
      ((readNTags n u []).1, (readNTags n u []).2.1,
        acc ++ (readNTags n u []).2.2) := by
  induction n with
  | zero => intro u acc; simp [readNTags]
  | succ n ih =>
    intro u acc
    rcases h1 : readPropertyType u with ⟨o, u1⟩
    cases o with
    | none => simp [readNTags, h1]
    | some t =>
      simp only [readNTags, h1, List.nil_append]
      rw [ih u1 (acc ++ [t]), ih u1 [t]]
      simp

/-- `read_bytes` from any prior queue state equals the run from empty
queues with the prior contents left in front: the queues are appended to,
never cleared, also on failure. -/
theorem readBytes_factor (payload : List Nat) (version : Nat) (d0 : Deser) :
    readBytes payload version d0 =
      ((readBytes payload version deserNew).1,
        appendDeser d0 (readBytes payload version deserNew).2) := by
  rcases h1 : readByte (unpackerNew payload) with ⟨o1, u1⟩
  cases o1 with
  | none => simp [readBytes, h1, appendDeser, deserNew]
  | some v =>
  by_cases hv : v ≠ version
  · simp [readBytes, h1, hv, appendDeser, deserNew]
  rcases h2 : readInt u1 with ⟨o2, u2⟩
  cases o2 with
  | none => simp [readBytes, h1, h2, hv, appendDeser, deserNew]
  | some intLen =>
  rcases h3 : readInt u2 with ⟨o3, u3⟩
  cases o3 with
  | none => simp [readBytes, h1, h2, h3, hv, appendDeser, deserNew]
  | some boolLen =>
  rcases h4 : readBit u3 with ⟨o4, u4⟩
  cases o4 with
  | none => simp [readBytes, h1, h2, h3, h4, hv, appendDeser, deserNew]
  | some allAscii =>
  rcases h5 : readInt u4 with ⟨o5, u5⟩
  cases o5 with
  | none => simp [readBytes, h1, h2, h3, h4, h5, hv, appendDeser, deserNew]
  | some stringLen =>
  rcases h6 : readInt u5 with ⟨o6, u6⟩
  cases o6 with
  | none => simp [readBytes, h1, h2, h3, h4, h5, h6, hv, appendDeser, deserNew]
  | some tagsLen =>
  rcases hI : readNInts intLen.toNat u6 [] with ⟨oi, ui, ints⟩
  have hI0 : ∀ acc, readNInts intLen.toNat u6 acc = (oi, ui, acc ++ ints) := by
    intro acc; rw [readNInts_acc, hI]
  cases oi with
  | none =>
    simp [readBytes, h1, h2, h3, h4, h5, h6, hv, hI0, appendDeser, deserNew]
  | some oiv =>
  rcases hB : readNBools boolLen.toNat ui [] with ⟨ob, ub, bools⟩
  have hB0 : ∀ acc, readNBools boolLen.toNat ui acc = (ob, ub, acc ++ bools) := by
    intro acc; rw [readNBools_acc, hB]
  cases ob with
  | none =>
    simp [readBytes, h1, h2, h3, h4, h5, h6, hv, hI0, hB0, appendDeser, deserNew]
  | some obv =>
  cases allAscii with
  | true =>
    rcases hS : readNStringsAscii stringLen.toNat ub [] with ⟨os, us, strs⟩
    have hS0 : ∀ acc, readNStringsAscii stringLen.toNat ub acc = (os, us, acc ++ strs) := by
      intro acc; rw [readNStringsAscii_acc, hS]
    cases os with
    | none =>
      simp [readBytes, h1, h2, h3, h4, h5, h6, hv, hI0, hB0, hS0, appendDeser, deserNew]
    | some osv =>
    rcases hT : readNTags tagsLen.toNat us [] with ⟨ot, ut, tags⟩
    have hT0 : ∀ acc, readNTags tagsLen.toNat us acc = (ot, ut, acc ++ tags) := by
      intro acc; rw [readNTags_acc, hT]
    cases ot with
    | none =>
      simp [readBytes, h1, h2, h3, h4, h5, h6, hv, hI0, hB0, hS0, hT0, appendDeser, deserNew]
    | some otv =>
      simp [readBytes, h1, h2, h3, h4, h5, h6, hv, hI0, hB0, hS0, hT0, appendDeser, deserNew]
  | false =>
    rcases hS : readNStringsUnicode stringLen.toNat ub [] with ⟨os, us, strs⟩
    have hS0 : ∀ acc, readNStringsUnicode stringLen.toNat ub acc = (os, us, acc ++ strs) := by
      intro acc; rw [readNStringsUnicode_acc, hS]
    cases os with
    | none =>
      simp [readBytes, h1, h2, h3, h4, h5, h6, hv, hI0, hB0, hS0, appendDeser, deserNew]
    | some osv =>
    rcases hT : readNTags tagsLen.toNat us [] with ⟨ot, ut, tags⟩
    have hT0 : ∀ acc, readNTags tagsLen.toNat us acc = (ot, ut, acc ++ tags) := by
      intro acc; rw [readNTags_acc, hT]
    cases ot with
    | none =>
      simp [readBytes, h1, h2, h3, h4, h5, h6, hv, hI0, hB0, hS0, hT0, appendDeser, deserNew]
    | some otv =>
      simp [readBytes, h1, h2, h3, h4, h5, h6, hv, hI0, hB0, hS0, hT0, appendDeser, deserNew]

/-- **C9** (corrected). After a successful `read_bytes(payload, version)`
call each reader queue holds the prior contents followed by the values
decoded from the payload's corresponding column — the queues are appended
to, **not** refilled independently of their prior contents — and the
`take_*` operations drain them front-to-back. -/
theorem c9_read_bytes_queues (payload : List Nat) (version : Nat) (d0 : Deser)
    (h : (readBytes payload version d0).1 = some ()) :
    ∃ dec : Deser,
      readBytes payload version deserNew = (some (), dec) ∧
      readBytes payload version d0 = (some (), appendDeser d0 dec) ∧
      (∀ d : Deser, takeInt d =
        (d.integers.head?, { d with integers := d.integers.tail })) ∧
      (∀ d : Deser, takeBool d =
        (d.booleans.head?, { d with booleans := d.booleans.tail })) ∧
      (∀ d : Deser, takeString d =
        (d.strings.head?, { d with strings := d.strings.tail })) ∧
      (∀ d : Deser, takePropertyType d =
        (d.propertyTypes.head?, { d with propertyTypes := d.propertyTypes.tail })) := by
  have hf := readBytes_factor payload version d0
  have hnew : (readBytes payload version deserNew).1 = some () := by
    rw [hf] at h
    exact h
  refine ⟨(readBytes payload version deserNew).2, Prod.ext hnew rfl, ?_, ?_, ?_, ?_, ?_⟩
  · rw [hf, hnew]
  · intro d
    rcases d with ⟨ints, strs, bools, tags⟩
    cases ints <;> simp [takeInt]
  · intro d
    rcases d with ⟨ints, strs, bools, tags⟩
    cases bools <;> simp [takeBool]
  · intro d
    rcases d with ⟨ints, strs, bools, tags⟩
    cases strs <;> simp [takeString]
  · intro d
    rcases d with ⟨ints, strs, bools, tags⟩
    cases tags <;> simp [takePropertyType]

/-- **C9 counterexample**: decoding the payload produced from the single
integer 42 into a reader whose integer queue already holds 7 leaves the
queue `[7, 42]`, not the decoded column `[42]` alone. -/
theorem c9_cex :
    (readBytes c9payload 7 deserNew).1 = some () ∧
    (readBytes c9payload 7 deserNew).2.integers = [42] ∧
    (readBytes c9payload 7 c9prior).1 = some () ∧
    (readBytes c9payload 7 c9prior).2.integers = [7, 42] ∧
    ([7, 42] : List Int) ≠ [42] := by
  refine ⟨by decide, by decide, by decide, by decide, by decide⟩

/-- Witness for `c9_read_bytes_queues` at the C9 payload, version 7 and the
prior state whose integer queue holds 7. -/
theorem c9_read_bytes_queues_witness :
    ∃ dec : Deser,
      readBytes c9payload 7 deserNew = (some (), dec) ∧
      readBytes c9payload 7 c9prior = (some (), appendDeser c9prior dec) ∧
      (∀ d : Deser, takeInt d =
        (d.integers.head?, { d with integers := d.integers.tail })) ∧
      (∀ d : Deser, takeBool d =
        (d.booleans.head?, { d with booleans := d.booleans.tail })) ∧
      (∀ d : Deser, takeString d =
        (d.strings.head?, { d with strings := d.strings.tail })) ∧
      (∀ d : Deser, takePropertyType d =
        (d.propertyTypes.head?, { d with propertyTypes := d.propertyTypes.tail })) :=
  c9_read_bytes_queues c9payload 7 c9prior (by decide)

/-- A reader whose byte index is at or past the end of the buffer: every
failing primitive leaves the reader in such a state. -/
def udead (u : Unpacker) : Prop := u.buffer.length ≤ u.byteIndex

theorem get?_dead {u : Unpacker} (hd : udead u) :
    u.buffer.get? u.byteIndex = none := List.get?_eq_none.mpr hd

theorem readBit_fail {u : Unpacker} (h : (readBit u).1 = none) :
    udead (readBit u).2 := by
  unfold readBit at h ⊢
  cases hg : u.buffer.get? u.byteIndex with
  | none => simpa [udead] using List.get?_eq_none.mp hg
  | some byte => rw [hg] at h; simp at h

theorem readBits_fail {u : Unpacker} {w : Nat} (h : (readBits u w).1 = none) :
    udead (readBits u w).2 := by
  simp only [readBits] at h ⊢
  cases hg : u.buffer.get? u.byteIndex with
  | none => simpa [udead] using List.get?_eq_none.mp hg
  | some byte =>
    rw [hg] at h
    dsimp only at h ⊢
    by_cases hw : w ≤ 8 - u.bitOffset
    · rw [if_pos hw] at h
      by_cases h8 : u.bitOffset + w = 8 <;> simp [h8] at h
    · rw [if_neg hw] at h ⊢
      cases hg2 : u.buffer.get? (u.byteIndex + 1) with
      | none => simpa [udead] using List.get?_eq_none.mp hg2
      | some second => rw [hg2] at h; simp at h

theorem readByte_fail {u : Unpacker} (h : (readByte u).1 = none) :
    udead (readByte u).2 := by
  simp only [readByte] at h ⊢
  cases hg : u.buffer.get? u.byteIndex with
  | none => simpa [udead] using List.get?_eq_none.mp hg
  | some byte =>
    rw [hg] at h
    dsimp only at h ⊢
    by_cases h0 : u.bitOffset = 0
    · rw [if_pos h0] at h; simp at h
    · rw [if_neg h0] at h ⊢
      cases hg2 : u.buffer.get? (u.byteIndex + 1) with
      | none => simpa [udead] using List.get?_eq_none.mp hg2
      | some next => rw [hg2] at h; simp at h

theorem readBytesLoop_fail :
    ∀ (n v : Nat) (u : Unpacker), (readBytesLoop n v u).1 = none →
      udead (readBytesLoop n v u).2 := by
  intro n
  induction n with
  | zero => intro v u h; simp [readBytesLoop] at h
  | succ n ih =>
    intro v u h
    simp only [readBytesLoop] at h ⊢
    rcases hb : readByte u with ⟨ob, u1⟩
    cases ob with
    | none =>
      have h2 := readByte_fail (u := u) (by rw [hb])
      rw [hb] at h2
      exact h2
    | some b =>
      rw [hb] at h
      exact ih _ _ h

theorem readBytesWidth_fail {u : Unpacker} {w : Nat}
    (h : (readBytesWidth u w).1 = none) : udead (readBytesWidth u w).2 := by
  simp only [readBytesWidth] at h ⊢
  by_cases hh : 0 < w % 8
  · rw [if_pos hh] at h ⊢
    rcases hr : readBits u (w % 8) with ⟨o, u1⟩
    cases o with
    | none =>
      have h2 := readBits_fail (u := u) (w := w % 8) (by rw [hr])
      rw [hr] at h2
      exact h2
    | some v =>
      rw [hr] at h
      exact readBytesLoop_fail _ _ _ h
  · rw [if_neg hh] at h ⊢
    exact readBytesLoop_fail _ _ _ h

theorem readSlotAux_fail :
    ∀ (f : Nat) (u : Unpacker), (readSlotAux f u).1 = none →
      udead (readSlotAux f u).2 := by
  intro f
  induction f with
  | zero => intro u h; simp [readSlotAux] at h
  | succ f ih =>
    intro u h
    simp only [readSlotAux] at h ⊢
    rcases hb : readBit u with ⟨ob, u1⟩
    cases ob with
    | none =>
      have h2 := readBit_fail (u := u) (by rw [hb])
      rw [hb] at h2
      exact h2
    | some b =>
      rw [hb] at h
      cases b with
      | false => simp at h
      | true =>
        dsimp only at h ⊢
        rcases hr : readSlotAux f u1 with ⟨o2, u2⟩
        cases o2 with
        | none =>
          have h2 := ih u1 (by rw [hr])
          rw [hr] at h2
          exact h2
        | some s =>
          rw [hr] at h
          simp at h

theorem readInt_fail {u : Unpacker} (h : (readInt u).1 = none) :
    udead (readInt u).2 := by
  simp only [readInt] at h ⊢
  rcases hs : readSlotAux 6 u with ⟨os, u1⟩
  cases os with
  | none =>
    have h2 := readSlotAux_fail 6 u (by rw [hs])
    rw [hs] at h2
    exact h2
  | some slot =>
    rw [hs] at h
    dsimp only at h ⊢
    rcases hr : readBytesWidth u1 (INT_WIDTHS.getD slot 0) with ⟨o2, u2⟩
    cases o2 with
    | none =>
      have h2 := readBytesWidth_fail (u := u1) (w := INT_WIDTHS.getD slot 0)
        (by rw [hr])
      rw [hr] at h2
      exact h2
    | some v =>
      rw [hr] at h
      simp at h

theorem readBit_dead {u : Unpacker} (hd : udead u) : readBit u = (none, u) := by
  unfold readBit
  rw [get?_dead hd]

theorem readBits_dead {u : Unpacker} (hd : udead u) (w : Nat) :
    readBits u w = (none, u) := by
  simp only [readBits]
  rw [get?_dead hd]

theorem readByte_dead {u : Unpacker} (hd : udead u) : readByte u = (none, u) := by
  simp only [readByte]
  rw [get?_dead hd]

theorem readBytesWidth_dead {u : Unpacker} (hd : udead u) {w : Nat}
    (hw : 1 ≤ w) : readBytesWidth u w = (none, u) := by
  simp only [readBytesWidth]
  by_cases hh : 0 < w % 8
  · rw [if_pos hh, readBits_dead hd]
  · rw [if_neg hh]
    have h8 : 1 ≤ w / 8 := by omega
    obtain ⟨m, hm⟩ : ∃ m, w / 8 = m + 1 := ⟨w / 8 - 1, by omega⟩
    rw [hm]
    simp only [readBytesLoop]
    rw [readByte_dead hd]

theorem readInt_dead {u : Unpacker} (hd : udead u) : readInt u = (none, u) := by
  simp only [readInt, readSlotAux]
  rw [readBit_dead hd]

theorem ropApply_fail_dead (op : ROp) (u : Unpacker)
    (h : (ropApply op u).1 = none) : udead (ropApply op u).2 := by
  cases op with
  | rbit =>
    simp only [ropApply] at h ⊢
    rcases hb : readBit u with ⟨ob, u1⟩
    cases ob with
    | none =>
      have h2 := readBit_fail (u := u) (by rw [hb])
      rw [hb] at h2
      exact h2
    | some b =>
      rw [hb] at h
      simp at h
  | rbits w =>
    simp only [ropApply] at h ⊢
    rcases hb : readBits u w with ⟨ob, u1⟩
    cases ob with
    | none =>
      have h2 := readBits_fail (u := u) (w := w) (by rw [hb])
      rw [hb] at h2
      exact h2
    | some v =>
      rw [hb] at h
      simp at h
  | rbyte =>
    simp only [ropApply] at h ⊢
    rcases hb : readByte u with ⟨ob, u1⟩
    cases ob with
    | none =>
      have h2 := readByte_fail (u := u) (by rw [hb])
      rw [hb] at h2
      exact h2
    | some v =>
      rw [hb] at h
      simp at h
  | rbytesW w =>
    simp only [ropApply] at h ⊢
    rcases hb : readBytesWidth u w with ⟨ob, u1⟩
    cases ob with
    | none =>
      have h2 := readBytesWidth_fail (u := u) (w := w) (by rw [hb])
      rw [hb] at h2
      exact h2
    | some v =>
      rw [hb] at h
      simp at h
  | rint =>
    simp only [ropApply] at h ⊢
    exact readInt_fail h

theorem ropApply_dead (op : ROp) (hwf : ropWF op) {u : Unpacker}
    (hd : udead u) : ropApply op u = (none, u) := by
  cases op with
  | rbit => simp [ropApply, readBit_dead hd]
  | rbits w => simp [ropApply, readBits_dead hd]
  | rbyte => simp [ropApply, readByte_dead hd]
  | rbytesW w => simp [ropApply, readBytesWidth_dead hd hwf]
  | rint => simp [ropApply, readInt_dead hd]

theorem runReads_dead :
    ∀ (ops : List ROp), (∀ o ∈ ops, ropWF o) → ∀ {u : Unpacker}, udead u →
      runReads ops u = (List.replicate ops.length none, u) := by
  intro ops
  induction ops with
  | nil => intro _ u hd; simp [runReads]
  | cons op rest ih =>
    intro hwf u hd
    simp only [runReads, ropApply_dead op (hwf op (by simp)) hd]
    rw [ih (fun o ho => hwf o (by simp [ho])) hd]
    simp [List.replicate_succ]

/-- **C10** (corrected). From any reader state reachable by read
operations from a fresh reader, once a read operation fails the reader's
byte index is at or past the end of the buffer, and every subsequent read
that consumes at least one bit (all of `read_bit`, `read_bits`,
`read_byte`, `read_int`, and `read_bytes_width` with positive width) also
returns `None` and leaves the state unchanged.  The original claim fails
for `read_bytes_width 0`, which reads nothing and succeeds
unconditionally. -/
theorem c10_fail_sticks (pre : List ROp) (op : ROp) (post : List ROp)
    (buf : List Nat) (hwf : ∀ o ∈ post, ropWF o)
    (h : (ropApply op (runReads pre (unpackerNew buf)).2).1 = none) :
    runReads post (ropApply op (runReads pre (unpackerNew buf)).2).2 =
      (List.replicate post.length none,
        (ropApply op (runReads pre (unpackerNew buf)).2).2) :=
  runReads_dead post hwf (ropApply_fail_dead op _ h)

/-- **C10 counterexample**: over the empty buffer `read_bit` fails, yet the
immediately following `read_bytes_width 0` — a read operation with no
intervening `rewind_bits` — succeeds, returning 0. -/
theorem c10_cex :
    (ropApply ROp.rbit (unpackerNew [])).1 = none ∧
      (ropApply (ROp.rbytesW 0)
        (ropApply ROp.rbit (unpackerNew [])).2).1 = some 0 := by
  refine ⟨by decide, by decide⟩

/-- Witness for `c10_fail_sticks`: a failed `read_bit` over the empty
buffer, followed by `read_bit` and `read_byte`. -/
theorem c10_fail_sticks_witness :
    runReads [ROp.rbit, ROp.rbyte]
        (ropApply ROp.rbit (runReads [] (unpackerNew [])).2).2 =
      (List.replicate ([ROp.rbit, ROp.rbyte] : List ROp).length none,
        (ropApply ROp.rbit (runReads [] (unpackerNew [])).2).2) :=
  c10_fail_sticks [] ROp.rbit [ROp.rbit, ROp.rbyte] [] (by decide) (by decide)

theorem sum_set_getD (l : List Nat) :
    ∀ (i v : Nat), i < l.length →
      (l.set i v).sum + l.getD i 0 = l.sum + v := by
  induction l with
  | nil => intro i v h; simp at h
  | cons a t ih =>
    intro i v h
    cases i with
    | zero => simp [List.set]; omega
    | succ i =>
      simp only [List.set, List.sum_cons, List.getD_cons_succ]
      have := ih i v (by simpa using h)
      omega

/-- The fold of `minPosScan` from an arbitrary start index and state. -/
def minPosGo (k : Nat) (init : Nat × Nat) (l : List Nat) : Nat × Nat :=
  (List.enumFrom k l).foldl
    (fun mlmi il => if 0 < il.2 ∧ il.2 < mlmi.1 then (il.2, il.1) else mlmi) init

theorem minPosScan_eq_go (lens : List Nat) :
    minPosScan lens = minPosGo 0 (MAX_CODE_LEN + 1, 0) lens := rfl

theorem minPosGo_spec (l : List Nat) :
    ∀ (k ml mi : Nat),
      (∀ x ∈ l, 0 < x → (minPosGo k (ml, mi) l).1 ≤ x) ∧
      (minPosGo k (ml, mi) l).1 ≤ ml ∧
      (((minPosGo k (ml, mi) l).1 = ml ∧ (minPosGo k (ml, mi) l).2 = mi) ∨
        (0 < (minPosGo k (ml, mi) l).1 ∧
          ∃ j, j < l.length ∧ l.getD j 0 = (minPosGo k (ml, mi) l).1 ∧
            (minPosGo k (ml, mi) l).2 = k + j)) := by
  induction l with
  | nil =>
    intro k ml mi
    refine ⟨by simp, le_refl _, Or.inl ⟨rfl, rfl⟩⟩
  | cons a t ih =>
    intro k ml mi
    have hstep : minPosGo k (ml, mi) (a :: t) =
        minPosGo (k + 1) (if 0 < a ∧ a < ml then (a, k) else (ml, mi)) t := by
      simp [minPosGo, List.enumFrom]
    by_cases hc : 0 < a ∧ a < ml
    · rw [hstep, if_pos hc]
      obtain ⟨ha1, ha2, ha3⟩ := ih (k + 1) a k
      refine ⟨?_, le_trans ha2 (le_of_lt hc.2), ?_⟩
      · intro x hx hpos
        rcases List.mem_cons.mp hx with rfl | hx
        · exact ha2
        · exact ha1 x hx hpos
      · rcases ha3 with ⟨he, hi2⟩ | ⟨hp, j, hj, hval, hidx⟩
        · exact Or.inr ⟨by rw [he]; exact hc.1, 0, by simp, by simp [he],
            by rw [hi2]; omega⟩
        · exact Or.inr ⟨hp, j + 1, by simpa using hj, by simpa using hval,
            by rw [hidx]; omega⟩
    · rw [hstep, if_neg hc]
      obtain ⟨ha1, ha2, ha3⟩ := ih (k + 1) ml mi
      refine ⟨?_, ha2, ?_⟩
      · intro x hx hpos
        rcases List.mem_cons.mp hx with rfl | hx
        · have hxe : ml ≤ x := by omega
          exact le_trans ha2 hxe
        · exact ha1 x hx hpos
      · rcases ha3 with ⟨he, hi2⟩ | ⟨hp, j, hj, hval, hidx⟩
        · exact Or.inl ⟨he, hi2⟩
        · exact Or.inr ⟨hp, j + 1, by simpa using hj, by simpa using hval,
            by rw [hidx]; omega⟩

theorem kraftScaled_le_bound {lens : List Nat} {ml : Nat}
    (h : ∀ x ∈ lens, 0 < x → ml ≤ x) :
    kraftScaled lens ≤ lens.length * 2 ^ (15 - ml) := by
  unfold kraftScaled
  have hb : ∀ y ∈ lens.map (fun l => if 0 < l then 2 ^ (MAX_CODE_LEN - l) else 0),
      y ≤ 2 ^ (15 - ml) := by
    intro y hy
    rcases List.mem_map.mp hy with ⟨x, hx, rfl⟩
    by_cases hp : 0 < x
    · rw [if_pos hp]
      refine Nat.pow_le_pow_right (by norm_num) ?_
      have := h x hx hp
      simp only [MAX_CODE_LEN]
      omega
    · rw [if_neg hp]
      exact Nat.zero_le _
  have := List.sum_le_card_nsmul _ _ hb
  simpa using this

theorem kraftScaled_set {lens : List Nat} {i v : Nat} (h : i < lens.length) :
    kraftScaled (lens.set i v) +
        (if 0 < lens.getD i 0 then 2 ^ (MAX_CODE_LEN - lens.getD i 0) else 0) =
      kraftScaled lens + (if 0 < v then 2 ^ (MAX_CODE_LEN - v) else 0) := by
  unfold kraftScaled
  rw [List.map_set]
  have hsum := sum_set_getD
    (lens.map (fun l => if 0 < l then 2 ^ (MAX_CODE_LEN - l) else 0))
    i (if 0 < v then 2 ^ (MAX_CODE_LEN - v) else 0) (by simpa using h)
  have hm : (lens.map (fun l => if 0 < l then 2 ^ (MAX_CODE_LEN - l) else 0)).getD i 0
      = (if 0 < lens.getD i 0 then 2 ^ (MAX_CODE_LEN - lens.getD i 0) else 0) := by
    rw [List.getD_eq_getElem?_getD, List.getElem?_map,
      List.getElem?_eq_getElem h, List.getD_eq_getElem?_getD,
      List.getElem?_eq_getElem h]
    rfl
  rw [hm] at hsum
  exact hsum

theorem kraftScaled_replicate_zero : kraftScaled (List.replicate 256 0) = 0 := by
  unfold kraftScaled
  rw [List.map_replicate, if_neg (lt_irrefl 0), List.sum_replicate]
  simp

theorem limitLoop_spec :
    ∀ (fuel : Nat) (lens : List Nat), lens.length = 256 →
      (∀ l ∈ lens, l ≤ MAX_CODE_LEN) →
      kraftScaled lens ≤ 2 ^ 15 + fuel →
      (limitLoop fuel lens).length = 256 ∧
        (∀ l ∈ limitLoop fuel lens, l ≤ MAX_CODE_LEN) ∧
        kraftScaled (limitLoop fuel lens) ≤ 2 ^ 15 := by
  intro fuel
  induction fuel with
  | zero =>
    intro lens hlen hle hk
    simp only [limitLoop]
    exact ⟨hlen, hle, by simpa using hk⟩
  | succ fuel ih =>
    intro lens hlen hle hk
    simp only [limitLoop]
    by_cases hdone : kraftScaled lens ≤ 2 ^ MAX_CODE_LEN
    · rw [if_pos hdone]
      exact ⟨hlen, hle, by simpa [MAX_CODE_LEN] using hdone⟩
    · rw [if_neg hdone]
      have hkgt : 2 ^ 15 < kraftScaled lens := by
        simp only [MAX_CODE_LEN] at hdone
        omega
      obtain ⟨hmin, hlemax, hdisj⟩ := by
        have hgo := minPosGo_spec lens 0 (MAX_CODE_LEN + 1) 0
        rwa [← minPosScan_eq_go] at hgo
      have hexpos : ∃ x ∈ lens, 0 < x := by
        by_contra hnone
        push_neg at hnone
        have hz : kraftScaled lens = 0 := by
          unfold kraftScaled
          apply List.sum_eq_zero
          intro y hy
          rcases List.mem_map.mp hy with ⟨x, hx, rfl⟩
          rw [if_neg (by have := hnone x hx; omega)]
        omega
      obtain ⟨x0, hx0mem, hx0pos⟩ := hexpos
      have hfound : (minPosScan lens).1 ≤ MAX_CODE_LEN :=
        le_trans (hmin x0 hx0mem hx0pos) (hle x0 hx0mem)
      rcases hdisj with ⟨heq, _⟩ | ⟨hpos, j, hj, hval, hidx⟩
      · rw [heq] at hfound
        simp [MAX_CODE_LEN] at hfound
      have hbound := @kraftScaled_le_bound lens (minPosScan lens).1 hmin
      rw [hlen] at hbound
      have hml7 : (minPosScan lens).1 ≤ 7 := by
        by_contra h8
        push_neg at h8
        have hp7 : (2:Nat) ^ (15 - (minPosScan lens).1) ≤ 2 ^ 7 :=
          Nat.pow_le_pow_right (by norm_num) (by omega)
        have h2 : kraftScaled lens ≤ 256 * 2 ^ 7 :=
          le_trans hbound (Nat.mul_le_mul_left _ hp7)
        norm_num at h2
        omega
      rw [if_pos hfound]
      apply ih
      · rw [List.length_set, hlen]
      · intro l hl
        rcases List.mem_or_eq_of_mem_set hl with hmem | rfl
        · exact hle l hmem
        · simp only [MAX_CODE_LEN]
          omega
      · have hidx2 : (minPosScan lens).2 < lens.length := by omega
        have hset := @kraftScaled_set lens (minPosScan lens).2
          ((minPosScan lens).1 + 1) hidx2
        have hgd : lens.getD (minPosScan lens).2 0 = (minPosScan lens).1 := by
          rw [hidx]
          simpa using hval
        rw [hgd, if_pos hpos, if_pos (by omega)] at hset
        have hexp : (2:Nat) ^ (MAX_CODE_LEN - (minPosScan lens).1) =
            2 * 2 ^ (MAX_CODE_LEN - ((minPosScan lens).1 + 1)) := by
          rw [show MAX_CODE_LEN - (minPosScan lens).1 =
            (MAX_CODE_LEN - ((minPosScan lens).1 + 1)) + 1 by
              simp only [MAX_CODE_LEN]; omega]
          ring
        have hpospow : 1 ≤ (2:Nat) ^ (MAX_CODE_LEN - ((minPosScan lens).1 + 1)) :=
          Nat.one_le_two_pow
        omega

theorem limitLengths_spec {lens : List Nat} (hlen : lens.length = 256) :
    (limitLengths lens).length = 256 ∧
      (∀ l ∈ limitLengths lens, l ≤ MAX_CODE_LEN) ∧
      kraftScaled (limitLengths lens) ≤ 2 ^ 15 := by
  simp only [limitLengths]
  apply limitLoop_spec
  · simp [hlen]
  · intro l hl
    rcases List.mem_map.mp hl with ⟨x, hx, rfl⟩
    exact min_le_right _ _
  · omega

theorem length_traverseT : ∀ (t : HTree) (d : Nat) (lens : List Nat),
    (traverseT t d lens).length = lens.length := by
  intro t
  induction t with
  | leaf f sym => intro d lens; simp [traverseT]
  | node f l r ihl ihr => intro d lens; simp [traverseT, ihr, ihl]

theorem kraftQ_eq : ∀ lens : List Nat, (∀ l ∈ lens, l ≤ MAX_CODE_LEN) →
    kraftQ lens = (kraftScaled lens : ℚ) / 2 ^ 15 := by
  intro lens
  induction lens with
  | nil => intro _; simp [kraftQ, kraftScaled]
  | cons a t ih =>
    intro h
    have ha := h a (List.mem_cons_self a t)
    have ih2 := ih (fun l hl => h l (List.mem_cons_of_mem a hl))
    simp only [kraftQ, kraftScaled, List.map_cons, List.sum_cons] at ih2 ⊢
    rw [ih2]
    push_cast
    rw [add_div]
    congr 1
    by_cases hp : 0 < a
    · rw [if_pos hp, if_pos hp]
      have hpw : (2:ℚ) ^ (MAX_CODE_LEN - a) * 2 ^ a = 2 ^ 15 := by
        rw [← pow_add]
        congr 1
        simp only [MAX_CODE_LEN] at ha ⊢
        omega
      rw [div_eq_div_iff (by positivity) (by positivity), one_mul]
      rw [hpw]
    · rw [if_neg hp, if_neg hp]
      simp

set_option maxRecDepth 40000 in
/-- **C6** (corrected). For every frequency-count array the code lengths
assigned by `HuffmanTable::from_counts` satisfy the Kraft inequality, and
the maximum assigned length is at most `MAX_CODE_LEN = 15` — not 12 as the
spec claims (huffman.rs line 6 sets `MAX_CODE_LEN: u8 = 15`). -/
theorem c6_huffman_kraft (counts : List Nat) :
    kraftQ (fromCountsLengths counts) ≤ 1 ∧
      ∀ l ∈ fromCountsLengths counts, l ≤ MAX_CODE_LEN := by
  have key : (∀ l ∈ fromCountsLengths counts, l ≤ MAX_CODE_LEN) ∧
      kraftScaled (fromCountsLengths counts) ≤ 2 ^ 15 := by
    simp only [fromCountsLengths]
    rcases hheap : counts.enum.filterMap
        (fun sf => if 0 < sf.2 then some (HTree.leaf sf.2 sf.1) else none) with
      _ | ⟨t, rest⟩
    · simp only [hheap]
      refine ⟨?_, ?_⟩
      · intro l hl
        have := List.eq_of_mem_replicate hl
        simp only [MAX_CODE_LEN]
        omega
      · rw [kraftScaled_replicate_zero]
        positivity
    · rcases rest with _ | ⟨t2, rest2⟩
      · cases t with
        | leaf f sym =>
          simp only [hheap]
          refine ⟨?_, ?_⟩
          · intro l hl
            rcases List.mem_or_eq_of_mem_set hl with hm | rfl
            · have := List.eq_of_mem_replicate hm
              simp only [MAX_CODE_LEN]
              omega
            · simp [MAX_CODE_LEN]
          · by_cases hs : sym < 256
            · have hset := @kraftScaled_set (List.replicate 256 0)
                sym 1 (by simpa using hs)
              have hgd : (List.replicate 256 0).getD sym 0 = 0 := by
                rw [List.getD_eq_getElem?_getD,
                  List.getElem?_eq_getElem (by simpa using hs),
                  List.getElem_replicate]
                rfl
              rw [hgd, if_neg (lt_irrefl 0), if_pos (by omega),
                kraftScaled_replicate_zero] at hset
              simp only [MAX_CODE_LEN] at hset
              omega
            · rw [List.set_eq_of_length_le (by simpa using hs),
                kraftScaled_replicate_zero]
              positivity
        | node f l r =>
          simp only [hheap]
          refine ⟨?_, ?_⟩
          · intro l hl
            have := List.eq_of_mem_replicate hl
            simp only [MAX_CODE_LEN]
            omega
          · rw [kraftScaled_replicate_zero]
            positivity
      · simp only [hheap]
        have hlen1 : (traverseT
            ((mergeLoop (t :: t2 :: rest2).length (t :: t2 :: rest2)).headD
              (HTree.leaf 0 0)) 0 (List.replicate 256 0)).length = 256 := by
          rw [length_traverseT]
          simp
        obtain ⟨h1, h2, h3⟩ := limitLengths_spec hlen1
        exact ⟨h2, h3⟩
  refine ⟨?_, key.1⟩
  rw [kraftQ_eq _ key.1, div_le_one (by positivity)]
  exact_mod_cast key.2

set_option maxRecDepth 100000 in
/-- **C6 counterexample**: for the tie-free frequency counts `2 ^ i` at
symbols `i = 0..13` the built code assigns symbol 0 the length 13, which
exceeds the claimed bound of 12 (every merge in the construction picks two
nodes of distinct frequencies, so Rust's `BinaryHeap` tie order cannot
change the result). -/
theorem c6_cex :
    (fromCountsLengths huffCexCounts).getD 0 0 = 13 ∧
      ¬ (fromCountsLengths huffCexCounts).getD 0 0 ≤ 12 := by
  refine ⟨by decide, by decide⟩

theorem sizeAux_congr : ∀ (n f1 f2 : Nat), n ≤ f1 → n ≤ f2 →
    sizeAux f1 n = sizeAux f2 n := by
  intro n
  induction n using Nat.strong_induction_on with
  | _ n ih =>
    intro f1 f2 h1 h2
    rcases Nat.eq_zero_or_pos n with rfl | hpos
    · cases f1 <;> cases f2 <;> simp [sizeAux]
    · obtain ⟨g1, rfl⟩ : ∃ g1, f1 = g1 + 1 := ⟨f1 - 1, by omega⟩
      obtain ⟨g2, rfl⟩ : ∃ g2, f2 = g2 + 1 := ⟨f2 - 1, by omega⟩
      simp only [sizeAux, if_neg (by omega : ¬ n = 0)]
      rw [ih (n / 2) (by omega) g1 g2 (by omega) (by omega)]

theorem bitSize_rec {n : Nat} (h : 0 < n) : bitSize n = bitSize (n / 2) + 1 := by
  obtain ⟨m, rfl⟩ : ∃ m, n = m + 1 := ⟨n - 1, by omega⟩
  show sizeAux (m + 1) (m + 1) = bitSize ((m + 1) / 2) + 1
  simp only [sizeAux, if_neg (by omega : ¬ m + 1 = 0)]
  rw [sizeAux_congr ((m + 1) / 2) m ((m + 1) / 2) (by omega) (by omega)]
  rfl

theorem bitSize_le (n : Nat) : ∀ m : Nat, bitSize n ≤ m ↔ n < 2 ^ m := by
  induction n using Nat.strong_induction_on with
  | _ n ih =>
    intro m
    rcases Nat.eq_zero_or_pos n with rfl | hpos
    · refine ⟨fun _ => pow_pos (by norm_num) m, fun _ => ?_⟩
      rw [show bitSize 0 = 0 from rfl]
      exact Nat.zero_le m
    · rw [bitSize_rec hpos]
      cases m with
      | zero =>
        rw [pow_zero]
        omega
      | succ m1 =>
        have ihm := ih (n / 2) (Nat.div_lt_self hpos (by norm_num)) m1
        rw [pow_succ]
        omega

theorem lt_two_pow_bitSize (n : Nat) : n < 2 ^ bitSize n :=
  (bitSize_le n (bitSize n)).mp (le_refl _)

theorem fobLoop_inv (M : Nat) : ∀ (fuel k : Nat) (st : Nat × Nat × Nat),
    1 ≤ k → 1 ≤ st.1 → M ^ st.1 ≤ 2 ^ 64 - 1 →
    1 ≤ (fobLoop M fuel k st).1 ∧ M ^ (fobLoop M fuel k st).1 ≤ 2 ^ 64 - 1 := by
  intro fuel
  induction fuel with
  | zero => intro k st _ h1 h2; exact ⟨h1, h2⟩
  | succ fuel ih =>
    intro k st hk h1 h2
    rcases st with ⟨bestK, bn, bd⟩
    simp only [fobLoop]
    by_cases hk40 : k ≤ 40
    · rw [if_pos hk40]
      by_cases hpow : M ^ k ≤ 2 ^ 64 - 1
      · rw [if_pos hpow]
        by_cases hz : M ^ k = 0
        · rw [if_pos hz]; exact ⟨h1, h2⟩
        · rw [if_neg hz]
          by_cases hcmp : bitSize (M ^ k - 1) * bd < bn * k
          · rw [if_pos hcmp]
            exact ih (k + 1) _ (by omega) (by simpa using hk) (by simpa using hpow)
          · rw [if_neg hcmp]
            exact ih (k + 1) _ (by omega) h1 h2
      · rw [if_neg hpow]; exact ⟨h1, h2⟩
    · rw [if_neg hk40]; exact ⟨h1, h2⟩

theorem findOptimalBundle_spec {M : Nat} (hM64 : M ≤ 2 ^ 64 - 1) :
    1 ≤ (findOptimalBundle M).1 ∧
      M ^ (findOptimalBundle M).1 ≤ 2 ^ 64 - 1 ∧
      (findOptimalBundle M).2 = bitSize (M ^ (findOptimalBundle M).1 - 1) ∧
      M ^ (findOptimalBundle M).1 - 1 < 2 ^ (findOptimalBundle M).2 ∧
      (findOptimalBundle M).2 ≤ 64 := by
  have hinv := fobLoop_inv M 40 1 (1, if M = 0 then 0 else bitSize M, 1)
    (le_refl 1) (le_refl 1) (by simpa using hM64)
  have hfst : (findOptimalBundle M).1 =
      (fobLoop M 40 1 (1, if M = 0 then 0 else bitSize M, 1)).1 := rfl
  have hsnd : (findOptimalBundle M).2 =
      bitSize (M ^ (fobLoop M 40 1 (1, if M = 0 then 0 else bitSize M, 1)).1 - 1) := rfl
  refine ⟨by rw [hfst]; exact hinv.1, by rw [hfst]; exact hinv.2, ?_, ?_, ?_⟩
  · rw [hsnd, hfst]
  · rw [hsnd, hfst]
    exact lt_two_pow_bitSize _
  · rw [hsnd]
    rw [bitSize_le]
    have := hinv.2
    omega

theorem encode_foldl_shift (M : Nat) : ∀ (ds : List Nat) (b : Nat),
    ds.foldl (fun bundle val => bundle * M + val) b =
      b * M ^ ds.length + ds.foldl (fun bundle val => bundle * M + val) 0 := by
  intro ds
  induction ds with
  | nil => intro b; simp
  | cons d t ih =>
    intro b
    simp only [List.foldl_cons, List.length_cons]
    rw [ih (b * M + d), ih (0 * M + d)]
    ring

theorem encode_lt {M : Nat} (hM : 1 ≤ M) : ∀ (ds : List Nat),
    (∀ d ∈ ds, d < M) → encode ds.length M ds < M ^ ds.length := by
  intro ds
  induction ds with
  | nil => intro _; simp [encode]
  | cons d t ih =>
    intro h
    have hd := h d (List.mem_cons_self d t)
    have ht := ih (fun x hx => h x (List.mem_cons_of_mem d hx))
    simp only [encode, List.foldl_cons, List.length_cons] at ht ⊢
    rw [encode_foldl_shift M t (0 * M + d), Nat.zero_mul, Nat.zero_add]
    have hpow : (1 : Nat) ≤ M ^ t.length := Nat.one_le_pow _ _ (by omega)
    have hstep : d * M ^ t.length + t.foldl
        (fun bundle val => bundle * M + val) 0 <
        (d + 1) * M ^ t.length := by
      rw [add_one_mul]
      omega
    calc d * M ^ t.length +
          t.foldl (fun bundle val => bundle * M + val) 0
        < (d + 1) * M ^ t.length := hstep
      _ ≤ M * M ^ t.length := Nat.mul_le_mul_right _ (by omega)
      _ = M ^ (t.length + 1) := by ring

theorem decode_encode {M : Nat} (hM : 1 ≤ M) : ∀ (ds : List Nat),
    (∀ d ∈ ds, d < M) → decode ds.length M (encode ds.length M ds) = ds := by
  intro ds
  induction ds using List.reverseRecOn with
  | nil => intro _; simp [decode, encode]
  | append_singleton t d ih =>
    intro h
    have hd : d < M := h d (by simp)
    have ht := ih (fun x hx => h x (by simp [hx]))
    have hzl : ∀ l : List Nat, encode l.length M l =
        l.foldl (fun bundle val => bundle * M + val) 0 := fun l => rfl
    have henc : encode (t ++ [d]).length M (t ++ [d]) =
        encode t.length M t * M + d := by
      rw [hzl, hzl, List.foldl_append]
      simp
    rw [henc]
    have hlen : (t ++ [d]).length = t.length + 1 := by simp
    rw [hlen]
    simp only [decode]
    rw [show (encode t.length M t * M + d) % M = d by
      rw [Nat.add_comm, Nat.add_mul_mod_self_right, Nat.mod_eq_of_lt hd]]
    rw [show (encode t.length M t * M + d) / M = encode t.length M t by
      rw [Nat.add_comm, Nat.add_mul_div_right _ _ (by omega : 0 < M),
        Nat.div_eq_of_lt hd, Nat.zero_add]]
    rw [ht]

theorem writeBundle_spec {p : Packer} (h : PWF p) {b bundle : Nat}
    (hble : b ≤ 64) :
    PWF (writeBundle p b bundle) ∧
      packerBits (writeBundle p b bundle) = packerBits p ++ natToBits b bundle ∧
      (natToBits b bundle).length = b := by
  obtain ⟨hwf, hbits⟩ := @writeBytesWidth_spec _ h (leBytes 8 bundle)
    b leBytes_lt (by rw [length_leBytes]; omega)
  refine ⟨hwf, ?_, length_natToBits _ _⟩
  rw [show writeBundle p b bundle = writeBytesWidth p (leBytes 8 bundle) b from rfl,
    hbits, leVal_leBytes]
  congr 1
  apply natToBits_congr
  rw [Nat.mod_mod_of_dvd _ (Nat.pow_dvd_pow 2 (by omega : b ≤ 8 * 8))]

theorem readBundleLoop_spec {buf : List Nat} :
    ∀ (m w v n : Nat), w < 2 ^ m → v * 2 ^ m + w < 2 ^ 64 →
      n + m ≤ 8 * buf.length →
      (∀ i < m, (bufBits buf).getD (n + i) false = (natToBits m w).getD i false) →
      readBundleLoop m v (mkUp buf n) = (some (v * 2 ^ m + w), mkUp buf (n + m)) := by
  intro m
  induction m with
  | zero =>
    intro w v n hw _ _ _
    simp only [readBundleLoop]
    have : w = 0 := by omega
    subst this
    simp
  | succ m ih =>
    intro w v n hw htot hlen hseg
    have hb0 : w >>> m < 2 := by
      have h2 := shiftRight_lt (s := m) hw
      rwa [show m + 1 - m = 1 by omega, pow_one] at h2
    have hb01 : w >>> m = 0 ∨ w >>> m = 1 := by
      rcases Nat.lt_succ_iff_lt_or_eq.mp hb0 with h1 | h1
      · exact Or.inl (Nat.lt_one_iff.mp h1)
      · exact Or.inr h1
    have hsplitw : natToBits (m + 1) w =
        natToBits 1 (w >>> m) ++ natToBits m w := by
      rw [show m + 1 = 1 + m by omega]
      exact natToBits_split 1 m w
    have hbitval : natToBits 1 (w >>> m) = [decide (w >>> m = 1)] := by
      rcases hb01 with he | he <;> rw [he] <;> rfl
    have hbit : (bufBits buf).getD (n + 0) false = decide (w >>> m = 1) := by
      rw [hseg 0 (by omega), hsplitw, hbitval]
      rfl
    have hrb : readBit (mkUp buf n) =
        (some (decide (w >>> m = 1)), mkUp buf (n + 1)) := by
      apply readBit_spec (by omega)
      simpa using hbit
    have hshift : (v <<< 1) % 2 ^ 64 = 2 * v := by
      rw [Nat.shiftLeft_eq, pow_one, Nat.mul_comm]
      apply Nat.mod_eq_of_lt
      have hp1 : (1 : Nat) ≤ 2 ^ m := Nat.one_le_two_pow
      have : v * 2 ≤ v * 2 ^ (m + 1) := Nat.mul_le_mul_left v (by
        have := Nat.pow_le_pow_right (by norm_num : 1 ≤ 2) (by omega : 1 ≤ m + 1)
        simpa using this)
      omega
    have hlor : (2 * v) ||| (if decide (w >>> m = 1) then 1 else 0) =
        2 * v + w >>> m := by
      rw [lor_eq_add (k := 1) (by rw [pow_one]; exact Nat.mul_mod_right 2 v)
        (by rcases hb01 with he | he <;> simp [he])]
      rcases hb01 with he | he <;> simp [he]
    have hdm : w = 2 ^ m * (w >>> m) + w % 2 ^ m := by
      rw [Nat.shiftRight_eq_div_pow]
      exact (Nat.div_add_mod w (2 ^ m)).symm
    have hval : (2 * v + w >>> m) * 2 ^ m + w % 2 ^ m = v * 2 ^ (m + 1) + w := by
      conv_rhs => rw [hdm]
      ring
    have hrec := ih (w % 2 ^ m) (2 * v + w >>> m) (n + 1)
      (Nat.mod_lt _ (by positivity))
      (by rw [hval]; exact htot)
      (by omega)
      (by
        intro i hi
        have h2 := hseg (i + 1) (by omega)
        rw [show n + (i + 1) = n + 1 + i by omega] at h2
        rw [h2, hsplitw, hbitval, natToBits_mod]
        rfl)
    simp only [readBundleLoop, hrb, hshift, hlor, hrec]
    rw [Prod.mk.injEq]
    refine ⟨?_, ?_⟩
    · rw [hval]
    · rw [show n + 1 + m = n + (m + 1) by omega]

theorem readBundle_spec {buf : List Nat} {b w n : Nat}
    (hb : b ≤ 64) (hw : w < 2 ^ b)
    (hlen : n + b ≤ 8 * buf.length)
    (hseg : ∀ i < b, (bufBits buf).getD (n + i) false =
      (natToBits b w).getD i false) :
    readBundle (mkUp buf n) b = (some w, mkUp buf (n + b)) := by
  have h64 : w < 2 ^ 64 :=
    lt_of_lt_of_le hw (Nat.pow_le_pow_right (by norm_num) hb)
  have := readBundleLoop_spec b w 0 n hw (by omega) hlen hseg
  simpa [readBundle] using this

/-- **C5**. For every alphabet size `M ≥ 2` representable as a `u64`, with
`(k, b) = find_optimal_bundle M`, and every `k`-tuple of digits each below
`M`: `decode ∘ encode` is the identity on the tuple, `write_bundle` appends
exactly `b` bits (the encoded bundle in MSB-first binary), and `read_bundle`
of `b` bits starting where those bits lie recovers the bundle value. -/
theorem c5_bundle_roundtrip (M : Nat) (hM : 2 ≤ M) (hM64 : M ≤ 2 ^ 64 - 1)
    (ds : List Nat) (hlen : ds.length = (findOptimalBundle M).1)
    (hds : ∀ d ∈ ds, d < M)
    {p : Packer} (hp : PWF p)
    {buf : List Nat} {n : Nat}
    (hbuflen : n + (findOptimalBundle M).2 ≤ 8 * buf.length)
    (hseg : ∀ i < (findOptimalBundle M).2,
      (bufBits buf).getD (n + i) false =
        (natToBits (findOptimalBundle M).2
          (encode (findOptimalBundle M).1 M ds)).getD i false) :
    decode (findOptimalBundle M).1 M (encode (findOptimalBundle M).1 M ds) = ds ∧
    packerBits (writeBundle p (findOptimalBundle M).2
        (encode (findOptimalBundle M).1 M ds)) =
      packerBits p ++ natToBits (findOptimalBundle M).2
        (encode (findOptimalBundle M).1 M ds) ∧
    (natToBits (findOptimalBundle M).2
        (encode (findOptimalBundle M).1 M ds)).length =
      (findOptimalBundle M).2 ∧
    readBundle (mkUp buf n) (findOptimalBundle M).2 =
      (some (encode (findOptimalBundle M).1 M ds),
        mkUp buf (n + (findOptimalBundle M).2)) := by
  obtain ⟨hk1, hkfit, hbeq, hblt, hb64⟩ := findOptimalBundle_spec hM64
  have henc_lt : encode (findOptimalBundle M).1 M ds <
      M ^ (findOptimalBundle M).1 := by
    rw [← hlen]
    exact encode_lt (by omega) ds hds
  have henc2 : encode (findOptimalBundle M).1 M ds <
      2 ^ (findOptimalBundle M).2 := by
    have hpos : 1 ≤ M ^ (findOptimalBundle M).1 :=
      Nat.one_le_pow _ _ (by omega)
    omega
  obtain ⟨hw1, hw2, hw3⟩ := @writeBundle_spec _ hp
    ((findOptimalBundle M).2)
    (encode (findOptimalBundle M).1 M ds) hb64
  refine ⟨?_, hw2, hw3, ?_⟩
  · rw [← hlen] at henc_lt ⊢
    exact decode_encode (by omega) ds hds
  · exact readBundle_spec hb64 henc2 hbuflen hseg

/-- Witness for `c5_bundle_roundtrip` at `M = 2`: `find_optimal_bundle 2 =
(1, 1)`, the 1-tuple `[1]` encodes to bundle 1, written as the single bit
`1`, read back from the buffer `[0x80]`. -/
theorem c5_bundle_roundtrip_witness :
    decode (findOptimalBundle 2).1 2 (encode (findOptimalBundle 2).1 2 [1]) = [1] ∧
    packerBits (writeBundle packerNew (findOptimalBundle 2).2
        (encode (findOptimalBundle 2).1 2 [1])) =
      packerBits packerNew ++ natToBits (findOptimalBundle 2).2
        (encode (findOptimalBundle 2).1 2 [1]) ∧
    (natToBits (findOptimalBundle 2).2
        (encode (findOptimalBundle 2).1 2 [1])).length =
      (findOptimalBundle 2).2 ∧
    readBundle (mkUp [128] 0) (findOptimalBundle 2).2 =
      (some (encode (findOptimalBundle 2).1 2 [1]),
        mkUp [128] (0 + (findOptimalBundle 2).2)) :=
  @c5_bundle_roundtrip 2 (by decide) (by norm_num) [1] (by decide) (by decide)
    packerNew (by decide) [128] 0 (by decide) (by decide)

theorem getD_take {l : List Bool} {k i : Nat} (h : i < k) :
    (l.take k).getD i false = l.getD i false := by
  rw [List.getD_eq_getElem?_getD, List.getD_eq_getElem?_getD,
    List.getElem?_take_of_lt h]

theorem wopApply_spec {p : Packer} (h : PWF p) {op : WOp} (hwf : wopWF op) :
    PWF (wopApply p op) ∧
      packerBits (wopApply p op) = packerBits p ++ wopBits op := by
  cases op with
  | bit b => exact writeBit_spec h b
  | bits v w =>
    obtain ⟨hv, hw1, hw8⟩ := hwf
    exact writeBits_spec h v hw8
  | byte b => exact writeByte_spec h hwf
  | bytesW v w =>
    obtain ⟨hv, hw⟩ := hwf
    obtain ⟨h1, h2⟩ := @writeBytesWidth_spec _ h (leBytes 8 v) w
      leBytes_lt (by rw [length_leBytes]; omega)
    refine ⟨h1, ?_⟩
    rw [show wopApply p (WOp.bytesW v w) = writeBytesWidth p (leBytes 8 v) w from rfl,
      h2, leVal_leBytes]
    simp only [wopBits]
    congr 1
    apply natToBits_congr
    rw [Nat.mod_mod_of_dvd _ (Nat.pow_dvd_pow 2 (by omega : w ≤ 8 * 8))]

theorem length_wopBits {op : WOp} (hwf : wopWF op) :
    (wopBits op).length = match op with
      | .bit _ => 1
      | .bits _ w => w
      | .byte _ => 8
      | .bytesW _ w => w := by
  cases op <;> simp [wopBits, length_natToBits]

theorem wopRead_spec {buf : List Nat} {n : Nat} {op : WOp}
    (hbytes : ∀ x ∈ buf, x < 256) (hwf : wopWF op)
    (hlen : n + (wopBits op).length ≤ 8 * buf.length)
    (hseg : ∀ i < (wopBits op).length,
      (bufBits buf).getD (n + i) false = (wopBits op).getD i false) :
    wopRead op (mkUp buf n) =
      (some (wopVal op), mkUp buf (n + (wopBits op).length)) := by
  cases op with
  | bit b =>
    simp only [wopBits, List.length_cons, List.length_nil] at hlen hseg
    have hrb : readBit (mkUp buf n) = (some b, mkUp buf (n + 1)) := by
      apply readBit_spec (by omega)
      have := hseg 0 (by omega)
      simpa using this
    simp [wopRead, hrb, wopVal, wopBits]
  | bits v w =>
    obtain ⟨hv, hw1, hw8⟩ := hwf
    simp only [wopBits, length_natToBits] at hlen hseg
    have hr := readBits_spec hbytes hw1 hw8
      (Nat.mod_lt _ (by positivity) : v % 2 ^ w < 2 ^ w) hlen
      (by intro i hi; rw [hseg i hi, natToBits_mod])
    simp only [wopRead, wopVal, wopBits, length_natToBits]
    exact hr
  | byte b =>
    simp only [wopWF] at hwf
    simp only [wopBits, length_natToBits] at hlen hseg
    have hr := readByte_spec hbytes (show b < 2 ^ 8 by omega) hlen hseg
    simp only [wopRead, wopVal, wopBits, length_natToBits]
    exact hr
  | bytesW v w =>
    obtain ⟨hv, hw⟩ := hwf
    simp only [wopBits, length_natToBits] at hlen hseg
    have hr := readBytesWidth_spec hbytes hw
      (Nat.mod_lt _ (by positivity) : v % 2 ^ w < 2 ^ w) hlen
      (by intro i hi; rw [hseg i hi, natToBits_mod])
    simp only [wopRead, wopVal, wopBits, length_natToBits]
    exact hr

theorem runWrites_go : ∀ (ops : List WOp) (p : Packer), PWF p →
    (∀ op ∈ ops, wopWF op) →
    PWF (ops.foldl wopApply p) ∧
      packerBits (ops.foldl wopApply p) =
        packerBits p ++ (ops.map wopBits).flatten := by
  intro ops
  induction ops with
  | nil =>
    intro p hp _
    refine ⟨hp, ?_⟩
    simp
  | cons op rest ih =>
    intro p hp hwf
    obtain ⟨h1, h2⟩ := wopApply_spec hp (hwf op (by simp))
    obtain ⟨h3, h4⟩ := ih (wopApply p op) h1 (fun o ho => hwf o (by simp [ho]))
    refine ⟨h3, ?_⟩
    rw [List.foldl_cons, h4, h2, List.map_cons, List.flatten_cons, List.append_assoc]

theorem readAll_spec : ∀ (ops : List WOp) {buf : List Nat} (n : Nat),
    (∀ x ∈ buf, x < 256) → (∀ op ∈ ops, wopWF op) →
    n + ((ops.map wopBits).flatten).length ≤ 8 * buf.length →
    (∀ i < ((ops.map wopBits).flatten).length,
      (bufBits buf).getD (n + i) false = ((ops.map wopBits).flatten).getD i false) →
    readAll ops (mkUp buf n) =
      (some (ops.map wopVal), mkUp buf (n + ((ops.map wopBits).flatten).length)) := by
  intro ops
  induction ops with
  | nil => intro buf n _ _ _ _; simp [readAll]
  | cons op rest ih =>
    intro buf n hbytes hwf hlen hseg
    simp only [List.map_cons, List.flatten_cons, List.length_append] at hlen hseg
    have hseg1 : ∀ i < (wopBits op).length,
        (bufBits buf).getD (n + i) false = (wopBits op).getD i false := by
      intro i hi
      rw [hseg i (by omega), List.getD_append _ _ _ _ hi]
    have hr1 := wopRead_spec hbytes (hwf op (by simp)) (by omega) hseg1
    have hseg2 : ∀ i < ((rest.map wopBits).flatten).length,
        (bufBits buf).getD (n + (wopBits op).length + i) false =
          ((rest.map wopBits).flatten).getD i false := by
      intro i hi
      have h2 := hseg ((wopBits op).length + i) (by omega)
      rw [show n + ((wopBits op).length + i) =
        n + (wopBits op).length + i by omega] at h2
      rw [h2, List.getD_append_right _ _ _ _ (by omega)]
      congr 1
      omega
    have hr2 := ih (n + (wopBits op).length) hbytes
      (fun o ho => hwf o (by simp [ho])) (by omega) hseg2
    simp only [readAll, hr1, hr2, List.map_cons]
    rw [Prod.mk.injEq]
    refine ⟨rfl, ?_⟩
    rw [List.flatten_cons, List.length_append]
    congr 1
    omega

theorem packerBits_packerNew : packerBits packerNew = [] := rfl

/-- **C2**. Writing any well-formed sequence of bit-stream operations to a
fresh `BitPacker` and then performing the matching reads in order on a
fresh `BitUnpacker` over the produced buffer succeeds: every read returns
the written value (`write_bits` and `write_bytes_width` arguments taken
modulo `2 ^ width`), and the reader ends exactly at the last written bit. -/
theorem c2_bitstream_inverse (ops : List WOp) (hwf : ∀ op ∈ ops, wopWF op) :
    PWF (runWrites ops) ∧
    readAll ops (unpackerNew (runWrites ops).buffer) =
      (some (ops.map wopVal),
        mkUp (runWrites ops).buffer ((ops.map wopBits).flatten.length)) := by
  obtain ⟨hwfp, hbits⟩ := runWrites_go ops packerNew (by decide) hwf
  have hbits0 : packerBits (runWrites ops) = (ops.map wopBits).flatten := by
    rw [show runWrites ops = ops.foldl wopApply packerNew from rfl, hbits,
      packerBits_packerNew, List.nil_append]
  have hlenpb : ((ops.map wopBits).flatten).length ≤
      8 * (runWrites ops).buffer.length := by
    have h2 : (packerBits (runWrites ops)).length =
        min (writtenBits (runWrites ops)) (8 * (runWrites ops).buffer.length) := by
      rw [packerBits, List.length_take, length_bufBits]
    rw [hbits0] at h2
    omega
  have hiw : ((ops.map wopBits).flatten).length ≤ writtenBits (runWrites ops) := by
    have h2 : (packerBits (runWrites ops)).length =
        min (writtenBits (runWrites ops)) (8 * (runWrites ops).buffer.length) := by
      rw [packerBits, List.length_take, length_bufBits]
    rw [hbits0] at h2
    omega
  have hbytes : ∀ x ∈ (runWrites ops).buffer, x < 256 := hwfp.2.2.1
  have hseg : ∀ i < ((ops.map wopBits).flatten).length,
      (bufBits (runWrites ops).buffer).getD (0 + i) false =
        ((ops.map wopBits).flatten).getD i false := by
    intro i hi
    rw [Nat.zero_add, ← hbits0]
    show (bufBits (runWrites ops).buffer).getD i false =
      ((bufBits (runWrites ops).buffer).take (writtenBits (runWrites ops))).getD i false
    exact (getD_take (by omega)).symm
  have hmain := readAll_spec ops 0 hbytes hwf (by omega) hseg
  refine ⟨hwfp, ?_⟩
  rw [show unpackerNew (runWrites ops).buffer =
    mkUp (runWrites ops).buffer 0 from rfl, hmain, Nat.zero_add]

/-- Witness for `c2_bitstream_inverse` on the sequence `write_bit true;
write_bits 5 3; write_byte 240; write_bytes_width 300 9`. -/
theorem c2_bitstream_inverse_witness :
    PWF (runWrites [WOp.bit true, WOp.bits 5 3, WOp.byte 240,
        WOp.bytesW 300 9]) ∧
    readAll [WOp.bit true, WOp.bits 5 3, WOp.byte 240, WOp.bytesW 300 9]
        (unpackerNew (runWrites [WOp.bit true, WOp.bits 5 3, WOp.byte 240,
          WOp.bytesW 300 9]).buffer) =
      (some ([WOp.bit true, WOp.bits 5 3, WOp.byte 240,
          WOp.bytesW 300 9].map wopVal),
        mkUp (runWrites [WOp.bit true, WOp.bits 5 3, WOp.byte 240,
            WOp.bytesW 300 9]).buffer
          (([WOp.bit true, WOp.bits 5 3, WOp.byte 240,
            WOp.bytesW 300 9].map wopBits).flatten.length)) :=
  c2_bitstream_inverse
    [WOp.bit true, WOp.bits 5 3, WOp.byte 240, WOp.bytesW 300 9] (by decide)

end Spec2Proof
